import Mathlib

set_option linter.unusedSectionVars false

/-!
Verification of the directed breadth-first search engine of the `pathfinding`
repository (`src/directed/bfs.rs`), together with models of the cost-aware
engines (Dijkstra, A*, IDA*) whose source files are not part of the sources
and are therefore modelled from the specification.

The `FxIndexMap<N, usize>` used by `bfs_core` is an insertion-ordered map; it
is embedded as an association list `List (N × Option Nat)` where the position
of an entry is its index.  The `usize::max_value()` sentinel that marks start
nodes is embedded as `none` (the spec's "none sentinel"): `reverse_path` stops
walking exactly when the parent value is the sentinel, and `usize::max_value()`
can never be a valid index of the map.
-/

namespace Pathfinding

variable {N : Type} [DecidableEq N]

/-- The keys of the insertion-ordered parents map, in insertion order. -/
def keys (ps : List (N × Option Nat)) : List N := ps.map Prod.fst

/-- Membership test of the `FxIndexMap` (`parents.entry(..)` being occupied). -/
def containsKey (ps : List (N × Option Nat)) (n : N) : Bool := decide (n ∈ keys ps)

/-- `if let Vacant(e) = parents.entry(successor) { e.insert(i) }`: insert a
successor with parent index `i` only when it is absent. -/
def insertVacant (ps : List (N × Option Nat)) (n : N) (i : Nat) : List (N × Option Nat) :=
  if containsKey ps n then ps else ps ++ [(n, some i)]

/-- `IndexMap::insert` semantics used for the start nodes: replace the record
in place when the key is present (keeping its index), append otherwise. -/
def idxInsert (ps : List (N × Option Nat)) (n : N) (v : Option Nat) : List (N × Option Nat) :=
  if containsKey ps n then ps.map (fun e => if e.1 = n then (e.1, v) else e)
  else ps ++ [(n, v)]

/-- Modelled from the spec: `reverse_path` (defined in `src/directed/mod.rs`,
a file that is not among the sources) walks parent indices backward from the
terminal entry to an entry whose parent is the sentinel, collecting the nodes;
the guard `j < i` reflects the spec's invariant that parent indices strictly
decrease toward index 0.  `pathToAux` produces the walk in goal-to-start
order; the fuel argument makes the recursion structural and is immaterial as
soon as it exceeds the starting index. -/
def pathToAux (ps : List (N × Option Nat)) : Nat → Nat → List N
  | 0, _ => []
  | fuel + 1, i =>
    match ps[i]? with
    | none => []
    | some (n, none) => [n]
    | some (n, some j) => if j < i then n :: pathToAux ps fuel j else [n]

/-- The goal-to-start walk from index `i`. -/
def pathTo (ps : List (N × Option Nat)) (i : Nat) : List N := pathToAux ps (i + 1) i

/-- Modelled from the spec: the reconstructed path (walk backwards, then
reverse). -/
def reversePath (ps : List (N × Option Nat)) (i : Nat) : List N := (pathTo ps i).reverse

/-- The number of edges of the reconstructed path ending at index `i`. -/
def depthAt (ps : List (N × Option Nat)) (i : Nat) : Nat := (pathTo ps i).length - 1

/-- The inner loop of `bfs_core` over the successors of the node at the
cursor `i`: each successor is tested against the goal predicate before
insertion; on a match the path to `i` is reconstructed, the successor is
appended and the search returns (`Sum.inl`); otherwise the successor is
inserted only if absent, and the scan continues (`Sum.inr` carries the
updated map). -/
def bfsInner (succp : N → Bool) (i : Nat) :
    List N → List (N × Option Nat) → Sum (List N) (List (N × Option Nat))
  | [], ps => .inr ps
  | succ :: rest, ps =>
    if succp succ then .inl (reversePath ps i ++ [succ])
    else bfsInner succp i rest (insertVacant ps succ i)

/-- The start loop of `bfs_core`: each start is tested against the goal
predicate (when `check_first` is set) before being inserted with the
sentinel record. -/
def bfsSeed (succp : N → Bool) (checkFirst : Bool) :
    List N → List (N × Option Nat) → Sum (List N) (List (N × Option Nat))
  | [], ps => .inr ps
  | s :: rest, ps =>
    if checkFirst && succp s then .inl [s]
    else bfsSeed succp checkFirst rest (idxInsert ps s none)

/-- The main loop of `bfs_core`: `while let Some((node, _)) = parents.get_index(i)`.
The fuel argument makes the recursion structural; `Fintype.card N` fuel is
always sufficient because the cursor advances by one per iteration and the
map never holds more than `Fintype.card N` entries. -/
def bfsAux (succs : N → List N) (succp : N → Bool) :
    Nat → List (N × Option Nat) → Nat → Option (List N)
  | 0, _, _ => none
  | fuel + 1, ps, i =>
    match ps[i]? with
    | none => none
    | some (node, _) =>
      match bfsInner succp i (succs node) ps with
      | .inl path => some path
      | .inr ps' => bfsAux succs succp fuel ps' (i + 1)

/-- `bfs_core`: seed the map with the starts, then run the cursor loop. -/
def bfs_core [Fintype N] (starts : List N) (succs : N → List N) (succp : N → Bool)
    (checkFirst : Bool) : Option (List N) :=
  match bfsSeed succp checkFirst starts [] with
  | .inl path => some path
  | .inr ps => bfsAux succs succp (Fintype.card N) ps 0

/-- `bfs(starts, successors, success)`. -/
def bfs [Fintype N] (starts : List N) (succs : N → List N) (succp : N → Bool) :
    Option (List N) :=
  bfs_core starts succs succp true

/-- `bfs_loop(start, successors)`: same engine with the initial goal check
disabled and the goal predicate "equals the original start node". -/
def bfs_loop [Fintype N] (start : N) (succs : N → List N) : Option (List N) :=
  bfs_core [start] succs (fun n => decide (n = start)) false

/-- The state of the `BfsReachable` iterator: the cursor and the
insertion-ordered `FxIndexSet` of seen nodes (the `successors` closure is
passed explicitly to `bfsNext`). -/
structure BfsReachable (N : Type) where
  i : Nat
  seen : List N
deriving DecidableEq

/-- `FxIndexSet::insert`: append the element when it is not already present. -/
def setInsert (seen : List N) (n : N) : List N := if n ∈ seen then seen else seen ++ [n]

/-- `bfs_reach(starts, successors)`: insert every start into the seen set. -/
def bfs_reach (starts : List N) : BfsReachable N :=
  { i := 0, seen := starts.foldl setInsert [] }

/-- `remaining_nodes_low_bound`: `self.seen.len() - self.i`. -/
def remaining_nodes_low_bound (b : BfsReachable N) : Nat := b.seen.length - b.i

/-- One call of `BfsReachable::next`: read the entry at the cursor (return
`none` leaving the state unchanged when it is past the end), insert all of
its successors, advance the cursor and yield the node. -/
def bfsNext (succs : N → List N) (b : BfsReachable N) : Option N × BfsReachable N :=
  match b.seen[b.i]? with
  | none => (none, b)
  | some n => (some n, { i := b.i + 1, seen := (succs n).foldl setInsert b.seen })

/-- The list of nodes produced by pulling from the iterator at most `fuel`
times (the iterator is exhausted strictly before the fuel runs out whenever
`fuel` exceeds the number of reachable nodes). -/
def bfsReachList (succs : N → List N) : Nat → BfsReachable N → List N
  | 0, _ => []
  | fuel + 1, b =>
    match bfsNext succs b with
    | (none, _) => []
    | (some n, b') => n :: bfsReachList succs fuel b'

/-! ### Reachability -/

/-- `ReachN succs d a b`: there is a walk of exactly `d` edges from `a` to `b`
along the successor function. -/
inductive ReachN (succs : N → List N) : Nat → N → N → Prop
  | refl (a : N) : ReachN succs 0 a a
  | tail {d : Nat} {a b c : N} : ReachN succs d a b → c ∈ succs b → ReachN succs (d + 1) a c

/-- Plain reachability. -/
def Reaches (succs : N → List N) (a b : N) : Prop := ∃ d, ReachN succs d a b

/-- `NGReach succs succp starts d n`: there is a walk of `d` edges from some
start node to `n` all of whose nodes after the start are rejected by the goal
predicate (`n` included, unless `d = 0`).  This is the kind of walk whose
nodes the breadth-first engine inserts into its map. -/
inductive NGReach (succs : N → List N) (succp : N → Bool) (starts : List N) : Nat → N → Prop
  | base {s : N} : s ∈ starts → NGReach succs succp starts 0 s
  | tail {d : Nat} {b c : N} : NGReach succs succp starts d b → c ∈ succs b →
      succp c = false → NGReach succs succp starts (d + 1) c

/-! ### Basic lemmas about the map primitives -/

theorem getq_lt {α : Type} {l : List α} {i : Nat} {e : α} (h : l[i]? = some e) :
    i < l.length := by
  by_contra hc
  rw [List.getElem?_eq_none (Nat.le_of_not_lt hc)] at h
  exact Option.noConfusion h

theorem getq_of_prefix {α : Type} {l l' : List α} {i : Nat} {e : α}
    (hp : l <+: l') (h : l[i]? = some e) : l'[i]? = some e := by
  obtain ⟨t, rfl⟩ := hp
  rw [List.getElem?_append_left (getq_lt h)]
  exact h

theorem keys_append (ps qs : List (N × Option Nat)) :
    keys (ps ++ qs) = keys ps ++ keys qs := by
  simp [keys]

theorem containsKey_iff {ps : List (N × Option Nat)} {n : N} :
    containsKey ps n = true ↔ n ∈ keys ps := by
  simp [containsKey]

theorem containsKey_eq_false {ps : List (N × Option Nat)} {n : N} :
    containsKey ps n = false ↔ n ∉ keys ps := by
  simp [containsKey]

theorem mem_keys {ps : List (N × Option Nat)} {n : N} :
    n ∈ keys ps ↔ ∃ (j : Nat) (r : Option Nat), ps[j]? = some (n, r) := by
  constructor
  · intro h
    obtain ⟨⟨m, r⟩, hmem, he⟩ := List.mem_map.mp h
    cases he
    obtain ⟨j, hj, hget⟩ := List.getElem_of_mem hmem
    exact ⟨j, r, by rw [List.getElem?_eq_getElem hj, hget]⟩
  · rintro ⟨j, r, h⟩
    exact List.mem_map.mpr ⟨(n, r), List.getElem?_mem h, rfl⟩

theorem getq_mem_keys {ps : List (N × Option Nat)} {j : Nat} {n : N} {r : Option Nat}
    (h : ps[j]? = some (n, r)) : n ∈ keys ps :=
  mem_keys.mpr ⟨j, r, h⟩

/-- With distinct keys, a key occurs at a unique index. -/
theorem keys_nodup_index_eq {ps : List (N × Option Nat)} (hk : (keys ps).Nodup)
    {j k : Nat} {n : N} {r r' : Option Nat}
    (hj : ps[j]? = some (n, r)) (hkk : ps[k]? = some (n, r')) : j = k := by
  have hj' : (keys ps)[j]? = some n := by
    unfold keys
    rw [List.getElem?_map, hj]
    rfl
  have hk' : (keys ps)[k]? = some n := by
    unfold keys
    rw [List.getElem?_map, hkk]
    rfl
  have hlj : j < (keys ps).length := getq_lt hj'
  have hlk : k < (keys ps).length := getq_lt hk'
  rw [List.getElem?_eq_getElem hlj] at hj'
  rw [List.getElem?_eq_getElem hlk] at hk'
  apply List.Nodup.getElem_inj_iff hk |>.mp
  rw [Option.some.injEq] at hj' hk'
  rw [hj', hk']

theorem insertVacant_pref (ps : List (N × Option Nat)) (n : N) (i : Nat) :
    ps <+: insertVacant ps n i := by
  unfold insertVacant
  split
  · exact List.prefix_rfl
  · exact ⟨[(n, some i)], rfl⟩

theorem containsKey_insertVacant_self (ps : List (N × Option Nat)) (n : N) (i : Nat) :
    containsKey (insertVacant ps n i) n = true := by
  unfold insertVacant
  split
  · assumption
  · rw [containsKey_iff, keys_append]
    exact List.mem_append_right _ (by simp [keys])

theorem containsKey_insertVacant_of (ps : List (N × Option Nat)) {m : N} (n : N) (i : Nat)
    (h : containsKey ps m = true) : containsKey (insertVacant ps n i) m = true := by
  unfold insertVacant
  split
  · exact h
  · rw [containsKey_iff, keys_append]
    exact List.mem_append_left _ (containsKey_iff.mp h)

theorem keys_insertVacant_mem {ps : List (N × Option Nat)} {m n : N} {i : Nat}
    (h : m ∈ keys (insertVacant ps n i)) : m ∈ keys ps ∨ m = n := by
  unfold insertVacant at h
  split at h
  · exact Or.inl h
  · rw [keys_append] at h
    rcases List.mem_append.mp h with h | h
    · exact Or.inl h
    · right
      simpa [keys] using h

theorem insertVacant_nodup {ps : List (N × Option Nat)} {n : N} {i : Nat}
    (h : (keys ps).Nodup) : (keys (insertVacant ps n i)).Nodup := by
  unfold insertVacant
  split
  · exact h
  · rename_i hc
    rw [keys_append]
    refine List.Nodup.append h (by simp [keys]) ?_
    intro a ha hb
    have : a = n := by simpa [keys] using hb
    subst this
    exact (containsKey_eq_false.mp (Bool.not_eq_true _ ▸ Bool.of_not_eq_true hc)) ha

theorem insertVacant_getq {ps : List (N × Option Nat)} {n : N} {i j : Nat}
    {e : N × Option Nat} (h : (insertVacant ps n i)[j]? = some e) :
    ps[j]? = some e ∨
      (containsKey ps n = false ∧ j = ps.length ∧ e = (n, some i)) := by
  unfold insertVacant at h
  split at h
  · exact Or.inl h
  · rename_i hc
    rcases Nat.lt_or_ge j ps.length with hj | hj
    · rw [List.getElem?_append_left hj] at h
      exact Or.inl h
    · rw [List.getElem?_append_right hj] at h
      right
      have hc' : containsKey ps n = false := by
        cases hcc : containsKey ps n
        · rfl
        · exact absurd hcc hc
      refine ⟨hc', ?_, ?_⟩
      · rcases Nat.lt_or_ge (j - ps.length) 1 with h1 | h1
        · omega
        · rw [List.getElem?_eq_none (by simpa using h1)] at h
          exact Option.noConfusion h
      · have h0 : j - ps.length = 0 := by
          rcases Nat.lt_or_ge (j - ps.length) 1 with h1 | h1
          · omega
          · rw [List.getElem?_eq_none (by simpa using h1)] at h
            exact Option.noConfusion h
        rw [h0] at h
        simpa using h.symm

/-! ### Lemmas about `pathTo` -/

theorem pathToAux_stable (ps : List (N × Option Nat)) :
    ∀ fuel fuel' i, i < fuel → i < fuel' →
      pathToAux ps fuel i = pathToAux ps fuel' i := by
  intro fuel
  induction fuel with
  | zero => intro fuel' i h; omega
  | succ f ih =>
    intro fuel' i h h'
    match fuel', h' with
    | f' + 1, _ =>
      show pathToAux ps (f + 1) i = pathToAux ps (f' + 1) i
      unfold pathToAux
      cases hg : ps[i]? with
      | none => rfl
      | some e =>
        obtain ⟨n, r⟩ := e
        cases r with
        | none => rfl
        | some j =>
          by_cases hj : j < i
          · simp only [hj, if_true]
            rw [ih f' j (by omega) (by omega)]
          · simp only [hj, if_false]

theorem pathTo_none {ps : List (N × Option Nat)} {i : Nat} (h : ps[i]? = none) :
    pathTo ps i = [] := by
  unfold pathTo pathToAux
  rw [h]

theorem pathTo_root {ps : List (N × Option Nat)} {i : Nat} {n : N}
    (h : ps[i]? = some (n, none)) : pathTo ps i = [n] := by
  unfold pathTo pathToAux
  rw [h]

theorem pathTo_step {ps : List (N × Option Nat)} {i j : Nat} {n : N}
    (h : ps[i]? = some (n, some j)) (hj : j < i) : pathTo ps i = n :: pathTo ps j := by
  unfold pathTo pathToAux
  rw [h]
  simp only [hj, if_true]
  rw [pathToAux_stable ps i (j + 1) j hj (Nat.lt_succ_self j)]
  rfl

theorem pathTo_ne_nil {ps : List (N × Option Nat)} {i : Nat} {e : N × Option Nat}
    (h : ps[i]? = some e) : pathTo ps i ≠ [] := by
  obtain ⟨n, r⟩ := e
  cases r with
  | none => rw [pathTo_root h]; simp
  | some j =>
    by_cases hj : j < i
    · rw [pathTo_step h hj]; simp
    · unfold pathTo pathToAux
      rw [h]
      simp [hj]

theorem pathTo_stuck {ps : List (N × Option Nat)} {i j : Nat} {n : N}
    (h : ps[i]? = some (n, some j)) (hj : ¬ j < i) : pathTo ps i = [n] := by
  unfold pathTo pathToAux
  rw [h]
  simp [hj]

theorem pathTo_extend {ps qs : List (N × Option Nat)} (hp : ps <+: qs)
    (hb : ∀ (k : Nat) (n : N) (pj : Nat), ps[k]? = some (n, some pj) → pj < k) :
    ∀ i : Nat, i < ps.length → pathTo qs i = pathTo ps i := by
  intro i
  induction i using Nat.strong_induction_on with
  | _ i ih =>
    intro hi
    have hg : ps[i]? = some ps[i] := List.getElem?_eq_getElem hi
    have hg' : qs[i]? = some ps[i] := getq_of_prefix hp hg
    cases hE : ps[i] with
    | mk n r =>
      rw [hE] at hg hg'
      cases r with
      | none => rw [pathTo_root hg, pathTo_root hg']
      | some j =>
        have hj : j < i := hb i n j hg
        rw [pathTo_step hg hj, pathTo_step hg' hj, ih j hj (lt_trans hj hi)]

theorem pathTo_mem_index {ps : List (N × Option Nat)} :
    ∀ {i : Nat} {x : N}, x ∈ pathTo ps i →
      ∃ (k : Nat) (r : Option Nat), k ≤ i ∧ ps[k]? = some (x, r) := by
  intro i
  induction i using Nat.strong_induction_on with
  | _ i ih =>
    intro x hx
    cases hg : ps[i]? with
    | none => rw [pathTo_none hg] at hx; cases hx
    | some e =>
      obtain ⟨n, r⟩ := e
      cases r with
      | none =>
        rw [pathTo_root hg] at hx
        rw [List.mem_singleton] at hx
        exact ⟨i, none, le_refl i, hx ▸ hg⟩
      | some j =>
        by_cases hj : j < i
        · rw [pathTo_step hg hj] at hx
          rcases List.mem_cons.mp hx with h | h
          · exact ⟨i, some j, le_refl i, h ▸ hg⟩
          · obtain ⟨k, r', hk, hkk⟩ := ih j hj h
            exact ⟨k, r', le_of_lt (lt_of_le_of_lt hk hj), hkk⟩
        · rw [pathTo_stuck hg hj] at hx
          rw [List.mem_singleton] at hx
          exact ⟨i, some j, le_refl i, hx ▸ hg⟩

theorem pathTo_head {ps : List (N × Option Nat)} {i : Nat} {n : N} {r : Option Nat}
    (h : ps[i]? = some (n, r)) : (pathTo ps i).head? = some n := by
  cases r with
  | none => rw [pathTo_root h]; rfl
  | some j =>
    by_cases hj : j < i
    · rw [pathTo_step h hj]; rfl
    · rw [pathTo_stuck h hj]; rfl

theorem pathTo_nodup {ps : List (N × Option Nat)} (hk : (keys ps).Nodup) :
    ∀ i : Nat, (pathTo ps i).Nodup := by
  intro i
  induction i using Nat.strong_induction_on with
  | _ i ih =>
    cases hg : ps[i]? with
    | none => rw [pathTo_none hg]; exact List.nodup_nil
    | some e =>
      obtain ⟨n, r⟩ := e
      cases r with
      | none => rw [pathTo_root hg]; exact List.nodup_singleton n
      | some j =>
        by_cases hj : j < i
        · rw [pathTo_step hg hj]
          refine List.Nodup.cons ?_ (ih j hj)
          intro hmem
          obtain ⟨k, r', hk', hkk⟩ := pathTo_mem_index hmem
          have : i = k := keys_nodup_index_eq hk hg hkk
          omega
        · rw [pathTo_stuck hg hj]; exact List.nodup_singleton n

theorem depthAt_root {ps : List (N × Option Nat)} {i : Nat} {n : N}
    (h : ps[i]? = some (n, none)) : depthAt ps i = 0 := by
  unfold depthAt
  rw [pathTo_root h]
  rfl

theorem depthAt_step {ps : List (N × Option Nat)} {i j : Nat} {n : N}
    (h : ps[i]? = some (n, some j)) (hj : j < i) : depthAt ps i = depthAt ps j + 1 := by
  unfold depthAt
  rw [pathTo_step h hj]
  have hne : pathTo ps j ≠ [] := by
    have hlt : j < ps.length := lt_trans hj (getq_lt h)
    exact pathTo_ne_nil (List.getElem?_eq_getElem hlt)
  have : 1 ≤ (pathTo ps j).length := List.length_pos.mpr hne
  simp only [List.length_cons]
  omega

/-- The backward walk is a goal-free walk from a start: its length witnesses
`NGReach`, consecutive elements are successor-related (in reverse), and it
starts at the entry's node. -/
theorem pathTo_ngreach {starts : List N} {succs : N → List N} {succp : N → Bool}
    {ps : List (N × Option Nat)}
    (hroot : ∀ (k : Nat) (n : N), ps[k]? = some (n, none) → n ∈ starts)
    (hb : ∀ (k : Nat) (n : N) (pj : Nat), ps[k]? = some (n, some pj) → pj < k)
    (hedge : ∀ (k : Nat) (n : N) (pj : Nat), ps[k]? = some (n, some pj) →
      ∃ (m : N) (r : Option Nat), ps[pj]? = some (m, r) ∧ n ∈ succs m)
    (hng : ∀ (k : Nat) (n : N) (pj : Nat), ps[k]? = some (n, some pj) → succp n = false) :
    ∀ (i : Nat) (n : N) (r : Option Nat), ps[i]? = some (n, r) →
      NGReach succs succp starts (depthAt ps i) n ∧
      List.Chain' (fun a b => a ∈ succs b) (pathTo ps i) := by
  intro i
  induction i using Nat.strong_induction_on with
  | _ i ih =>
    intro n r h
    cases r with
    | none =>
      refine ⟨?_, ?_⟩
      · rw [depthAt_root h]
        exact NGReach.base (hroot i n h)
      · rw [pathTo_root h]
        exact List.chain'_singleton n
    | some j =>
      have hj : j < i := hb i n j h
      obtain ⟨m, r', hm, hmem⟩ := hedge i n j h
      obtain ⟨hngm, hchain⟩ := ih j hj m r' hm
      refine ⟨?_, ?_⟩
      · rw [depthAt_step h hj]
        exact NGReach.tail hngm hmem (hng i n j h)
      · rw [pathTo_step h hj]
        refine List.chain'_cons'.mpr ⟨?_, hchain⟩
        intro y hy
        rw [pathTo_head hm] at hy
        cases hy
        exact hmem

/-! ### Reachability lemmas -/

theorem ReachN.trans {succs : N → List N} {d e : Nat} {a b c : N}
    (h1 : ReachN succs d a b) (h2 : ReachN succs e b c) : ReachN succs (d + e) a c := by
  induction h2 with
  | refl => exact h1
  | tail h hmem ih => exact ReachN.tail (ih h1) hmem

theorem NGReach.toReach {succs : N → List N} {succp : N → Bool} {starts : List N}
    {d : Nat} {n : N} (h : NGReach succs succp starts d n) :
    ∃ s ∈ starts, ReachN succs d s n := by
  induction h with
  | base hs => exact ⟨_, hs, ReachN.refl _⟩
  | tail h hmem hng ih =>
    obtain ⟨s, hs, hr⟩ := ih
    exact ⟨s, hs, ReachN.tail hr hmem⟩

/-- Any walk from a start can be pruned to a goal-free walk: either the whole
walk prunes to a goal-free walk to the same endpoint, or some goal node is a
successor of the endpoint of a strictly shorter goal-free walk. -/
theorem reach_helper {succs : N → List N} (succp : N → Bool) {starts : List N}
    {d : Nat} {s n : N} (hs : s ∈ starts) (h : ReachN succs d s n) :
    (∃ ℓ ≤ d, NGReach succs succp starts ℓ n) ∨
    (∃ (ℓ : Nat) (m g' : N), ℓ + 1 ≤ d ∧ NGReach succs succp starts ℓ m ∧
      g' ∈ succs m ∧ succp g' = true) := by
  induction h with
  | refl => exact Or.inl ⟨0, Nat.zero_le 0, NGReach.base hs⟩
  | tail h hmem ih =>
    rcases ih hs with ⟨ℓ, hle, hng⟩ | ⟨ℓ, m, g', hle, hng, hmem', hgp⟩
    · cases hsucc : succp _ with
      | false => exact Or.inl ⟨ℓ + 1, by omega, NGReach.tail hng hmem hsucc⟩
      | true => exact Or.inr ⟨ℓ, _, _, by omega, hng, hmem, hsucc⟩
    · exact Or.inr ⟨ℓ, m, g', by omega, hng, hmem', hgp⟩

/-- A goal walk of at least one edge yields a goal-free walk one of whose
successors is a goal, at no greater total length. -/
theorem reach_reduce {succs : N → List N} (succp : N → Bool) {starts : List N}
    {d : Nat} {s g : N} (hs : s ∈ starts) (h : ReachN succs d s g)
    (hg : succp g = true) (hd : 1 ≤ d) :
    ∃ (ℓ : Nat) (m g' : N), ℓ + 1 ≤ d ∧ NGReach succs succp starts ℓ m ∧
      g' ∈ succs m ∧ succp g' = true := by
  cases h with
  | refl => omega
  | tail h hmem =>
    rcases reach_helper succp hs h with ⟨ℓ, hle, hng⟩ | ⟨ℓ, m, g', hle, hng, hmem', hgp⟩
    · exact ⟨ℓ, _, g, by omega, hng, hmem, hg⟩
    · exact ⟨ℓ, m, g', by omega, hng, hmem', hgp⟩

/-! ### Lemmas about the inner successor loop -/

theorem containsKey_of_pref {ps ps' : List (N × Option Nat)} {c : N}
    (hp : ps <+: ps') (h : containsKey ps c = true) : containsKey ps' c = true := by
  rw [containsKey_iff] at h ⊢
  exact (hp.map Prod.fst).sublist.subset h

theorem bfsInner_inr_pref {succp : N → Bool} {i : Nat} :
    ∀ {l : List N} {ps ps' : List (N × Option Nat)},
      bfsInner succp i l ps = .inr ps' → ps <+: ps' := by
  intro l
  induction l with
  | nil =>
    intro ps ps' h
    cases h
    exact List.prefix_rfl
  | cons succ rest ih =>
    intro ps ps' h
    unfold bfsInner at h
    split at h
    · cases h
    · exact (insertVacant_pref ps succ i).trans (ih h)

theorem bfsInner_inr_nonGoal {succp : N → Bool} {i : Nat} :
    ∀ {l : List N} {ps ps' : List (N × Option Nat)},
      bfsInner succp i l ps = .inr ps' → ∀ c ∈ l, succp c = false := by
  intro l
  induction l with
  | nil => intro ps ps' h c hc; cases hc
  | cons succ rest ih =>
    intro ps ps' h c hc
    unfold bfsInner at h
    split at h
    · cases h
    · rename_i hfalse
      rcases List.mem_cons.mp hc with rfl | hc'
      · exact Bool.of_not_eq_true hfalse
      · exact ih h c hc'

theorem bfsInner_inr_keys {succp : N → Bool} {i : Nat} :
    ∀ {l : List N} {ps ps' : List (N × Option Nat)},
      bfsInner succp i l ps = .inr ps' → ∀ c ∈ l, containsKey ps' c = true := by
  intro l
  induction l with
  | nil => intro ps ps' h c hc; cases hc
  | cons succ rest ih =>
    intro ps ps' h c hc
    unfold bfsInner at h
    split at h
    · cases h
    · rcases List.mem_cons.mp hc with rfl | hc'
      · exact containsKey_of_pref (bfsInner_inr_pref h)
          (containsKey_insertVacant_self ps c i)
      · exact ih h c hc'

theorem bfsInner_inr_nodup {succp : N → Bool} {i : Nat} :
    ∀ {l : List N} {ps ps' : List (N × Option Nat)},
      bfsInner succp i l ps = .inr ps' → (keys ps).Nodup → (keys ps').Nodup := by
  intro l
  induction l with
  | nil => intro ps ps' h hk; cases h; exact hk
  | cons succ rest ih =>
    intro ps ps' h hk
    unfold bfsInner at h
    split at h
    · cases h
    · exact ih h (insertVacant_nodup hk)

theorem bfsInner_inr_getq {succp : N → Bool} {i : Nat} :
    ∀ {l : List N} {ps ps' : List (N × Option Nat)},
      bfsInner succp i l ps = .inr ps' →
      ∀ (j : Nat) (e : N × Option Nat), ps'[j]? = some e →
        ps[j]? = some e ∨
          (ps.length ≤ j ∧ e.2 = some i ∧ e.1 ∈ l ∧ succp e.1 = false ∧
            containsKey ps e.1 = false) := by
  intro l
  induction l with
  | nil =>
    intro ps ps' h j e hj
    cases h
    exact Or.inl hj
  | cons succ rest ih =>
    intro ps ps' h j e hj
    unfold bfsInner at h
    split at h
    · cases h
    · rename_i hfalse
      rcases ih h j e hj with h1 | ⟨hlen, hrec, hmem, hsp, hck⟩
      · rcases insertVacant_getq h1 with h2 | ⟨hck, hjl, he⟩
        · exact Or.inl h2
        · subst he
          exact Or.inr ⟨le_of_eq hjl.symm, rfl, List.mem_cons_self _ _,
            Bool.of_not_eq_true hfalse, hck⟩
      · refine Or.inr ⟨le_trans (insertVacant_pref ps succ i).length_le hlen, hrec,
          List.mem_cons_of_mem _ hmem, hsp, ?_⟩
        cases hc : containsKey ps e.1
        · rfl
        · rw [containsKey_of_pref (insertVacant_pref ps succ i) hc] at hck
          cases hck

theorem bfsInner_inl_spec {succp : N → Bool} {i : Nat} :
    ∀ {l : List N} {ps : List (N × Option Nat)} {p : List N},
      bfsInner succp i l ps = .inl p →
      ∃ (ps₀ : List (N × Option Nat)) (succ : N), ps <+: ps₀ ∧ succp succ = true ∧
        succ ∈ l ∧ p = (pathTo ps₀ i).reverse ++ [succ] ∧
        (∀ (j : Nat) (e : N × Option Nat), ps₀[j]? = some e →
          ps[j]? = some e ∨
            (ps.length ≤ j ∧ e.2 = some i ∧ e.1 ∈ l ∧ succp e.1 = false ∧
              containsKey ps e.1 = false)) := by
  intro l
  induction l with
  | nil => intro ps p h; cases h
  | cons succ rest ih =>
    intro ps p h
    unfold bfsInner at h
    split at h
    · rename_i htrue
      cases h
      exact ⟨ps, succ, List.prefix_rfl, htrue, List.mem_cons_self _ _, rfl,
        fun j e hj => Or.inl hj⟩
    · rename_i hfalse
      obtain ⟨ps₀, s', hpre, hsp, hmem, hp, hchar⟩ := ih h
      refine ⟨ps₀, s', (insertVacant_pref ps succ i).trans hpre, hsp,
        List.mem_cons_of_mem _ hmem, hp, ?_⟩
      intro j e hj
      rcases hchar j e hj with h1 | ⟨hlen, hrec, hmem', hsp', hck⟩
      · rcases insertVacant_getq h1 with h2 | ⟨hck, hjl, he⟩
        · exact Or.inl h2
        · subst he
          exact Or.inr ⟨le_of_eq hjl.symm, rfl, List.mem_cons_self _ _,
            Bool.of_not_eq_true hfalse, hck⟩
      · refine Or.inr ⟨le_trans (insertVacant_pref ps succ i).length_le hlen, hrec,
          List.mem_cons_of_mem _ hmem', hsp', ?_⟩
        cases hc : containsKey ps e.1
        · rfl
        · rw [containsKey_of_pref (insertVacant_pref ps succ i) hc] at hck
          cases hck

/-- When some successor in the list is a goal, the inner loop returns a path. -/
theorem bfsInner_inl_of_goal {succp : N → Bool} {i : Nat} :
    ∀ {l : List N} {ps : List (N × Option Nat)} {c : N},
      c ∈ l → succp c = true → ∃ p, bfsInner succp i l ps = .inl p := by
  intro l
  induction l with
  | nil => intro ps c hc; cases hc
  | cons succ rest ih =>
    intro ps c hc hcp
    unfold bfsInner
    split
    · exact ⟨_, rfl⟩
    · rename_i hfalse
      rcases List.mem_cons.mp hc with rfl | hc'
      · exact absurd hcp hfalse
      · exact ih hc' hcp

/-! ### Lemmas about the seeding loop -/

theorem idxInsert_allNone {ps : List (N × Option Nat)} (h : ∀ e ∈ ps, e.2 = none) (s : N) :
    idxInsert ps s none = if containsKey ps s then ps else ps ++ [(s, none)] := by
  unfold idxInsert
  split
  · rename_i hc
    have : ∀ e ∈ ps, (fun e : N × Option Nat => if e.1 = s then (e.1, none) else e) e = id e := by
      intro e he
      by_cases hes : e.1 = s
      · simp only [hes, if_true, id]
        have := h e he
        cases e
        simp_all
      · simp [hes]
    rw [List.map_congr_left this, List.map_id]
  · rfl

theorem bfsSeed_inr_spec {succp : N → Bool} {cf : Bool} :
    ∀ {l : List N} {ps ps' : List (N × Option Nat)},
      bfsSeed succp cf l ps = .inr ps' →
      (∀ e ∈ ps, e.2 = none) → (keys ps).Nodup →
      (∀ e ∈ ps', e.2 = none) ∧ (keys ps').Nodup ∧
        (∀ e ∈ ps', e ∈ ps ∨ e.1 ∈ l) ∧
        (∀ s ∈ l, (cf = true → succp s = false) ∧ containsKey ps' s = true) ∧
        (∀ m, containsKey ps m = true → containsKey ps' m = true) := by
  intro l
  induction l with
  | nil =>
    intro ps ps' h hnone hk
    cases h
    exact ⟨hnone, hk, fun e he => Or.inl he, fun s hs => absurd hs (List.not_mem_nil s),
      fun m hm => hm⟩
  | cons s rest ih =>
    intro ps ps' h hnone hk
    unfold bfsSeed at h
    split at h
    · cases h
    · rename_i hcf
      rw [idxInsert_allNone hnone] at h
      by_cases hc : containsKey ps s = true
      · rw [if_pos hc] at h
        obtain ⟨h1, h2, h3, h4, h5⟩ := ih h hnone hk
        refine ⟨h1, h2, fun e he => (h3 e he).imp id (List.mem_cons_of_mem _), ?_, h5⟩
        intro t ht
        rcases List.mem_cons.mp ht with rfl | ht'
        · refine ⟨?_, h5 t hc⟩
          intro hcft
          subst hcft
          cases hts : succp t
          · rfl
          · rw [hts] at hcf; simp at hcf
        · exact h4 t ht'
      · rw [if_neg hc] at h
        have hnone' : ∀ e ∈ ps ++ [(s, none)], e.2 = none := by
          intro e he
          rcases List.mem_append.mp he with he | he
          · exact hnone e he
          · rw [List.mem_singleton] at he
            rw [he]
        have hk' : (keys (ps ++ [(s, none)])).Nodup := by
          rw [keys_append]
          refine List.Nodup.append hk (by simp [keys]) ?_
          intro a ha hb
          have : a = s := by simpa [keys] using hb
          subst this
          exact (containsKey_eq_false.mp (by simpa using hc)) ha
        obtain ⟨h1, h2, h3, h4, h5⟩ := ih h hnone' hk'
        have hcontains : containsKey (ps ++ [(s, none)]) s = true := by
          rw [containsKey_iff, keys_append]
          exact List.mem_append_right _ (by simp [keys])
        refine ⟨h1, h2, ?_, ?_, ?_⟩
        · intro e he
          rcases h3 e he with he' | he'
          · rcases List.mem_append.mp he' with he'' | he''
            · exact Or.inl he''
            · rw [List.mem_singleton] at he''
              right
              rw [he'']
              exact List.mem_cons_self _ _
          · exact Or.inr (List.mem_cons_of_mem _ he')
        · intro t ht
          rcases List.mem_cons.mp ht with rfl | ht'
          · refine ⟨?_, h5 t hcontains⟩
            intro hcft
            subst hcft
            cases hts : succp t
            · rfl
            · rw [hts] at hcf; simp at hcf
          · exact h4 t ht'
        · intro m hm
          refine h5 m (containsKey_of_pref ⟨[(s, none)], rfl⟩ hm)

theorem bfsSeed_inl_spec {succp : N → Bool} {cf : Bool} :
    ∀ {l : List N} {ps : List (N × Option Nat)} {p : List N},
      bfsSeed succp cf l ps = .inl p →
      cf = true ∧ ∃ s ∈ l, succp s = true ∧ p = [s] := by
  intro l
  induction l with
  | nil => intro ps p h; cases h
  | cons s rest ih =>
    intro ps p h
    unfold bfsSeed at h
    split at h
    · rename_i htrue
      cases h
      rw [Bool.and_eq_true] at htrue
      exact ⟨htrue.1, s, List.mem_cons_self _ _, htrue.2, rfl⟩
    · obtain ⟨h1, s', hs', hsp, hp⟩ := ih h
      exact ⟨h1, s', List.mem_cons_of_mem _ hs', hsp, hp⟩

/-- The first start matching the goal predicate is returned as a single-node
path by the seeding loop. -/
theorem bfsSeed_find {succp : N → Bool} :
    ∀ {l : List N} {ps : List (N × Option Nat)} {s : N},
      l.find? succp = some s → bfsSeed succp true l ps = .inl [s] := by
  intro l
  induction l with
  | nil => intro ps s h; cases h
  | cons t rest ih =>
    intro ps s h
    unfold bfsSeed
    cases ht : succp t with
    | true =>
      rw [List.find?_cons_of_pos _ ht] at h
      cases h
      simp [ht]
    | false =>
      rw [List.find?_cons_of_neg _ (by simp [ht])] at h
      simp only [ht, Bool.and_false, Bool.false_eq_true, if_false]
      exact ih h

/-! ### Further walk lemmas -/

theorem prefix_getq_lt {α : Type} {l l' : List α} (hp : l <+: l') {j : Nat}
    (hj : j < l.length) : l'[j]? = l[j]? := by
  obtain ⟨t, rfl⟩ := hp
  exact List.getElem?_append_left hj

theorem pathTo_getLast {ps : List (N × Option Nat)} {starts : List N}
    (hroot : ∀ (k : Nat) (n : N), ps[k]? = some (n, none) → n ∈ starts)
    (hb : ∀ (k : Nat) (n : N) (pj : Nat), ps[k]? = some (n, some pj) → pj < k) :
    ∀ (i : Nat) (n : N) (r : Option Nat), ps[i]? = some (n, r) →
      ∃ s ∈ starts, (pathTo ps i).getLast? = some s := by
  intro i
  induction i using Nat.strong_induction_on with
  | _ i ih =>
    intro n r h
    cases r with
    | none =>
      rw [pathTo_root h]
      exact ⟨n, hroot i n h, rfl⟩
    | some j =>
      have hj : j < i := hb i n j h
      rw [pathTo_step h hj]
      have hjlen : j < ps.length := lt_trans hj (getq_lt h)
      have hE : ps[j]? = some ps[j] := List.getElem?_eq_getElem hjlen
      obtain ⟨s, hs, hlast⟩ := ih j hj ps[j].1 ps[j].2 (by rw [hE])
      refine ⟨s, hs, ?_⟩
      have hne : pathTo ps j ≠ [] := pathTo_ne_nil hE
      have : n :: pathTo ps j = [n] ++ pathTo ps j := rfl
      rw [this, List.getLast?_append_of_ne_nil [n] hne]
      exact hlast

/-! ### The breadth-first loop invariant -/

structure BfsInv (starts : List N) (succs : N → List N) (succp : N → Bool)
    (ps : List (N × Option Nat)) (i : Nat) : Prop where
  nodup : (keys ps).Nodup
  rootStart : ∀ (k : Nat) (n : N), ps[k]? = some (n, none) → n ∈ starts
  parentLt : ∀ (k : Nat) (n : N) (pj : Nat), ps[k]? = some (n, some pj) → pj < k
  parentEdge : ∀ (k : Nat) (n : N) (pj : Nat), ps[k]? = some (n, some pj) →
    ∃ (m : N) (r : Option Nat), ps[pj]? = some (m, r) ∧ n ∈ succs m
  nonGoal : ∀ (k : Nat) (n : N) (pj : Nat), ps[k]? = some (n, some pj) → succp n = false
  startsIn : ∀ s ∈ starts, containsKey ps s = true
  closure : ∀ k < i, ∀ (n : N) (r : Option Nat), ps[k]? = some (n, r) →
    ∀ c ∈ succs n, succp c = false ∧ containsKey ps c = true
  depthMono : ∀ (j k : Nat), j ≤ k → k < ps.length → depthAt ps j ≤ depthAt ps k
  depthLeast : ∀ (k : Nat) (n : N) (r : Option Nat), ps[k]? = some (n, r) →
    ∀ ℓ : Nat, NGReach succs succp starts ℓ n → depthAt ps k ≤ ℓ
  complete : ∀ (n : N) (ℓ : Nat), i < ps.length → NGReach succs succp starts ℓ n →
    ℓ ≤ depthAt ps i → containsKey ps n = true
  spread : ∀ k : Nat, i ≤ k → k < ps.length → i < ps.length →
    depthAt ps k ≤ depthAt ps i + 1

theorem BfsInv.ngreach {starts : List N} {succs : N → List N} {succp : N → Bool}
    {ps : List (N × Option Nat)} {i : Nat} (inv : BfsInv starts succs succp ps i)
    {k : Nat} {n : N} {r : Option Nat} (h : ps[k]? = some (n, r)) :
    NGReach succs succp starts (depthAt ps k) n :=
  (pathTo_ngreach inv.rootStart inv.parentLt inv.parentEdge inv.nonGoal k n r h).1

/-- All but the final (root) element of the backward walk carry a parent
index. -/
theorem pathTo_dropLast_parent {ps : List (N × Option Nat)} :
    ∀ {i : Nat} {x : N}, x ∈ (pathTo ps i).dropLast →
      ∃ (k pj : Nat), ps[k]? = some (x, some pj) := by
  intro i
  induction i using Nat.strong_induction_on with
  | _ i ih =>
    intro x hx
    cases hg : ps[i]? with
    | none => rw [pathTo_none hg] at hx; cases hx
    | some e =>
      obtain ⟨n, r⟩ := e
      cases r with
      | none => rw [pathTo_root hg] at hx; cases hx
      | some j =>
        by_cases hj : j < i
        · rw [pathTo_step hg hj] at hx
          have hne : pathTo ps j ≠ [] := by
            have hjlen : j < ps.length := lt_trans hj (getq_lt hg)
            exact pathTo_ne_nil (List.getElem?_eq_getElem hjlen)
          rw [List.dropLast_cons_of_ne_nil hne] at hx
          rcases List.mem_cons.mp hx with rfl | hx'
          · exact ⟨i, j, hg⟩
          · exact ih j hj hx'
        · rw [pathTo_stuck hg hj] at hx; cases hx

/-- The state after seeding satisfies the loop invariant at cursor 0. -/
theorem bfsInv_init {starts : List N} (succs : N → List N) {succp : N → Bool}
    {cf : Bool} {ps₀ : List (N × Option Nat)}
    (h : bfsSeed succp cf starts [] = .inr ps₀) :
    BfsInv starts succs succp ps₀ 0 ∧
      (cf = true → ∀ s ∈ starts, succp s = false) := by
  obtain ⟨hnone, hk, hsub, hstarts, _⟩ :=
    bfsSeed_inr_spec h (fun e he => absurd he (List.not_mem_nil e)) List.nodup_nil
  have hval : ∀ (k : Nat) (n : N) (r : Option Nat), ps₀[k]? = some (n, r) → r = none := by
    intro k n r hkk
    exact hnone (n, r) (List.getElem?_mem hkk)
  have hdepth0 : ∀ (k : Nat), k < ps₀.length → depthAt ps₀ k = 0 := by
    intro k hkl
    have hE : ps₀[k]? = some ps₀[k] := List.getElem?_eq_getElem hkl
    have : ps₀[k].2 = none := hval k ps₀[k].1 ps₀[k].2 (by rw [hE])
    refine depthAt_root (n := ps₀[k].1) ?_
    rw [hE, ← this]
  refine ⟨⟨hk, ?_, ?_, ?_, ?_, ?_, ?_, ?_, ?_, ?_, ?_⟩, ?_⟩
  · intro k n hkk
    rcases hsub (n, none) (List.getElem?_mem hkk) with h' | h'
    · cases h'
    · exact h'
  · intro k n pj hkk
    cases hval k n (some pj) hkk
  · intro k n pj hkk
    cases hval k n (some pj) hkk
  · intro k n pj hkk
    cases hval k n (some pj) hkk
  · intro s hs
    exact (hstarts s hs).2
  · intro k hki
    omega
  · intro j k hjk hkl
    rw [hdepth0 j (lt_of_le_of_lt hjk hkl), hdepth0 k hkl]
  · intro k n r hkk ℓ hng
    have : depthAt ps₀ k = 0 := hdepth0 k (getq_lt hkk)
    omega
  · intro n ℓ h0 hng hle
    rw [hdepth0 0 h0] at hle
    have hℓ : ℓ = 0 := Nat.le_zero.mp hle
    subst hℓ
    cases hng with
    | base hs => exact (hstarts _ hs).2
  · intro k h0k hkl h0l
    rw [hdepth0 k hkl, hdepth0 0 h0l]
    omega
  · intro hcf s hs
    exact (hstarts s hs).1 hcf

/-- One iteration of the cursor loop preserves the invariant. -/
theorem bfsInv_step {starts : List N} {succs : N → List N} {succp : N → Bool}
    {ps ps' : List (N × Option Nat)} {i : Nat} {node : N} {rec : Option Nat}
    (inv : BfsInv starts succs succp ps i)
    (hget : ps[i]? = some (node, rec))
    (hinner : bfsInner succp i (succs node) ps = .inr ps') :
    BfsInv starts succs succp ps' (i + 1) := by
  have hpre : ps <+: ps' := bfsInner_inr_pref hinner
  have hchar := bfsInner_inr_getq hinner
  have hilen : i < ps.length := getq_lt hget
  have hold : ∀ j : Nat, j < ps.length → ps'[j]? = ps[j]? := fun j hj => prefix_getq_lt hpre hj
  have hdepthext : ∀ j : Nat, j < ps.length → depthAt ps' j = depthAt ps j := by
    intro j hj
    unfold depthAt
    rw [pathTo_extend hpre inv.parentLt j hj]
  have hcases : ∀ (j : Nat) (n : N) (r : Option Nat), ps'[j]? = some (n, r) →
      (j < ps.length ∧ ps[j]? = some (n, r)) ∨
      (ps.length ≤ j ∧ r = some i ∧ n ∈ succs node ∧ succp n = false ∧
        containsKey ps n = false) := by
    intro j n r hj
    rcases hchar j (n, r) hj with h1 | ⟨hlen, hrec, hmem, hsp, hck⟩
    · exact Or.inl ⟨getq_lt h1, h1⟩
    · exact Or.inr ⟨hlen, hrec, hmem, hsp, hck⟩
  have hdepthnew : ∀ (j : Nat) (n : N) (r : Option Nat), ps'[j]? = some (n, r) →
      ps.length ≤ j → depthAt ps' j = depthAt ps i + 1 := by
    intro j n r hj hlen
    rcases hcases j n r hj with ⟨hjl, _⟩ | ⟨_, hrec, _, _, _⟩
    · omega
    · subst hrec
      rw [depthAt_step hj (lt_of_lt_of_le hilen hlen), hdepthext i hilen]
  refine ⟨bfsInner_inr_nodup hinner inv.nodup, ?_, ?_, ?_, ?_, ?_, ?_, ?_, ?_, ?_, ?_⟩
  · -- rootStart
    intro k n hkk
    rcases hcases k n none hkk with ⟨_, h1⟩ | ⟨_, hrec, _, _, _⟩
    · exact inv.rootStart k n h1
    · cases hrec
  · -- parentLt
    intro k n pj hkk
    rcases hcases k n (some pj) hkk with ⟨_, h1⟩ | ⟨hlen, hrec, _, _, _⟩
    · exact inv.parentLt k n pj h1
    · injection hrec with hrec
      omega
  · -- parentEdge
    intro k n pj hkk
    rcases hcases k n (some pj) hkk with ⟨_, h1⟩ | ⟨hlen, hrec, hmem, _, _⟩
    · obtain ⟨m, rm, hm, hmem⟩ := inv.parentEdge k n pj h1
      exact ⟨m, rm, by rw [hold pj (getq_lt hm)]; exact hm, hmem⟩
    · injection hrec with hrec
      rw [hrec]
      exact ⟨node, rec, by rw [hold i hilen]; exact hget, hmem⟩
  · -- nonGoal
    intro k n pj hkk
    rcases hcases k n (some pj) hkk with ⟨_, h1⟩ | ⟨_, _, _, hsp, _⟩
    · exact inv.nonGoal k n pj h1
    · exact hsp
  · -- startsIn
    intro s hs
    exact containsKey_of_pref hpre (inv.startsIn s hs)
  · -- closure
    intro k hk n r hkk c hc
    rcases Nat.lt_or_ge k i with hki | hki
    · have hkl : k < ps.length := lt_trans hki hilen
      have h1 : ps[k]? = some (n, r) := by rw [← hold k hkl]; exact hkk
      obtain ⟨h2, h3⟩ := inv.closure k hki n r h1 c hc
      exact ⟨h2, containsKey_of_pref hpre h3⟩
    · have hkeq : k = i := by omega
      subst hkeq
      have h1 : ps'[k]? = some (node, rec) := by rw [hold k hilen]; exact hget
      rw [hkk] at h1
      injection h1 with h1
      have hn : n = node := congrArg Prod.fst h1
      subst hn
      exact ⟨bfsInner_inr_nonGoal hinner c hc, bfsInner_inr_keys hinner c hc⟩
  · -- depthMono
    intro j k hjk hkl'
    rcases Nat.lt_or_ge k ps.length with hkl | hkl
    · have hjl : j < ps.length := lt_of_le_of_lt hjk hkl
      rw [hdepthext j hjl, hdepthext k hkl]
      exact inv.depthMono j k hjk hkl
    · have hEk : ps'[k]? = some ps'[k] := List.getElem?_eq_getElem hkl'
      have hdk : depthAt ps' k = depthAt ps i + 1 :=
        hdepthnew k ps'[k].1 ps'[k].2 (by rw [hEk]) hkl
      rw [hdk]
      rcases Nat.lt_or_ge j ps.length with hjl | hjl
      · rw [hdepthext j hjl]
        rcases le_or_lt j i with hji | hji
        · exact le_trans (inv.depthMono j i hji hilen) (Nat.le_succ _)
        · exact inv.spread j (le_of_lt hji) hjl hilen
      · have hjl' : j < ps'.length := lt_of_le_of_lt hjk hkl'
        have hEj : ps'[j]? = some ps'[j] := List.getElem?_eq_getElem hjl'
        rw [hdepthnew j ps'[j].1 ps'[j].2 (by rw [hEj]) hjl]
  · -- depthLeast
    intro k n r hkk ℓ hng
    rcases hcases k n r hkk with ⟨hkl, h1⟩ | ⟨hlen, _, _, _, hck⟩
    · rw [hdepthext k hkl]
      exact inv.depthLeast k n r h1 ℓ hng
    · rw [hdepthnew k n r hkk hlen]
      by_contra hcon
      push_neg at hcon
      have hc : containsKey ps n = true := inv.complete n ℓ hilen hng (by omega)
      rw [hc] at hck
      cases hck
  · -- complete
    intro n ℓ h1len hng hle
    have hE1 : ps'[i + 1]? = some ps'[i + 1] := List.getElem?_eq_getElem h1len
    have hD1le : depthAt ps' (i + 1) ≤ depthAt ps i + 1 := by
      rcases Nat.lt_or_ge (i + 1) ps.length with h2 | h2
      · rw [hdepthext _ h2]
        exact inv.spread (i + 1) (Nat.le_succ i) h2 hilen
      · rw [hdepthnew (i + 1) ps'[i + 1].1 ps'[i + 1].2 (by rw [hE1]) h2]
    rcases le_or_lt ℓ (depthAt ps i) with hld | hld
    · exact containsKey_of_pref hpre (inv.complete n ℓ hilen hng hld)
    · cases hng with
      | base hs => omega
      | tail hm hmem hns =>
        rename_i d m
        have hd : d = depthAt ps i := by omega
        subst hd
        have hcm : containsKey ps m = true := inv.complete m _ hilen hm (le_refl _)
        obtain ⟨jm, rm, hjm⟩ := mem_keys.mp (containsKey_iff.mp hcm)
        have hdjm : depthAt ps jm ≤ depthAt ps i := inv.depthLeast jm m rm hjm _ hm
        have hjmle : jm ≤ i := by
          by_contra hcon
      -- jm > i: the cursor entry at i+1 would have depth at most depthAt ps i,
      -- contradicting ℓ ≤ depthAt ps' (i+1)
          push_neg at hcon
          have hjml : jm < ps.length := getq_lt hjm
          rcases Nat.lt_or_ge (i + 1) ps.length with h4 | h4
          · have h5 : depthAt ps (i + 1) ≤ depthAt ps jm :=
              inv.depthMono (i + 1) jm hcon hjml
            have h6 : depthAt ps' (i + 1) = depthAt ps (i + 1) := hdepthext _ h4
            omega
          · omega
        rcases Nat.lt_or_eq_of_le hjmle with h3 | h3
        · obtain ⟨_, h4⟩ := inv.closure jm h3 m rm hjm n hmem
          exact containsKey_of_pref hpre h4
        · subst h3
          rw [hjm] at hget
          injection hget with hget
          have hmn : m = node := congrArg Prod.fst hget
          subst hmn
          exact bfsInner_inr_keys hinner n hmem
  · -- spread
    intro k hik hkl' h1l'
    have hupper : depthAt ps' k ≤ depthAt ps i + 1 := by
      rcases Nat.lt_or_ge k ps.length with hkl | hkl
      · rw [hdepthext k hkl]
        exact inv.spread k (by omega) hkl hilen
      · have hEk : ps'[k]? = some ps'[k] := List.getElem?_eq_getElem hkl'
        rw [hdepthnew k ps'[k].1 ps'[k].2 (by rw [hEk]) hkl]
    have hlower : depthAt ps i ≤ depthAt ps' (i + 1) := by
      rcases Nat.lt_or_ge (i + 1) ps.length with h2 | h2
      · rw [hdepthext _ h2]
        exact inv.depthMono i (i + 1) (Nat.le_succ i) h2
      · have hE1 : ps'[i + 1]? = some ps'[i + 1] := List.getElem?_eq_getElem h1l'
        rw [hdepthnew (i + 1) ps'[i + 1].1 ps'[i + 1].2 (by rw [hE1]) h2]
        omega
    omega

/-- Once every entry is expanded, the map is closed: it contains the endpoint
of every goal-free walk. -/
theorem bfsInv_closed {starts : List N} {succs : N → List N} {succp : N → Bool}
    {ps : List (N × Option Nat)} {i : Nat} (inv : BfsInv starts succs succp ps i)
    (hexh : ps.length ≤ i) :
    ∀ (ℓ : Nat) (n : N), NGReach succs succp starts ℓ n → containsKey ps n = true := by
  intro ℓ n hng
  induction hng with
  | base hs => exact inv.startsIn _ hs
  | tail hm hmem hns ih =>
    obtain ⟨jm, rm, hjm⟩ := mem_keys.mp (containsKey_iff.mp ih)
    have hji : jm < i := lt_of_lt_of_le (getq_lt hjm) hexh
    exact (inv.closure jm hji _ rm hjm _ hmem).2

/-- Once every entry is expanded, no expanded node has a goal successor, so
no goal-free walk can be extended by an edge into a goal. -/
theorem bfsInv_closed_noGoal {starts : List N} {succs : N → List N} {succp : N → Bool}
    {ps : List (N × Option Nat)} {i : Nat} (inv : BfsInv starts succs succp ps i)
    (hexh : ps.length ≤ i) {ℓ : Nat} {m g : N}
    (hng : NGReach succs succp starts ℓ m) (hmem : g ∈ succs m)
    (hgp : succp g = true) : False := by
  have hcm : containsKey ps m = true := bfsInv_closed inv hexh ℓ m hng
  obtain ⟨jm, rm, hjm⟩ := mem_keys.mp (containsKey_iff.mp hcm)
  have hji : jm < i := lt_of_lt_of_le (getq_lt hjm) hexh
  have := (inv.closure jm hji _ rm hjm _ hmem).1
  rw [this] at hgp
  cases hgp

/-- When the fueled loop exhausts without an answer and the fuel dominates the
number of nodes, no goal-free walk has a goal successor. -/
theorem bfsAux_none_sound [Fintype N] {starts : List N} {succs : N → List N}
    {succp : N → Bool} :
    ∀ (fuel i : Nat) (ps : List (N × Option Nat)),
      BfsInv starts succs succp ps i → Fintype.card N ≤ fuel + i →
      bfsAux succs succp fuel ps i = none →
      ∀ (ℓ : Nat) (m g : N), NGReach succs succp starts ℓ m → g ∈ succs m →
        succp g = true → False := by
  intro fuel
  induction fuel with
  | zero =>
    intro i ps inv hcard hrun ℓ m g hng hmem hgp
    have hexh : ps.length ≤ i := by
      have h1 : (keys ps).length ≤ Fintype.card N := List.Nodup.length_le_card inv.nodup
      have h2 : (keys ps).length = ps.length := List.length_map ps Prod.fst
      omega
    exact bfsInv_closed_noGoal inv hexh hng hmem hgp
  | succ fuel ih =>
    intro i ps inv hcard hrun ℓ m g hng hmem hgp
    unfold bfsAux at hrun
    cases hget : ps[i]? with
    | none =>
      have hexh : ps.length ≤ i := List.getElem?_eq_none_iff.mp hget
      exact bfsInv_closed_noGoal inv hexh hng hmem hgp
    | some e =>
      obtain ⟨node, rec⟩ := e
      simp only [hget] at hrun
      cases hinner : bfsInner succp i (succs node) ps with
      | inl p =>
        simp only [hinner] at hrun
        cases hrun
      | inr ps' =>
        simp only [hinner] at hrun
        exact ih (i + 1) ps' (bfsInv_step inv hget hinner) (by omega) hrun ℓ m g hng hmem hgp

/-- When the fueled loop returns a path, the path decomposes as a goal-free
walk from a start followed by one edge into a goal, and its length is least
among all such decompositions. -/
theorem bfsAux_some_sound {starts : List N} {succs : N → List N} {succp : N → Bool} :
    ∀ (fuel i : Nat) (ps : List (N × Option Nat)) (p : List N),
      BfsInv starts succs succp ps i →
      bfsAux succs succp fuel ps i = some p →
      ∃ (q : List N) (g : N),
        p = q ++ [g] ∧ succp g = true ∧ q.Nodup ∧
        (∃ s ∈ starts, q.head? = some s) ∧
        (∀ x ∈ q.drop 1, succp x = false) ∧
        List.Chain' (fun a b => b ∈ succs a) p ∧
        (∃ (ℓ : Nat) (m : N), NGReach succs succp starts ℓ m ∧ g ∈ succs m ∧
          q.length = ℓ + 1) ∧
        (∀ (ℓ : Nat) (m g' : N), NGReach succs succp starts ℓ m → g' ∈ succs m →
          succp g' = true → q.length ≤ ℓ + 1) := by
  intro fuel
  induction fuel with
  | zero => intro i ps p inv hrun; cases hrun
  | succ fuel ih =>
    intro i ps p inv hrun
    unfold bfsAux at hrun
    cases hget : ps[i]? with
    | none => rw [hget] at hrun; cases hrun
    | some e =>
      obtain ⟨node, rec⟩ := e
      simp only [hget] at hrun
      cases hinner : bfsInner succp i (succs node) ps with
      | inr ps' =>
        simp only [hinner] at hrun
        exact ih (i + 1) ps' p (bfsInv_step inv hget hinner) hrun
      | inl p₀ =>
        simp only [hinner] at hrun
        injection hrun with hrun
        subst hrun
        obtain ⟨ps₀, succ, hpre0, hsp, hmem, hpform, hchar0⟩ := bfsInner_inl_spec hinner
        have hilen : i < ps.length := getq_lt hget
        have hpath0 : pathTo ps₀ i = pathTo ps i := pathTo_extend hpre0 inv.parentLt i hilen
        rw [hpform, hpath0]
        refine ⟨(pathTo ps i).reverse, succ, rfl, hsp, ?_, ?_, ?_, ?_, ?_, ?_⟩
        · exact List.nodup_reverse.mpr (pathTo_nodup inv.nodup i)
        · obtain ⟨s, hs, hlast⟩ :=
            pathTo_getLast inv.rootStart inv.parentLt i node rec hget
          refine ⟨s, hs, ?_⟩
          rw [List.head?_reverse]
          exact hlast
        · intro x hx
          rw [List.drop_one, List.tail_reverse] at hx
          obtain ⟨k, pj, hk⟩ := pathTo_dropLast_parent (List.mem_reverse.mp hx)
          exact inv.nonGoal k x pj hk
        · obtain ⟨-, hchain⟩ :=
            pathTo_ngreach inv.rootStart inv.parentLt inv.parentEdge inv.nonGoal
              i node rec hget
          rw [List.chain'_append]
          refine ⟨?_, List.chain'_singleton succ, ?_⟩
          · rw [List.chain'_reverse]
            exact hchain
          · intro x hx y hy
            rw [List.getLast?_reverse, pathTo_head hget] at hx
            cases hx
            cases hy
            exact hmem
        · refine ⟨depthAt ps i, node, inv.ngreach hget, hmem, ?_⟩
          rw [List.length_reverse]
          have h1 : 1 ≤ (pathTo ps i).length := List.length_pos.mpr (pathTo_ne_nil hget)
          unfold depthAt
          omega
        · intro ℓ m g' hng hmem' hgp
          rw [List.length_reverse]
          have hmin : depthAt ps i ≤ ℓ := by
            by_contra hcon
            push_neg at hcon
            have hcm : containsKey ps m = true :=
              inv.complete m ℓ hilen hng (by omega)
            obtain ⟨jm, rm, hjm⟩ := mem_keys.mp (containsKey_iff.mp hcm)
            have hdjm : depthAt ps jm ≤ ℓ := inv.depthLeast jm m rm hjm ℓ hng
            have hjmi : jm < i := by
              by_contra hcon2
              push_neg at hcon2
              have := inv.depthMono i jm hcon2 (getq_lt hjm)
              omega
            have := (inv.closure jm hjmi m rm hjm g' hmem').1
            rw [this] at hgp
            cases hgp
          have h1 : 1 ≤ (pathTo ps i).length := List.length_pos.mpr (pathTo_ne_nil hget)
          unfold depthAt at hmin
          omega

/-! ### `bfs_core` level characterization -/

/-- A successful `bfs_core` run is either an immediate start hit (with
`check_first`) or a loop hit with the full decomposition. -/
theorem bfs_core_some_spec [Fintype N] {starts : List N} {succs : N → List N}
    {succp : N → Bool} {cf : Bool} {p : List N}
    (h : bfs_core starts succs succp cf = some p) :
    (cf = true ∧ ∃ s ∈ starts, succp s = true ∧ p = [s]) ∨
    ((cf = true → ∀ s ∈ starts, succp s = false) ∧
      ∃ (q : List N) (g : N),
        p = q ++ [g] ∧ succp g = true ∧ q.Nodup ∧
        (∃ s ∈ starts, q.head? = some s) ∧
        (∀ x ∈ q.drop 1, succp x = false) ∧
        List.Chain' (fun a b => b ∈ succs a) p ∧
        (∃ (ℓ : Nat) (m : N), NGReach succs succp starts ℓ m ∧ g ∈ succs m ∧
          q.length = ℓ + 1) ∧
        (∀ (ℓ : Nat) (m g' : N), NGReach succs succp starts ℓ m → g' ∈ succs m →
          succp g' = true → q.length ≤ ℓ + 1)) := by
  unfold bfs_core at h
  cases hseed : bfsSeed succp cf starts [] with
  | inl p₀ =>
    rw [hseed] at h
    injection h with h
    subst h
    obtain ⟨hcf, s, hs, hsp, hp⟩ := bfsSeed_inl_spec hseed
    exact Or.inl ⟨hcf, s, hs, hsp, hp⟩
  | inr ps₀ =>
    rw [hseed] at h
    obtain ⟨inv, hcfng⟩ := bfsInv_init succs hseed
    exact Or.inr ⟨hcfng, bfsAux_some_sound (Fintype.card N) 0 ps₀ p inv h⟩

/-- When `bfs_core` fails, no goal-free walk can be extended into a goal, and
(with `check_first`) no start is a goal. -/
theorem bfs_core_none_sound [Fintype N] {starts : List N} {succs : N → List N}
    {succp : N → Bool} {cf : Bool}
    (h : bfs_core starts succs succp cf = none) :
    (cf = true → ∀ s ∈ starts, succp s = false) ∧
    (∀ (ℓ : Nat) (m g : N), NGReach succs succp starts ℓ m → g ∈ succs m →
      succp g = true → False) := by
  unfold bfs_core at h
  cases hseed : bfsSeed succp cf starts [] with
  | inl p₀ =>
    rw [hseed] at h
    cases h
  | inr ps₀ =>
    rw [hseed] at h
    obtain ⟨inv, hcfng⟩ := bfsInv_init succs hseed
    exact ⟨hcfng,
      fun ℓ m g => bfsAux_none_sound (Fintype.card N) 0 ps₀ inv (by omega) h ℓ m g⟩

/-! ### C1: correctness of `bfs` -/

/-- C1.  `bfs(starts, successors, success)` returns `Some(path)` iff some node
satisfying `success` is reachable from some start; the returned path runs
from a start node to a goal node along successor edges, and its edge count
(`path.length - 1`) is least among the edge counts of all walks from a start
to a goal. -/
theorem bfs_correct [Fintype N] (starts : List N) (succs : N → List N)
    (succp : N → Bool) :
    ((bfs starts succs succp).isSome ↔
      ∃ s ∈ starts, ∃ g, succp g = true ∧ Reaches succs s g) ∧
    (∀ p, bfs starts succs succp = some p →
      (∃ s ∈ starts, p.head? = some s) ∧
      (∃ g, p.getLast? = some g ∧ succp g = true) ∧
      List.Chain' (fun a b => b ∈ succs a) p ∧
      IsLeast {d | ∃ s ∈ starts, ∃ g, succp g = true ∧ ReachN succs d s g}
        (p.length - 1)) := by
  have hsome : ∀ p, bfs starts succs succp = some p →
      (∃ s ∈ starts, p.head? = some s) ∧
      (∃ g, p.getLast? = some g ∧ succp g = true) ∧
      List.Chain' (fun a b => b ∈ succs a) p ∧
      IsLeast {d | ∃ s ∈ starts, ∃ g, succp g = true ∧ ReachN succs d s g}
        (p.length - 1) := by
    intro p hp
    rcases bfs_core_some_spec hp with ⟨-, s, hs, hsp, hpform⟩ |
      ⟨hng0, q, g, hpform, hgp, hqnd, ⟨s, hs, hhead⟩, hdrop, hchain, ⟨ℓ, m, hngm, hmem, hqlen⟩, hmin⟩
    · subst hpform
      refine ⟨⟨s, hs, rfl⟩, ⟨s, rfl, hsp⟩, List.chain'_singleton s, ?_⟩
      constructor
      · exact ⟨s, hs, s, hsp, ReachN.refl s⟩
      · intro d hd
        exact Nat.zero_le d
    · subst hpform
      obtain ⟨q', rfl⟩ : ∃ q', q = s :: q' := by
        cases q with
        | nil => cases hhead
        | cons a q' =>
          injection hhead with hhead
          rw [hhead]
          exact ⟨q', rfl⟩
      refine ⟨⟨s, hs, rfl⟩, ⟨g, ?_, hgp⟩, hchain, ?_⟩
      · rw [List.getLast?_append_of_ne_nil (s :: q') (by simp)]
        rfl
      · constructor
        · obtain ⟨s', hs', hreach⟩ := hngm.toReach
          refine ⟨s', hs', g, hgp, ?_⟩
          have : (s :: q' ++ [g]).length - 1 = ℓ + 1 := by
            simp only [List.length_append, List.length_cons, List.length_nil]
            simp only [List.length_cons] at hqlen
            omega
          rw [this]
          exact ReachN.tail hreach hmem
        · intro d hd
          obtain ⟨s', hs', g', hgp', hreach⟩ := hd
          have hd1 : 1 ≤ d := by
            rcases Nat.eq_zero_or_pos d with rfl | h1
            · cases hreach with
              | refl => rw [hng0 rfl s' hs'] at hgp'; cases hgp'
            · exact h1
          obtain ⟨ℓ', m', g'', hle, hng', hmem', hgp''⟩ :=
            reach_reduce succp hs' hreach hgp' hd1
          have := hmin ℓ' m' g'' hng' hmem' hgp''
          simp only [List.length_append, List.length_cons, List.length_nil]
          simp only [List.length_cons] at this
          omega
  constructor
  · constructor
    · intro h
      obtain ⟨p, hp⟩ := Option.isSome_iff_exists.mp h
      obtain ⟨⟨s, hs, hhead⟩, ⟨g, hlast, hgp⟩, hchain, hleast, -⟩ := hsome p hp
      obtain ⟨s', hs', g', hgp', hreach⟩ := hleast
      exact ⟨s', hs', g', hgp', _, hreach⟩
    · intro ⟨s, hs, g, hgp, d, hreach⟩
      cases hres : bfs starts succs succp with
      | some p => rfl
      | none =>
        exfalso
        obtain ⟨hng0, hnone⟩ := bfs_core_none_sound hres
        rcases Nat.eq_zero_or_pos d with rfl | h1
        · cases hreach with
          | refl => rw [hng0 rfl s hs] at hgp; cases hgp
        · obtain ⟨ℓ', m', g'', hle, hng', hmem', hgp''⟩ := reach_reduce succp hs hreach hgp h1
          exact hnone ℓ' m' g'' hng' hmem' hgp''
  · exact hsome

/-- Concrete evaluation of `bfs_correct`: the two-node graph `0 → 1` on
`Fin 2` with goal `1` yields the path `[0, 1]` of one edge, which is least. -/
theorem bfs_correct_witness :
    IsLeast {d | ∃ s ∈ [(0 : Fin 2)], ∃ g, (fun n : Fin 2 => decide (n = 1)) g = true ∧
      ReachN (fun n : Fin 2 => [n + 1]) d s g} 1 := by
  have h := (bfs_correct [(0 : Fin 2)] (fun n => [n + 1])
    (fun n => decide (n = 1))).2 [0, 1] (by decide)
  have h4 := h.2.2.2
  have hlen : ([0, 1] : List (Fin 2)).length - 1 = 1 := by decide
  rw [hlen] at h4
  exact h4

/-! ### C5: correctness of `bfs_loop` -/

/-- C5.  `bfs_loop(start, successors)` returns `None` iff no cycle through
`start` (a walk of at least one edge from `start` back to itself) exists;
otherwise the returned path starts and ends at `start`, has at least two
nodes, its intermediate nodes are pairwise distinct and distinct from
`start`, and its edge count is least among all cycles through `start`. -/
theorem bfs_loop_correct [Fintype N] (start : N) (succs : N → List N) :
    ((bfs_loop start succs).isSome ↔ ∃ d, 1 ≤ d ∧ ReachN succs d start start) ∧
    (∀ p, bfs_loop start succs = some p →
      ∃ mid : List N, p = start :: (mid ++ [start]) ∧ 2 ≤ p.length ∧
        mid.Nodup ∧ start ∉ mid ∧
        List.Chain' (fun a b => b ∈ succs a) p ∧
        IsLeast {d | 1 ≤ d ∧ ReachN succs d start start} (p.length - 1)) := by
  have hsome : ∀ p, bfs_loop start succs = some p →
      ∃ mid : List N, p = start :: (mid ++ [start]) ∧ 2 ≤ p.length ∧
        mid.Nodup ∧ start ∉ mid ∧
        List.Chain' (fun a b => b ∈ succs a) p ∧
        IsLeast {d | 1 ≤ d ∧ ReachN succs d start start} (p.length - 1) := by
    intro p hp
    rcases bfs_core_some_spec hp with ⟨hcf, -⟩ |
      ⟨-, q, g, hpform, hgp, hqnd, ⟨s, hs, hhead⟩, hdrop, hchain, ⟨ℓ, m, hngm, hmem, hqlen⟩, hmin⟩
    · cases hcf
    · have hg : start = g := (of_decide_eq_true hgp).symm
      subst hg
      have hs' : start = s := (List.mem_singleton.mp hs).symm
      subst hs'
      obtain ⟨mid, rfl⟩ : ∃ mid, q = start :: mid := by
        cases q with
        | nil => cases hhead
        | cons a q' =>
          injection hhead with hhead
          rw [hhead]
          exact ⟨q', rfl⟩
      subst hpform
      have hmidng : ∀ x ∈ mid, decide (x = start) = false := by
        intro x hx
        exact hdrop x (by simpa using hx)
      have hstartnotmid : start ∉ mid := by
        intro hx
        have := hmidng start hx
        simp at this
      refine ⟨mid, by simp, by simp, (List.nodup_cons.mp hqnd).2, hstartnotmid, hchain, ?_⟩
      have hlen : (start :: mid ++ [start]).length - 1 = mid.length + 1 := by
        simp
      rw [hlen]
      have hqlen' : mid.length + 1 = ℓ + 1 := by
        simpa using hqlen
      constructor
      · obtain ⟨s', hs', hreach⟩ := hngm.toReach
        rw [List.mem_singleton] at hs'
        subst hs'
        exact ⟨by omega, by rw [hqlen']; exact ReachN.tail hreach hmem⟩
      · intro d hd
        obtain ⟨hd1, hreach⟩ := hd
        obtain ⟨ℓ', m', g'', hle, hng', hmem', hgp''⟩ :=
          reach_reduce (fun n => decide (n = start)) (List.mem_singleton.mpr rfl) hreach (by exact decide_eq_true rfl) hd1
        have := hmin ℓ' m' g'' hng' hmem' hgp''
        simp only [List.length_cons] at this
        omega
  refine ⟨⟨?_, ?_⟩, hsome⟩
  · intro h
    obtain ⟨p, hp⟩ := Option.isSome_iff_exists.mp h
    obtain ⟨mid, -, -, -, -, -, hleast⟩ := hsome p hp
    exact ⟨p.length - 1, hleast.1⟩
  · intro ⟨d, hd1, hreach⟩
    cases hres : bfs_loop start succs with
    | some p => rfl
    | none =>
      exfalso
      obtain ⟨-, hnone⟩ := bfs_core_none_sound hres
      obtain ⟨ℓ', m', g'', hle, hng', hmem', hgp''⟩ :=
        reach_reduce (fun n => decide (n = start)) (List.mem_singleton.mpr rfl) hreach (by exact decide_eq_true rfl) hd1
      exact hnone ℓ' m' g'' hng' hmem' hgp''

/-- Concrete evaluation of `bfs_loop_correct`: on `Fin 4` with successor
`n + 2`, the shortest cycle through `1` is `[1, 3, 1]` with two edges. -/
theorem bfs_loop_correct_witness :
    IsLeast {d | 1 ≤ d ∧ ReachN (fun n : Fin 4 => [n + 2]) d 1 1} 2 := by
  have h := (bfs_loop_correct (1 : Fin 4) (fun n => [n + 2])).2 [1, 3, 1] (by decide)
  obtain ⟨mid, -, -, -, -, -, hleast⟩ := h
  have hlen : ([1, 3, 1] : List (Fin 4)).length - 1 = 2 := by decide
  rw [hlen] at hleast
  exact hleast

/-! ### The per-step view of the engine (C6, C7) -/

/-- One expansion step of the cursor loop: read the entry at the cursor,
process all of its successors without hitting a goal, advance the cursor. -/
inductive BfsStep (succs : N → List N) (succp : N → Bool) :
    (List (N × Option Nat) × Nat) → (List (N × Option Nat) × Nat) → Prop
  | step {ps ps' : List (N × Option Nat)} {i : Nat} {node : N} {rec : Option Nat} :
      ps[i]? = some (node, rec) →
      bfsInner succp i (succs node) ps = .inr ps' →
      BfsStep succs succp (ps, i) (ps', i + 1)

/-- The loop invariant holds in every state reachable from a seeded state. -/
theorem bfsInv_reachable {starts : List N} (succs : N → List N) {succp : N → Bool}
    {cf : Bool} {ps₀ : List (N × Option Nat)} {st : List (N × Option Nat) × Nat}
    (hseed : bfsSeed succp cf starts [] = .inr ps₀)
    (hreach : Relation.ReflTransGen (BfsStep succs succp) (ps₀, 0) st) :
    BfsInv starts succs succp st.1 st.2 := by
  induction hreach with
  | refl => exact (bfsInv_init succs hseed).1
  | tail hsteps hstep ih =>
    cases hstep with
    | step hget hinner => exact bfsInv_step ih hget hinner

/-- C6.  With `check_first` enabled, every start is tested against the goal
predicate before any expansion: the first matching start is returned
immediately as a single-node path.  During the search, goal-satisfying nodes
are returned without ever being inserted: in every state reachable from the
seeded state, no key of the parents map satisfies the goal predicate. -/
theorem bfs_goal_never_inserted [Fintype N] (starts : List N) (succs : N → List N)
    (succp : N → Bool) :
    (∀ s : N, starts.find? succp = some s → bfs starts succs succp = some [s]) ∧
    (∀ (ps₀ : List (N × Option Nat)) (st : List (N × Option Nat) × Nat),
      bfsSeed succp true starts [] = .inr ps₀ →
      Relation.ReflTransGen (BfsStep succs succp) (ps₀, 0) st →
      ∀ n ∈ keys st.1, succp n = false) := by
  constructor
  · intro s hfind
    unfold bfs bfs_core
    rw [bfsSeed_find hfind]
  · intro ps₀ st hseed hreach n hn
    have inv := bfsInv_reachable succs hseed hreach
    have hcfng := (bfsInv_init succs hseed).2 rfl
    obtain ⟨j, r, hj⟩ := mem_keys.mp hn
    cases r with
    | none => exact hcfng n (inv.rootStart j n hj)
    | some pj => exact inv.nonGoal j n pj hj

/-- Concrete evaluation of `bfs_goal_never_inserted`: a matching start is
returned immediately, and in the seeded state of a search whose goal is `1`
no key satisfies the goal predicate. -/
theorem bfs_goal_never_inserted_witness :
    bfs [(0 : Fin 2)] (fun n => [n + 1]) (fun n => decide (n = 0)) = some [0] ∧
    (∀ n ∈ keys [((0 : Fin 2), (none : Option Nat))],
      (fun m : Fin 2 => decide (m = 1)) n = false) := by
  constructor
  · exact (bfs_goal_never_inserted [(0 : Fin 2)] (fun n => [n + 1])
      (fun n => decide (n = 0))).1 0 (by decide)
  · exact (bfs_goal_never_inserted [(0 : Fin 2)] (fun n => [n + 1])
      (fun n => decide (n = 1))).2 [((0 : Fin 2), none)] ([((0 : Fin 2), none)], 0)
      (by decide) Relation.ReflTransGen.refl

/-- C7.  The parents map is append-only: a step never mutates an existing
entry (a successor already present is skipped, never re-parented).  In every
reachable state every non-start entry's parent index is strictly less than
its own index (start entries carry the sentinel), and every reconstructed
path is duplicate-free. -/
theorem bfs_entries_frozen (starts : List N) (succs : N → List N)
    (succp : N → Bool) (cf : Bool) :
    (∀ st st' : List (N × Option Nat) × Nat,
      BfsStep succs succp st st' → st.1 <+: st'.1) ∧
    (∀ (ps₀ : List (N × Option Nat)) (st : List (N × Option Nat) × Nat),
      bfsSeed succp cf starts [] = .inr ps₀ →
      Relation.ReflTransGen (BfsStep succs succp) (ps₀, 0) st →
      (∀ (k : Nat) (n : N) (pj : Nat), st.1[k]? = some (n, some pj) → pj < k) ∧
      (∀ j : Nat, (reversePath st.1 j).Nodup)) := by
  constructor
  · intro st st' hstep
    cases hstep with
    | step hget hinner => exact bfsInner_inr_pref hinner
  · intro ps₀ st hseed hreach
    have inv := bfsInv_reachable succs hseed hreach
    exact ⟨inv.parentLt,
      fun j => List.nodup_reverse.mpr (pathTo_nodup inv.nodup j)⟩

/-- Concrete evaluation of `bfs_entries_frozen` at the seeded state of a
two-node search: the reconstructed path from index 0 has no duplicates. -/
theorem bfs_entries_frozen_witness :
    (reversePath [((0 : Fin 2), (none : Option Nat))] 0).Nodup := by
  exact ((bfs_entries_frozen [(0 : Fin 2)] (fun n => [n + 1])
      (fun n => decide (n = 1)) true).2 [((0 : Fin 2), none)]
      ([((0 : Fin 2), none)], 0) (by decide) Relation.ReflTransGen.refl).2 0

/-! ### C8: the empty start set -/

theorem bfsAux_nil {succs : N → List N} {succp : N → Bool} :
    ∀ (fuel i : Nat), bfsAux succs succp fuel ([] : List (N × Option Nat)) i = none := by
  intro fuel i
  cases fuel with
  | zero => rfl
  | succ fuel => rfl

/-- C8.  With an empty start set, `bfs` returns `None` whatever the successor
and goal functions are (they are never consulted), and the `bfs_reach`
iterator yields nothing and reports a zero lower bound; the case flows
through the ordinary exhaustion path of the engine. -/
theorem bfs_empty_starts [Fintype N] :
    (∀ (succs : N → List N) (succp : N → Bool), bfs ([] : List N) succs succp = none) ∧
    (∀ (succs : N → List N) (fuel : Nat),
      bfsReachList succs fuel (bfs_reach ([] : List N)) = []) ∧
    remaining_nodes_low_bound (bfs_reach ([] : List N)) = 0 := by
  refine ⟨?_, ?_, rfl⟩
  · intro succs succp
    unfold bfs bfs_core bfsSeed
    exact bfsAux_nil (Fintype.card N) 0
  · intro succs fuel
    cases fuel with
    | zero => rfl
    | succ fuel => rfl

/-! ### Lemmas about the seen set of `bfs_reach` -/

theorem setInsert_pref (seen : List N) (n : N) : seen <+: setInsert seen n := by
  unfold setInsert
  split
  · exact List.prefix_rfl
  · exact ⟨[n], rfl⟩

theorem foldl_setInsert_pref :
    ∀ (l seen : List N), seen <+: l.foldl setInsert seen := by
  intro l
  induction l with
  | nil => intro seen; exact List.prefix_rfl
  | cons a l ih =>
    intro seen
    exact (setInsert_pref seen a).trans (ih (setInsert seen a))

theorem setInsert_nodup {seen : List N} {n : N} (h : seen.Nodup) :
    (setInsert seen n).Nodup := by
  unfold setInsert
  split
  · exact h
  · rename_i hn
    refine List.Nodup.append h (List.nodup_singleton n) ?_
    intro a ha hb
    rw [List.mem_singleton] at hb
    subst hb
    exact hn ha

theorem foldl_setInsert_nodup :
    ∀ {l seen : List N}, seen.Nodup → (l.foldl setInsert seen).Nodup := by
  intro l
  induction l with
  | nil => intro seen h; exact h
  | cons a l ih => intro seen h; exact ih (setInsert_nodup h)

theorem mem_setInsert {x : N} {seen : List N} {n : N} :
    x ∈ setInsert seen n ↔ x ∈ seen ∨ x = n := by
  unfold setInsert
  split
  · rename_i hn
    constructor
    · exact Or.inl
    · rintro (h | rfl)
      · exact h
      · exact hn
  · simp

theorem mem_foldl_setInsert :
    ∀ {l seen : List N} {x : N}, x ∈ l.foldl setInsert seen ↔ x ∈ seen ∨ x ∈ l := by
  intro l
  induction l with
  | nil => intro seen x; simp
  | cons a l ih =>
    intro seen x
    constructor
    · intro h
      rcases ih.mp h with h1 | h1
      · rcases mem_setInsert.mp h1 with h2 | rfl
        · exact Or.inl h2
        · exact Or.inr (List.mem_cons_self _ _)
      · exact Or.inr (List.mem_cons_of_mem _ h1)
    · intro h
      rcases h with h1 | h1
      · exact ih.mpr (Or.inl (mem_setInsert.mpr (Or.inl h1)))
      · rcases List.mem_cons.mp h1 with rfl | h2
        · exact ih.mpr (Or.inl (mem_setInsert.mpr (Or.inr rfl)))
        · exact ih.mpr (Or.inr h2)

/-- Once the cursor has passed every entry, the seen set is closed under the
successor function, hence contains everything reachable from it. -/
theorem seen_closed {succs : N → List N} {b : BfsReachable N}
    (hexp : ∀ j < b.i, ∀ n : N, b.seen[j]? = some n → ∀ c ∈ succs n, c ∈ b.seen)
    (hexh : b.seen.length ≤ b.i) :
    ∀ (d : Nat) (m n : N), m ∈ b.seen → ReachN succs d m n → n ∈ b.seen := by
  intro d m n hm hr
  induction hr with
  | refl => exact hm
  | tail hr hmem ih =>
    obtain ⟨j, hj, hget⟩ := List.getElem_of_mem (ih hm)
    exact hexp j (lt_of_lt_of_le hj hexh) _
      (by rw [List.getElem?_eq_getElem hj, hget]) _ hmem

/-- The main run lemma for the reachability iterator: starting from a sound
state with enough fuel, the produced list is the tail of the final seen set
from the cursor on, and the final seen set is exactly what is reachable from
the current seen set. -/
theorem bfsReachRun [Fintype N] {succs : N → List N} :
    ∀ (fuel : Nat) (b : BfsReachable N),
      b.seen.Nodup → b.i ≤ b.seen.length →
      (∀ j < b.i, ∀ n : N, b.seen[j]? = some n → ∀ c ∈ succs n, c ∈ b.seen) →
      Fintype.card N ≤ fuel + b.i →
      ∃ sf : List N,
        bfsReachList succs fuel b = sf.drop b.i ∧
        b.seen <+: sf ∧ sf.Nodup ∧
        (∀ n, n ∈ sf ↔ ∃ m ∈ b.seen, Reaches succs m n) := by
  intro fuel
  induction fuel with
  | zero =>
    intro b hnd hile hexp hcard
    have hexh : b.seen.length ≤ b.i := by
      have := List.Nodup.length_le_card hnd
      omega
    refine ⟨b.seen, ?_, List.prefix_rfl, hnd, ?_⟩
    · rw [List.drop_eq_nil_of_le hexh]
      rfl
    · intro n
      constructor
      · intro h
        exact ⟨n, h, 0, ReachN.refl n⟩
      · rintro ⟨m, hm, d, hr⟩
        exact seen_closed hexp hexh d m n hm hr
  | succ fuel ih =>
    intro b hnd hile hexp hcard
    cases hget : b.seen[b.i]? with
    | none =>
      have hexh : b.seen.length ≤ b.i := List.getElem?_eq_none_iff.mp hget
      refine ⟨b.seen, ?_, List.prefix_rfl, hnd, ?_⟩
      · rw [List.drop_eq_nil_of_le hexh]
        show bfsReachList succs (fuel + 1) b = []
        unfold bfsReachList bfsNext
        rw [hget]
      · intro n
        constructor
        · intro h
          exact ⟨n, h, 0, ReachN.refl n⟩
        · rintro ⟨m, hm, d, hr⟩
          exact seen_closed hexp hexh d m n hm hr
    | some n =>
      have hilt : b.i < b.seen.length := getq_lt hget
      set b' : BfsReachable N :=
        { i := b.i + 1, seen := (succs n).foldl setInsert b.seen } with hb'
      have hpre : b.seen <+: b'.seen := foldl_setInsert_pref (succs n) b.seen
      have hnd' : b'.seen.Nodup := foldl_setInsert_nodup hnd
      have hile' : b'.i ≤ b'.seen.length := by
        have := hpre.length_le
        show b.i + 1 ≤ b'.seen.length
        omega
      have hexp' : ∀ j < b'.i, ∀ m : N, b'.seen[j]? = some m → ∀ c ∈ succs m, c ∈ b'.seen := by
        intro j hj m hget' c hc
        have hjle : j ≤ b.i := by
          show j ≤ b.i
          have : j < b.i + 1 := hj
          omega
        rcases Nat.lt_or_eq_of_le hjle with hjlt | rfl
        · have hjb : j < b.seen.length := lt_trans hjlt hilt
          rw [prefix_getq_lt hpre hjb] at hget'
          exact hpre.sublist.subset (hexp j hjlt m hget' c hc)
        · rw [prefix_getq_lt hpre hilt, hget] at hget'
          injection hget' with hget'
          subst hget'
          exact mem_foldl_setInsert.mpr (Or.inr hc)
      obtain ⟨sf, hout, hpre2, hndf, hmemf⟩ := ih b' hnd' hile' hexp' (by
        show Fintype.card N ≤ fuel + (b.i + 1)
        omega)
      refine ⟨sf, ?_, hpre.trans hpre2, hndf, ?_⟩
      · show bfsReachList succs (fuel + 1) b = sf.drop b.i
        unfold bfsReachList bfsNext
        rw [hget]
        have hsfi : sf[b.i]? = some n := by
          rw [prefix_getq_lt (hpre.trans hpre2) hilt]
          exact hget
        have hisf : b.i < sf.length := getq_lt hsfi
        have hdrop : sf.drop b.i = sf[b.i] :: sf.drop (b.i + 1) :=
          List.drop_eq_getElem_cons hisf
        rw [List.getElem?_eq_getElem hisf] at hsfi
        injection hsfi with hsfi
        rw [hdrop, hsfi]
        exact congrArg (n :: ·) hout
      · intro x
        rw [hmemf x]
        constructor
        · rintro ⟨m, hm, d, hr⟩
          rcases mem_foldl_setInsert.mp hm with h1 | h1
          · exact ⟨m, h1, d, hr⟩
          · refine ⟨n, List.getElem?_mem hget, d + 1, ?_⟩
            have h2 : ReachN succs 1 n m := ReachN.tail (ReachN.refl n) h1
            have := h2.trans hr
            simpa [Nat.add_comm] using this
        · rintro ⟨m, hm, d, hr⟩
          exact ⟨m, hpre.sublist.subset hm, d, hr⟩

/-! ### C9 and C10: the reachability iterator -/

/-- C9.  Run to exhaustion, the iterator yields every node reachable from the
start set exactly once in discovery order; each successful `next` reads the
entry at the cursor, inserts the not-yet-seen successors, and advances the
cursor by one; and `remaining_nodes_low_bound` counts exactly the
discovered-but-not-yet-yielded entries. -/
theorem bfs_reach_correct [Fintype N] (starts : List N) (succs : N → List N) :
    (bfsReachList succs (Fintype.card N) (bfs_reach starts)).Nodup ∧
    (∀ n, n ∈ bfsReachList succs (Fintype.card N) (bfs_reach starts) ↔
      ∃ s ∈ starts, Reaches succs s n) ∧
    (∀ b : BfsReachable N, remaining_nodes_low_bound b = (b.seen.drop b.i).length) ∧
    (∀ (b : BfsReachable N) (n : N) (b' : BfsReachable N),
      bfsNext succs b = (some n, b') →
      b.seen[b.i]? = some n ∧ b'.i = b.i + 1 ∧
        b'.seen = (succs n).foldl setInsert b.seen) := by
  have h0 : (bfs_reach starts : BfsReachable N).seen.Nodup := by
    show (starts.foldl setInsert []).Nodup
    exact foldl_setInsert_nodup List.nodup_nil
  obtain ⟨sf, hout, hpre, hndf, hmemf⟩ :=
    bfsReachRun (Fintype.card N) (bfs_reach starts) h0 (Nat.zero_le _)
      (fun j hj => absurd hj (Nat.not_lt_zero j)) (by omega)
  have hout' : bfsReachList succs (Fintype.card N) (bfs_reach starts) = sf := by
    rw [hout]
    rfl
  refine ⟨?_, ?_, ?_, ?_⟩
  · rw [hout']
    exact hndf
  · intro n
    rw [hout', hmemf n]
    constructor
    · rintro ⟨m, hm, hr⟩
      have : m ∈ starts := by
        have := mem_foldl_setInsert.mp hm
        simpa using this
      exact ⟨m, this, hr⟩
    · rintro ⟨s, hs, hr⟩
      exact ⟨s, mem_foldl_setInsert.mpr (Or.inr hs), hr⟩
  · intro b
    unfold remaining_nodes_low_bound
    rw [List.length_drop]
  · intro b n b' hnext
    unfold bfsNext at hnext
    cases hget : b.seen[b.i]? with
    | none =>
      rw [hget] at hnext
      cases hnext
    | some m =>
      rw [hget] at hnext
      injection hnext with h1 h2
      injection h1 with h1
      subst h1
      subst h2
      exact ⟨rfl, rfl, rfl⟩

/-- Concrete evaluation of `bfs_reach_correct`: in the doubling/increment
graph on `Fin 4` started at `0`, the node `3` is yielded (it is reachable). -/
theorem bfs_reach_correct_witness :
    (3 : Fin 4) ∈ bfsReachList (fun n : Fin 4 => [n + 1]) (Fintype.card (Fin 4))
      (bfs_reach [0]) := by
  refine ((bfs_reach_correct [0] (fun n : Fin 4 => [n + 1])).2.1 3).mpr ?_
  refine ⟨0, List.mem_singleton.mpr rfl, 3, ?_⟩
  have h1 : ReachN (fun n : Fin 4 => [n + 1]) 1 0 1 :=
    ReachN.tail (ReachN.refl 0) (by decide)
  have h2 : ReachN (fun n : Fin 4 => [n + 1]) 2 0 2 := ReachN.tail h1 (by decide)
  exact ReachN.tail h2 (by decide)

/-- C10.  The cursor never exceeds the number of seen entries in any state
reachable from an initial iterator state (so the subtraction in
`remaining_nodes_low_bound` never underflows), and a `next` call returning
`none` leaves the state unchanged, so the iterator stays exhausted. -/
theorem bfs_reach_cursor_safe (starts : List N) (succs : N → List N) :
    (∀ b : BfsReachable N,
      Relation.ReflTransGen (fun b b' => ∃ n, bfsNext succs b = (some n, b'))
        (bfs_reach starts) b →
      b.i ≤ b.seen.length) ∧
    (∀ b b' : BfsReachable N, bfsNext succs b = (none, b') →
      b' = b ∧ bfsNext succs b' = (none, b')) := by
  have hstep : ∀ b b' : BfsReachable N, (∃ n, bfsNext succs b = (some n, b')) →
      b.i ≤ b.seen.length → b'.i ≤ b'.seen.length := by
    rintro b b' ⟨n, hnext⟩ hile
    unfold bfsNext at hnext
    cases hget : b.seen[b.i]? with
    | none =>
      rw [hget] at hnext
      cases hnext
    | some m =>
      rw [hget] at hnext
      injection hnext with h1 h2
      subst h2
      have hilt : b.i < b.seen.length := getq_lt hget
      have hlen := (foldl_setInsert_pref (succs m) b.seen).length_le
      have hgoal : b.i + 1 ≤ ((succs m).foldl setInsert b.seen).length := by omega
      exact hgoal
  constructor
  · intro b hreach
    induction hreach with
    | refl => exact Nat.zero_le _
    | tail hsteps h ih => exact hstep _ _ h ih
  · intro b b' hnext
    unfold bfsNext at hnext
    cases hget : b.seen[b.i]? with
    | none =>
      rw [hget] at hnext
      injection hnext with h1 h2
      subst h2
      refine ⟨rfl, ?_⟩
      unfold bfsNext
      rw [hget]
    | some m =>
      rw [hget] at hnext
      injection hnext with h1 h2
      cases h1

/-- Concrete evaluation of `bfs_reach_cursor_safe`: the initial state has a
valid cursor, and an exhausted state is a fixed point of `next`. -/
theorem bfs_reach_cursor_safe_witness :
    (bfs_reach (N := Fin 2) [0]).i ≤ (bfs_reach (N := Fin 2) [0]).seen.length ∧
    bfsNext (fun n : Fin 2 => [n]) ⟨1, [0]⟩ = (none, (⟨1, [0]⟩ : BfsReachable (Fin 2))) := by
  constructor
  · exact (bfs_reach_cursor_safe [0] (fun n : Fin 2 => [n])).1 _
      Relation.ReflTransGen.refl
  · exact ((bfs_reach_cursor_safe [0] (fun n : Fin 2 => [n])).2 ⟨1, [0]⟩ ⟨1, [0]⟩
      (by decide)).2

/-! ### The uniform-cost (Dijkstra) engine, modelled from the spec

The source files of the cost-aware engines are not among the sources (only
their tests are), so the engine is modelled from the specification, §4.3:
seed the priority queue with the start nodes at cost 0; repeatedly pop the
minimum-cost entry (ties broken by insertion sequence); stop as soon as a
popped node satisfies the success predicate; skip stale pops by comparing
the popped cost against the node's best known cost; otherwise finalize the
node and push `(successor, cost + edge_cost)` exactly when it improves or
introduces the successor's best known cost, recording `(parent, cost)` in
the map.  Costs are the non-negative integers.  The lazy `dijkstra_reach`
iterator is modelled as the list of records it yields. -/

/-- Modelled from the spec: the record yielded by `dijkstra_reach`:
`{node, parent (optional), total_cost}`. -/
structure DijkstraReachableItem (N : Type) where
  node : N
  parent : Option N
  total_cost : Nat
deriving DecidableEq

/-- The cost map: node to `(parent, cost)`. -/
abbrev DMap (N : Type) := List (N × (Option N × Nat))

/-- Lookup of a node's record. -/
def dlookup (m : DMap N) (n : N) : Option (Option N × Nat) :=
  (m.find? (fun e => decide (e.1 = n))).map Prod.snd

/-- Whether the node has a record. -/
def dcontains (m : DMap N) (n : N) : Bool := (dlookup m n).isSome

/-- The node's best known cost (defaulting to 0; only read under
`dcontains`). -/
def dcost (m : DMap N) (n : N) : Nat :=
  match dlookup m n with
  | some (_, c) => c
  | none => 0

/-- The node's recorded parent. -/
def dparent (m : DMap N) (n : N) : Option N :=
  match dlookup m n with
  | some (p, _) => p
  | none => none

/-- In-place record replacement. -/
def dupdate (m : DMap N) (n : N) (v : Option N × Nat) : DMap N :=
  m.map (fun e => if e.1 = n then (e.1, v) else e)

/-- Modelled from the spec: pop the minimum-cost entry, ties broken by
insertion sequence (the earliest minimal entry is removed). -/
def popMin : List (Nat × N) → Option ((Nat × N) × List (Nat × N))
  | [] => none
  | e :: rest =>
    match popMin rest with
    | none => some (e, [])
    | some (me, rest') => if e.1 ≤ me.1 then some (e, rest) else some (me, e :: rest')

/-- Modelled from the spec: relaxation of the popped node's successors.
`(successor, cost + edge_cost)` is pushed exactly when it improves or
introduces the successor's best known cost, and the map records the new
`(parent, cost)`. -/
def relax (parentNode : N) (c : Nat) :
    List (N × Nat) → List (Nat × N) → DMap N → List (Nat × N) × DMap N
  | [], q, m => (q, m)
  | (s, w) :: rest, q, m =>
    if dcontains m s then
      if c + w < dcost m s then
        relax parentNode c rest (q ++ [(c + w, s)]) (dupdate m s (some parentNode, c + w))
      else relax parentNode c rest q m
    else relax parentNode c rest (q ++ [(c + w, s)]) (m ++ [(s, (some parentNode, c + w))])

/-- Modelled from the spec: the shared core loop of the cost-aware engine,
parameterized by the stop predicate.  It returns the trace of finalization
records (what `dijkstra_reach` yields), the map at exit, and the stopping
node and its cost when the stop predicate fired. -/
def dijkstraLoop (succs : N → List (N × Nat)) (stop : N → Bool) :
    Nat → List (Nat × N) → DMap N →
    List (DijkstraReachableItem N) × DMap N × Option (N × Nat)
  | 0, _, m => ([], m, none)
  | fuel + 1, q, m =>
    match popMin q with
    | none => ([], m, none)
    | some ((c, n), q') =>
      if stop n then ([], m, some (n, c))
      else if dcost m n < c then dijkstraLoop succs stop fuel q' m
      else
        let qm := relax n c (succs n) q' m
        let res := dijkstraLoop succs stop fuel qm.1 qm.2
        (⟨n, dparent m n, c⟩ :: res.1, res.2.1, res.2.2)

/-- Modelled from the spec: seed the queue with the start nodes at cost 0
(each distinct start once). -/
def dijkstraSeed (starts : List N) : List (Nat × N) × DMap N :=
  starts.foldl
    (fun qm s =>
      if dcontains qm.2 s then qm
      else (qm.1 ++ [(0, s)], qm.2 ++ [(s, (none, 0))]))
    ([], [])

/-- Fuel that dominates the total number of pops of any run. -/
def dijkstraFuel [Fintype N] (succs : N → List (N × Nat)) (qlen : Nat) : Nat :=
  qlen + ∑ n : N, (succs n).length

/-- The seeded core run. -/
def dijkstraMain [Fintype N] (starts : List N) (succs : N → List (N × Nat))
    (stop : N → Bool) :
    List (DijkstraReachableItem N) × DMap N × Option (N × Nat) :=
  dijkstraLoop succs stop (dijkstraFuel succs (dijkstraSeed starts).1.length)
    (dijkstraSeed starts).1 (dijkstraSeed starts).2

/-- Modelled from the spec: walk the recorded parents backward from `n` and
reverse; the fuel bounds the walk by the size of the map. -/
def buildPathAux (m : DMap N) : Nat → N → List N
  | 0, n => [n]
  | fuel + 1, n =>
    match dparent m n with
    | none => [n]
    | some p => buildPathAux m fuel p ++ [n]

/-- `build_path`. -/
def build_path (m : DMap N) (n : N) : List N := buildPathAux m m.length n

/-- Modelled from the spec: `dijkstra(starts, successors, success)`; stop and
reconstruct as soon as a popped node satisfies the success predicate. -/
def dijkstra [Fintype N] (starts : List N) (succs : N → List (N × Nat))
    (succp : N → Bool) : Option (List N × Nat) :=
  match (dijkstraMain starts succs succp).2.2 with
  | some (n, c) => some (build_path (dijkstraMain starts succs succp).2.1 n, c)
  | none => none

/-- Modelled from the spec: `dijkstra_all(starts, successors)`: run until the
queue empties and return the map of every reachable node, the start nodes
excluded. -/
def dijkstra_all [Fintype N] (starts : List N) (succs : N → List (N × Nat)) :
    DMap N :=
  ((dijkstraMain starts succs (fun _ => false)).2.1).filter
    (fun e => decide (e.1 ∉ starts))

/-- Modelled from the spec: the full yield of the `dijkstra_reach` iterator. -/
def dijkstra_reach [Fintype N] (starts : List N) (succs : N → List (N × Nat)) :
    List (DijkstraReachableItem N) :=
  (dijkstraMain starts succs (fun _ => false)).1

/-! ### Lemmas about the queue -/

theorem popMin_eq_none {q : List (Nat × N)} (h : popMin q = none) : q = [] := by
  cases q with
  | nil => rfl
  | cons e rest =>
    unfold popMin at h
    cases hrest : popMin rest with
    | none => simp only [hrest] at h; cases h
    | some p =>
      simp only [hrest] at h
      obtain ⟨me, rest'⟩ := p
      by_cases hle : e.1 ≤ me.1 <;> simp [hle] at h

theorem popMin_perm {q : List (Nat × N)} :
    ∀ {e : Nat × N} {q' : List (Nat × N)}, popMin q = some (e, q') → q.Perm (e :: q') := by
  induction q with
  | nil => intro e q' h; cases h
  | cons a rest ih =>
    intro e q' h
    unfold popMin at h
    cases hrest : popMin rest with
    | none =>
      simp only [hrest] at h
      injection h with h
      rw [popMin_eq_none hrest]
      injection h with h1 h2
      subst h1
      subst h2
      exact List.Perm.refl _
    | some p =>
      obtain ⟨me, rest'⟩ := p
      simp only [hrest] at h
      by_cases hle : a.1 ≤ me.1
      · rw [if_pos hle] at h
        injection h with h
        injection h with h1 h2
        subst h1
        subst h2
        exact List.Perm.refl _
      · rw [if_neg hle] at h
        injection h with h
        injection h with h1 h2
        subst h1
        subst h2
        exact ((ih hrest).cons a).trans (List.Perm.swap _ _ _)

theorem popMin_min {q : List (Nat × N)} :
    ∀ {e : Nat × N} {q' : List (Nat × N)}, popMin q = some (e, q') →
      ∀ x ∈ q, e.1 ≤ x.1 := by
  induction q with
  | nil => intro e q' h; cases h
  | cons a rest ih =>
    intro e q' h x hx
    unfold popMin at h
    cases hrest : popMin rest with
    | none =>
      simp only [hrest] at h
      injection h with h
      injection h with h1 h2
      subst h1
      rw [popMin_eq_none hrest] at hx
      rw [List.mem_singleton] at hx
      subst hx
      exact le_refl _
    | some p =>
      obtain ⟨me, rest'⟩ := p
      simp only [hrest] at h
      by_cases hle : a.1 ≤ me.1
      · rw [if_pos hle] at h
        injection h with h
        injection h with h1 h2
        subst h1
        rcases List.mem_cons.mp hx with rfl | hx'
        · exact le_refl _
        · exact le_trans hle (ih hrest x hx')
      · rw [if_neg hle] at h
        injection h with h
        injection h with h1 h2
        subst h1
        rcases List.mem_cons.mp hx with rfl | hx'
        · exact le_of_lt (lt_of_not_ge hle)
        · exact ih hrest x hx'

theorem popMin_mem {q q' : List (Nat × N)} {e : Nat × N}
    (h : popMin q = some (e, q')) : e ∈ q :=
  (popMin_perm h).symm.subset (List.mem_cons_self e q')

theorem popMin_mem_rest {q q' : List (Nat × N)} {e x : Nat × N}
    (h : popMin q = some (e, q')) (hx : x ∈ q) (hne : x ≠ e) : x ∈ q' := by
  have := (popMin_perm h).subset hx
  rcases List.mem_cons.mp this with rfl | h2
  · exact absurd rfl hne
  · exact h2

theorem popMin_rest_subset {q q' : List (Nat × N)} {e : Nat × N}
    (h : popMin q = some (e, q')) : ∀ x ∈ q', x ∈ q :=
  fun x hx => (popMin_perm h).symm.subset (List.mem_cons_of_mem e hx)

/-! ### Lemmas about the cost map -/

theorem dlookup_eq {m : DMap N} {n : N} (h : dcontains m n = true) :
    dlookup m n = some (dparent m n, dcost m n) := by
  unfold dcontains at h
  cases hlk : dlookup m n with
  | none => rw [hlk] at h; cases h
  | some v =>
    obtain ⟨p, c⟩ := v
    unfold dparent dcost
    rw [hlk]

theorem dcontains_append_self {m : DMap N} {s : N} (v : Option N × Nat) :
    dcontains (m ++ [(s, v)]) s = true := by
  unfold dcontains dlookup
  rw [List.find?_append]
  cases hf : m.find? (fun e => decide (e.1 = s)) with
  | some e => rfl
  | none => simp

theorem dlookup_append_new {m : DMap N} {s : N} (h : dcontains m s = false)
    (v : Option N × Nat) : dlookup (m ++ [(s, v)]) s = some v := by
  unfold dcontains at h
  unfold dlookup at h ⊢
  rw [List.find?_append]
  cases hf : m.find? (fun e => decide (e.1 = s)) with
  | some e => rw [hf] at h; cases h
  | none => simp

theorem dlookup_append_other {m : DMap N} {s x : N} (hx : x ≠ s)
    (v : Option N × Nat) : dlookup (m ++ [(s, v)]) x = dlookup m x := by
  unfold dlookup
  rw [List.find?_append]
  cases hf : m.find? (fun e => decide (e.1 = x)) with
  | some e => rfl
  | none => simp [List.find?, Ne.symm hx]

theorem dupdate_find {m : DMap N} {s x : N} {v : Option N × Nat} :
    (dupdate m s v).find? (fun e => decide (e.1 = x)) =
      ((m.find? (fun e => decide (e.1 = x))).map
        (fun e => if e.1 = s then (e.1, v) else e)) := by
  unfold dupdate
  rw [List.find?_map]
  have hfun : ((fun e : N × (Option N × Nat) => decide (e.1 = x)) ∘
      fun e => if e.1 = s then (e.1, v) else e) =
      (fun e : N × (Option N × Nat) => decide (e.1 = x)) := by
    funext e
    show decide ((if e.1 = s then (e.1, v) else e).1 = x) = decide (e.1 = x)
    by_cases hes : e.1 = s <;> simp [hes]
  rw [hfun]

theorem dlookup_update_self {m : DMap N} {s : N} {v : Option N × Nat}
    (h : dcontains m s = true) : dlookup (dupdate m s v) s = some v := by
  unfold dcontains at h
  unfold dlookup at h ⊢
  rw [dupdate_find]
  cases hf : m.find? (fun e => decide (e.1 = s)) with
  | none => rw [hf] at h; cases h
  | some e =>
    have hpe := List.find?_some hf
    have he : e.1 = s := of_decide_eq_true hpe
    simp [he]

theorem dlookup_update_other {m : DMap N} {s x : N} {v : Option N × Nat}
    (hx : x ≠ s) : dlookup (dupdate m s v) x = dlookup m x := by
  unfold dlookup
  rw [dupdate_find]
  cases hf : m.find? (fun e => decide (e.1 = x)) with
  | none => rfl
  | some e =>
    have hpe := List.find?_some hf
    have he : e.1 = x := of_decide_eq_true hpe
    have hes : ¬ e.1 = s := by rw [he]; exact hx
    simp [hes]

theorem dcontains_update {m : DMap N} {s x : N} {v : Option N × Nat} :
    dcontains (dupdate m s v) x = dcontains m x := by
  unfold dcontains dlookup
  rw [dupdate_find]
  cases hf : m.find? (fun e => decide (e.1 = x)) with
  | none => rfl
  | some e => rfl

theorem dcontains_append {m : DMap N} {s x : N} {v : Option N × Nat} :
    dcontains (m ++ [(s, v)]) x = (dcontains m x || decide (x = s)) := by
  by_cases hx : x = s
  · subst hx
    rw [dcontains_append_self]
    simp
  · unfold dcontains
    rw [dlookup_append_other hx]
    simp [hx]

theorem dcost_update_self {m : DMap N} {s : N} {p : Option N} {c : Nat}
    (h : dcontains m s = true) : dcost (dupdate m s (p, c)) s = c := by
  unfold dcost
  rw [dlookup_update_self h]

theorem dcost_update_other {m : DMap N} {s x : N} {v : Option N × Nat}
    (hx : x ≠ s) : dcost (dupdate m s v) x = dcost m x := by
  unfold dcost
  rw [dlookup_update_other hx]

theorem dcost_append_new {m : DMap N} {s : N} {p : Option N} {c : Nat}
    (h : dcontains m s = false) : dcost (m ++ [(s, (p, c))]) s = c := by
  unfold dcost
  rw [dlookup_append_new h]

theorem dcost_append_other {m : DMap N} {s x : N} {v : Option N × Nat}
    (hx : x ≠ s) : dcost (m ++ [(s, v)]) x = dcost m x := by
  unfold dcost
  rw [dlookup_append_other hx]

/-! ### The Dijkstra loop invariant -/

/-- The edge graph underlying a weighted successor function. -/
def edgeFn (succs : N → List (N × Nat)) : N → List N := fun n => (succs n).map Prod.fst

/-- The invariant of the core loop, with the ghost set `F` of finalized nodes
and the ghost lower bound `lb` on every queued cost (the cost of the last
non-stale pop). -/
structure DInv (starts : List N) (succs : N → List (N × Nat)) (q : List (Nat × N))
    (m : DMap N) (F : Finset N) (lb : Nat) : Prop where
  qmem : ∀ e ∈ q, dcontains m e.2 = true ∧ dcost m e.2 ≤ e.1
  qlb : ∀ e ∈ q, lb ≤ e.1
  qdist : ∀ x : N, ((q.filter (fun e => decide (e.2 = x))).map Prod.fst).Nodup
  fmem : ∀ x ∈ F, dcontains m x = true
  ffroz : ∀ x ∈ F, dcost m x ≤ lb
  fstale : ∀ x ∈ F, ∀ e ∈ q, e.2 = x → dcost m x < e.1
  fcover : ∀ x : N, dcontains m x = true → x ∉ F → ∃ e ∈ q, e.2 = x ∧ e.1 = dcost m x
  mreach : ∀ x : N, dcontains m x = true → ∃ s ∈ starts, Reaches (edgeFn succs) s x

/-- Relaxation completeness of the finalized set. -/
def FClosed (succs : N → List (N × Nat)) (F : Finset N) (m : DMap N) : Prop :=
  ∀ x ∈ F, ∀ sw ∈ succs x, dcontains m sw.1 = true ∧ dcost m sw.1 ≤ dcost m x + sw.2

/-- The per-node queue costs of a permutation-smaller queue stay distinct. -/
theorem qdist_of_perm_cons {q q' : List (Nat × N)} {e : Nat × N}
    (hperm : q.Perm (e :: q'))
    (h : ∀ x : N, ((q.filter (fun f => decide (f.2 = x))).map Prod.fst).Nodup) :
    ∀ x : N, ((q'.filter (fun f => decide (f.2 = x))).map Prod.fst).Nodup := by
  intro x
  have h1 : (q.filter (fun f => decide (f.2 = x))).Perm
      ((e :: q').filter (fun f => decide (f.2 = x))) := hperm.filter _
  have h2 := (h1.map Prod.fst).nodup_iff.mp (h x)
  have h3 : (q'.filter (fun f => decide (f.2 = x))).Sublist
      ((e :: q').filter (fun f => decide (f.2 = x))) := by
    rw [List.filter_cons]
    split
    · exact List.sublist_cons_self _ _
    · exact List.Sublist.refl _
  exact (h3.map Prod.fst).nodup h2

/-- The popped minimum occurrence itself does not survive into the rest of
the queue when per-node costs are distinct. -/
theorem popMin_not_mem_rest {q q' : List (Nat × N)} {c : Nat} {n : N}
    (h : popMin q = some ((c, n), q'))
    (hdist : ∀ x : N, ((q.filter (fun f => decide (f.2 = x))).map Prod.fst).Nodup) :
    (c, n) ∉ q' := by
  intro hmem
  have hperm : (q.filter (fun f => decide (f.2 = n))).Perm
      (((c, n) :: q').filter (fun f => decide (f.2 = n))) := (popMin_perm h).filter _
  have hcons : ((c, n) :: q').filter (fun f => decide (f.2 = n)) =
      (c, n) :: q'.filter (fun f => decide (f.2 = n)) := by simp
  rw [hcons] at hperm
  have hnd := (hperm.map Prod.fst).nodup_iff.mp (hdist n)
  rw [List.map_cons] at hnd
  have hcmem : c ∈ (q'.filter (fun f => decide (f.2 = n))).map Prod.fst :=
    List.mem_map.mpr ⟨(c, n), List.mem_filter.mpr ⟨hmem, by simp⟩, rfl⟩
  exact (List.nodup_cons.mp hnd).1 hcmem

/-- The characterization of `relax`: it preserves the loop invariant at lower
bound `c`, freezes the records of finalized nodes, never increases a cost,
establishes the relaxation bounds for the processed successors, and pushes at
most one queue entry per successor. -/
theorem relax_spec {starts : List N} {succs : N → List (N × Nat)} {n : N} {c : Nat} :
    ∀ (l : List (N × Nat)) (q : List (Nat × N)) (m : DMap N) (F : Finset N),
      DInv starts succs q m F c → n ∈ F → (∀ sw ∈ l, sw ∈ succs n) →
      ∀ (t : List (Nat × N) × DMap N), relax n c l q m = t →
      DInv starts succs t.1 t.2 F c ∧
      (∀ x ∈ F, dlookup t.2 x = dlookup m x) ∧
      (∀ x : N, dcontains m x = true → dcontains t.2 x = true ∧ dcost t.2 x ≤ dcost m x) ∧
      (∀ sw ∈ l, dcontains t.2 sw.1 = true ∧ dcost t.2 sw.1 ≤ c + sw.2) ∧
      t.1.length ≤ q.length + l.length := by
  intro l
  induction l with
  | nil =>
    intro q m F inv hnF hsub t ht
    have ht' : t = (q, m) := ht.symm
    subst ht'
    exact ⟨inv, fun x _ => rfl, fun x h => ⟨h, le_refl _⟩,
      fun sw hsw => absurd hsw (List.not_mem_nil sw), by simp⟩
  | cons sw rest ih =>
    intro q m F inv hnF hsub t ht
    obtain ⟨s, w⟩ := sw
    unfold relax at ht
    have hsuccn : (s, w) ∈ succs n := hsub (s, w) (List.mem_cons_self _ _)
    have hrest : ∀ x ∈ rest, x ∈ succs n := fun x hx => hsub x (List.mem_cons_of_mem _ hx)
    by_cases hc : dcontains m s = true
    · rw [if_pos hc] at ht
      by_cases himp : c + w < dcost m s
      · rw [if_pos himp] at ht
        -- improvement: update the map, push the exact entry
        have hsF : s ∉ F := by
          intro hsF
          have := inv.ffroz s hsF
          omega
        set m₁ := dupdate m s (some n, c + w) with hm₁
        set q₁ := q ++ [(c + w, s)] with hq₁
        have hcont₁ : ∀ x : N, dcontains m₁ x = dcontains m x := fun x => dcontains_update
        have hcost₁s : dcost m₁ s = c + w := dcost_update_self hc
        have hcost₁ : ∀ x : N, x ≠ s → dcost m₁ x = dcost m x :=
          fun x hx => dcost_update_other hx
        have inv₁ : DInv starts succs q₁ m₁ F c := by
          refine ⟨?_, ?_, ?_, ?_, ?_, ?_, ?_, ?_⟩
          · intro e he
            rcases List.mem_append.mp he with he | he
            · obtain ⟨h1, h2⟩ := inv.qmem e he
              refine ⟨(hcont₁ e.2).trans h1, ?_⟩
              by_cases hes : e.2 = s
              · rw [hes, hcost₁s]
                rw [hes] at h2
                omega
              · rw [hcost₁ e.2 hes]
                exact h2
            · rw [List.mem_singleton] at he
              subst he
              exact ⟨(hcont₁ s).trans hc, by rw [hcost₁s]⟩
          · intro e he
            rcases List.mem_append.mp he with he | he
            · exact inv.qlb e he
            · rw [List.mem_singleton] at he
              subst he
              omega
          · intro x
            rw [List.filter_append, List.map_append]
            by_cases hxs : x = s
            · subst hxs
              have hfilter : List.filter (fun e => decide (e.2 = x)) [(c + w, x)] =
                  [(c + w, x)] := by simp
              rw [hfilter]
              refine List.Nodup.append (inv.qdist x) (by simp) ?_
              intro a ha hb
              rw [List.map_singleton, List.mem_singleton] at hb
              subst hb
              obtain ⟨e, he, hee⟩ := List.mem_map.mp ha
              have he2 : e.2 = x := of_decide_eq_true (List.mem_filter.mp he).2
              have := (inv.qmem e (List.mem_filter.mp he).1).2
              rw [he2] at this
              omega
            · have hfilter : List.filter (fun e => decide (e.2 = x)) [(c + w, s)] = [] := by
                simp [Ne.symm hxs]
              rw [hfilter]
              simpa using inv.qdist x
          · intro x hx
            exact (hcont₁ x).trans (inv.fmem x hx)
          · intro x hx
            have hxs : x ≠ s := fun h => hsF (h ▸ hx)
            rw [hcost₁ x hxs]
            exact inv.ffroz x hx
          · intro x hx e he he2
            have hxs : x ≠ s := fun h => hsF (h ▸ hx)
            rw [hcost₁ x hxs]
            rcases List.mem_append.mp he with he | he
            · exact inv.fstale x hx e he he2
            · rw [List.mem_singleton] at he
              subst he
              exact absurd (he2 : s = x) (Ne.symm hxs)
          · intro x hx hxF
            by_cases hxs : x = s
            · subst hxs
              exact ⟨(c + w, x), List.mem_append_right _ (List.mem_singleton_self _),
                rfl, hcost₁s.symm⟩
            · rw [hcont₁ x] at hx
              obtain ⟨e, he, he2, he3⟩ := inv.fcover x hx hxF
              exact ⟨e, List.mem_append_left _ he, he2, by rw [hcost₁ x hxs]; exact he3⟩
          · intro x hx
            rw [hcont₁ x] at hx
            exact inv.mreach x hx
        obtain ⟨jinv, jfroz, jmono, jbounds, jlen⟩ := ih q₁ m₁ F inv₁ hnF hrest t ht
        refine ⟨jinv, ?_, ?_, ?_, ?_⟩
        · intro x hx
          rw [jfroz x hx]
          exact dlookup_update_other (fun h => hsF (h ▸ hx))
        · intro x hx
          obtain ⟨h1, h2⟩ := jmono x ((hcont₁ x).trans hx)
          refine ⟨h1, le_trans h2 ?_⟩
          by_cases hxs : x = s
          · subst hxs
            rw [hcost₁s]
            omega
          · rw [hcost₁ x hxs]
        · intro sw' hsw'
          rcases List.mem_cons.mp hsw' with heq | hmem
          · subst heq
            obtain ⟨h1, h2⟩ := jmono s ((hcont₁ s).trans hc)
            rw [hcost₁s] at h2
            exact ⟨h1, h2⟩
          · exact jbounds sw' hmem
        · have hq₁len : q₁.length = q.length + 1 := by rw [hq₁]; simp
          simp only [List.length_cons] at jlen ⊢
          omega
      · rw [if_neg himp] at ht
        obtain ⟨jinv, jfroz, jmono, jbounds, jlen⟩ := ih q m F inv hnF hrest t ht
        refine ⟨jinv, jfroz, jmono, ?_, ?_⟩
        · intro sw' hsw'
          rcases List.mem_cons.mp hsw' with heq | hmem
          · subst heq
            obtain ⟨h1, h2⟩ := jmono s hc
            exact ⟨h1, le_trans h2 (by omega)⟩
          · exact jbounds sw' hmem
        · simp only [List.length_cons] at jlen ⊢
          omega
    · rw [if_neg hc] at ht
      -- discovery: insert the key and push the exact entry
      have hcfalse : dcontains m s = false := by
        cases h : dcontains m s
        · rfl
        · exact absurd h hc
      have hsF : s ∉ F := fun h => hc (inv.fmem s h)
      set m₁ := m ++ [(s, (some n, c + w))] with hm₁
      set q₁ := q ++ [(c + w, s)] with hq₁
      have hcont₁s : dcontains m₁ s = true := dcontains_append_self _
      have hcont₁ : ∀ x : N, x ≠ s → dcontains m₁ x = dcontains m x := by
        intro x hx
        unfold dcontains
        rw [dlookup_append_other hx]
      have hcost₁s : dcost m₁ s = c + w := dcost_append_new hcfalse
      have hcost₁ : ∀ x : N, x ≠ s → dcost m₁ x = dcost m x :=
        fun x hx => dcost_append_other hx
      have hqnots : ∀ e ∈ q, e.2 ≠ s := by
        intro e he hes
        have := (inv.qmem e he).1
        rw [hes, hcfalse] at this
        cases this
      have inv₁ : DInv starts succs q₁ m₁ F c := by
        refine ⟨?_, ?_, ?_, ?_, ?_, ?_, ?_, ?_⟩
        · intro e he
          rcases List.mem_append.mp he with he | he
          · obtain ⟨h1, h2⟩ := inv.qmem e he
            rw [hcont₁ e.2 (hqnots e he), hcost₁ e.2 (hqnots e he)]
            exact ⟨h1, h2⟩
          · rw [List.mem_singleton] at he
            subst he
            exact ⟨hcont₁s, by rw [hcost₁s]⟩
        · intro e he
          rcases List.mem_append.mp he with he | he
          · exact inv.qlb e he
          · rw [List.mem_singleton] at he
            subst he
            omega
        · intro x
          rw [List.filter_append, List.map_append]
          by_cases hxs : x = s
          · subst hxs
            have hfilter0 : List.filter (fun e => decide (e.2 = x)) q = [] := by
              rw [List.filter_eq_nil_iff]
              intro e he
              simp only [decide_eq_true_eq]
              exact hqnots e he
            rw [hfilter0]
            simp
          · have hfilter : List.filter (fun e => decide (e.2 = x)) [(c + w, s)] = [] := by
              simp [Ne.symm hxs]
            rw [hfilter]
            simpa using inv.qdist x
        · intro x hx
          have hxs : x ≠ s := fun h => hsF (h ▸ hx)
          rw [hcont₁ x hxs]
          exact inv.fmem x hx
        · intro x hx
          have hxs : x ≠ s := fun h => hsF (h ▸ hx)
          rw [hcost₁ x hxs]
          exact inv.ffroz x hx
        · intro x hx e he he2
          have hxs : x ≠ s := fun h => hsF (h ▸ hx)
          rw [hcost₁ x hxs]
          rcases List.mem_append.mp he with he | he
          · exact inv.fstale x hx e he he2
          · rw [List.mem_singleton] at he
            subst he
            exact absurd (he2 : s = x) (Ne.symm hxs)
        · intro x hx hxF
          by_cases hxs : x = s
          · subst hxs
            exact ⟨(c + w, x), List.mem_append_right _ (List.mem_singleton_self _),
              rfl, hcost₁s.symm⟩
          · rw [hcont₁ x hxs] at hx
            obtain ⟨e, he, he2, he3⟩ := inv.fcover x hx hxF
            exact ⟨e, List.mem_append_left _ he, he2, by rw [hcost₁ x hxs]; exact he3⟩
        · intro x hx
          by_cases hxs : x = s
          · subst hxs
            obtain ⟨st, hst, d, hd⟩ := inv.mreach n (inv.fmem n hnF)
            refine ⟨st, hst, d + 1, ReachN.tail hd ?_⟩
            unfold edgeFn
            exact List.mem_map.mpr ⟨(x, w), hsuccn, rfl⟩
          · rw [hcont₁ x hxs] at hx
            exact inv.mreach x hx
      obtain ⟨jinv, jfroz, jmono, jbounds, jlen⟩ := ih q₁ m₁ F inv₁ hnF hrest t ht
      refine ⟨jinv, ?_, ?_, ?_, ?_⟩
      · intro x hx
        rw [jfroz x hx]
        refine dlookup_append_other ?_ _
        intro h
        exact hsF (by rw [← h]; exact hx)
      · intro x hx
        have hxs : x ≠ s := by
          intro h
          rw [h, hcfalse] at hx
          cases hx
        obtain ⟨h1, h2⟩ := jmono x (by rw [hcont₁ x hxs]; exact hx)
        exact ⟨h1, by rw [hcost₁ x hxs] at h2; exact h2⟩
      · intro sw' hsw'
        rcases List.mem_cons.mp hsw' with heq | hmem
        · subst heq
          obtain ⟨h1, h2⟩ := jmono s hcont₁s
          rw [hcost₁s] at h2
          exact ⟨h1, h2⟩
        · exact jbounds sw' hmem
      · have hq₁len : q₁.length = q.length + 1 := by rw [hq₁]; simp
        simp only [List.length_cons] at jlen ⊢
        omega

/-- A stale pop (the popped cost exceeds the best known cost) preserves the
invariant, raising the lower bound to the popped cost. -/
theorem DInv_pop_stale {starts : List N} {succs : N → List (N × Nat)}
    {q q' : List (Nat × N)} {m : DMap N} {F : Finset N} {lb c : Nat} {n : N}
    (inv : DInv starts succs q m F lb)
    (hpop : popMin q = some ((c, n), q'))
    (hstale : dcost m n < c) :
    DInv starts succs q' m F c := by
  have hmem := popMin_mem hpop
  have hmin := popMin_min hpop
  have hsub := popMin_rest_subset hpop
  have hlbc : lb ≤ c := inv.qlb _ hmem
  refine ⟨fun e he => inv.qmem e (hsub e he), fun e he => hmin e (hsub e he),
    qdist_of_perm_cons (popMin_perm hpop) inv.qdist, inv.fmem,
    fun x hx => le_trans (inv.ffroz x hx) hlbc,
    fun x hx e he he2 => inv.fstale x hx e (hsub e he) he2, ?_, inv.mreach⟩
  intro x hx hxF
  obtain ⟨e, he, he2, he3⟩ := inv.fcover x hx hxF
  refine ⟨e, popMin_mem_rest hpop he ?_, he2, he3⟩
  intro heq
  rw [heq] at he2 he3
  have hxn : n = x := he2
  rw [← hxn] at he3
  omega

/-- A non-stale pop finalizes a fresh node at exactly its best known cost. -/
theorem DInv_pop_expand {starts : List N} {succs : N → List (N × Nat)}
    {q q' : List (Nat × N)} {m : DMap N} {F : Finset N} {lb c : Nat} {n : N}
    (inv : DInv starts succs q m F lb)
    (hpop : popMin q = some ((c, n), q'))
    (hns : ¬ dcost m n < c) :
    n ∉ F ∧ c = dcost m n ∧ dcontains m n = true ∧
      DInv starts succs q' m (insert n F) c := by
  have hmem := popMin_mem hpop
  have hmin := popMin_min hpop
  have hsub := popMin_rest_subset hpop
  have hlbc : lb ≤ c := inv.qlb _ hmem
  obtain ⟨hcn0, hcc0⟩ := inv.qmem _ hmem
  have hcn : dcontains m n = true := hcn0
  have hcc : dcost m n ≤ c := hcc0
  have hceq : c = dcost m n := by omega
  have hnF : n ∉ F := by
    intro hnF
    have := inv.fstale n hnF _ hmem rfl
    omega
  refine ⟨hnF, hceq, hcn, ?_⟩
  refine ⟨fun e he => inv.qmem e (hsub e he), fun e he => hmin e (hsub e he),
    qdist_of_perm_cons (popMin_perm hpop) inv.qdist, ?_, ?_, ?_, ?_, inv.mreach⟩
  · intro x hx
    rcases Finset.mem_insert.mp hx with rfl | hx
    · exact hcn
    · exact inv.fmem x hx
  · intro x hx
    rcases Finset.mem_insert.mp hx with rfl | hx
    · omega
    · exact le_trans (inv.ffroz x hx) hlbc
  · intro x hx e he he2
    rcases Finset.mem_insert.mp hx with rfl | hx
    · -- remaining entries for the finalized node are strictly more expensive
      have hge : c ≤ e.1 := hmin e (hsub e he)
      have hne : e.1 ≠ c := by
        intro heq
        have : e = (c, x) := by
          obtain ⟨e1, e2⟩ := e
          simp only at he2 heq
          rw [he2, heq]
        rw [this] at he
        exact popMin_not_mem_rest hpop inv.qdist he
      omega
    · exact inv.fstale x hx e (hsub e he) he2
  · intro x hx hxF
    rw [Finset.mem_insert] at hxF
    push_neg at hxF
    obtain ⟨hxn, hxF⟩ := hxF
    obtain ⟨e, he, he2, he3⟩ := inv.fcover x hx hxF
    refine ⟨e, popMin_mem_rest hpop he ?_, he2, he3⟩
    intro heq
    rw [heq] at he2
    exact hxn he2.symm

theorem chain_le_head {a b : Nat} {l : List Nat} (hab : a ≤ b)
    (h : List.Chain' (fun x y => x ≤ y) (b :: l)) :
    List.Chain' (fun x y => x ≤ y) (a :: l) := by
  cases l with
  | nil => exact List.chain'_singleton a
  | cons x l =>
    rw [List.chain'_cons] at h ⊢
    exact ⟨le_trans hab h.1, h.2⟩

/-- The complete effect of one non-stale pop followed by relaxation. -/
theorem expand_package [Fintype N] {starts : List N} {succs : N → List (N × Nat)}
    {q q' : List (Nat × N)} {m : DMap N} {F : Finset N} {lb c : Nat} {n : N}
    (inv : DInv starts succs q m F lb) (hfc : FClosed succs F m)
    (hpop : popMin q = some ((c, n), q'))
    (hns : ¬ dcost m n < c) :
    ∀ t : List (Nat × N) × DMap N, relax n c (succs n) q' m = t →
      n ∉ F ∧ c = dcost m n ∧ dcontains m n = true ∧ lb ≤ c ∧
      DInv starts succs t.1 t.2 (insert n F) c ∧
      FClosed succs (insert n F) t.2 ∧
      (∀ x ∈ insert n F, dlookup t.2 x = dlookup m x) ∧
      (∀ x : N, dcontains m x = true → dcontains t.2 x = true) ∧
      t.1.length + ∑ x ∈ Finset.univ \ insert n F, (succs x).length + 1 ≤
        q.length + ∑ x ∈ Finset.univ \ F, (succs x).length := by
  intro t ht
  obtain ⟨hnF, hceq, hcn, inv'⟩ := DInv_pop_expand inv hpop hns
  have hlbc : lb ≤ c := inv.qlb _ (popMin_mem hpop)
  obtain ⟨jinv, jfroz, jmono, jbounds, jlen⟩ :=
    relax_spec (succs n) q' m (insert n F) inv' (Finset.mem_insert_self n F)
      (fun sw hsw => hsw) t ht
  have hdcost_eq : ∀ x ∈ insert n F, dcost t.2 x = dcost m x := by
    intro x hx
    unfold dcost
    rw [jfroz x hx]
  refine ⟨hnF, hceq, hcn, hlbc, jinv, ?_, jfroz, fun x hx => (jmono x hx).1, ?_⟩
  · intro x hx sw hsw
    rcases Finset.mem_insert.mp hx with rfl | hxF
    · obtain ⟨h1, h2⟩ := jbounds sw hsw
      refine ⟨h1, ?_⟩
      rw [hdcost_eq x (Finset.mem_insert_self x F)]
      omega
    · obtain ⟨h1, h2⟩ := hfc x hxF sw hsw
      obtain ⟨h3, h4⟩ := jmono sw.1 h1
      refine ⟨h3, ?_⟩
      rw [hdcost_eq x (Finset.mem_insert_of_mem hxF)]
      omega
  · have hq'len : q'.length + 1 = q.length := by
      have := (popMin_perm hpop).length_eq
      rw [List.length_cons] at this
      omega
    have hsum : ∑ x ∈ Finset.univ \ insert n F, (succs x).length + (succs n).length =
        ∑ x ∈ Finset.univ \ F, (succs x).length := by
      rw [Finset.sdiff_insert]
      exact Finset.sum_erase_add _ _ (Finset.mem_sdiff.mpr ⟨Finset.mem_univ n, hnF⟩)
    omega

/-- The full characterization of the exhaustive (never stopping) run: the
trace lists pairwise-distinct fresh nodes at non-decreasing costs, the
records of finalized nodes and of traced nodes survive unchanged into the
final map, the final map's keys are exactly the old finalized set plus the
traced nodes, and the final state is again invariant with an empty queue. -/
theorem dijkstraLoop_run [Fintype N] {starts : List N} {succs : N → List (N × Nat)} :
    ∀ (fuel : Nat) (q : List (Nat × N)) (m : DMap N) (F : Finset N) (lb : Nat),
      DInv starts succs q m F lb → FClosed succs F m →
      q.length + ∑ x ∈ Finset.univ \ F, (succs x).length ≤ fuel →
      ∃ (tr : List (DijkstraReachableItem N)) (mf : DMap N),
        dijkstraLoop succs (fun _ => false) fuel q m = (tr, mf, none) ∧
        (∀ it ∈ tr, it.node ∉ F) ∧
        (tr.map DijkstraReachableItem.node).Nodup ∧
        List.Chain' (fun a b => a ≤ b) (lb :: tr.map DijkstraReachableItem.total_cost) ∧
        (∀ x ∈ F, dlookup mf x = dlookup m x) ∧
        (∀ it ∈ tr, dlookup mf it.node = some (it.parent, it.total_cost)) ∧
        (∀ x : N, dcontains mf x = true ↔
          (x ∈ F ∨ x ∈ tr.map DijkstraReachableItem.node)) ∧
        (∀ x : N, dcontains m x = true → dcontains mf x = true) ∧
        (∃ (Ff : Finset N) (lbf : Nat),
          DInv starts succs [] mf Ff lbf ∧ FClosed succs Ff mf) := by
  intro fuel
  induction fuel with
  | zero =>
    intro q m F lb inv hfc hfuel
    have hq : q = [] := by
      cases q with
      | nil => rfl
      | cons e rest => simp at hfuel
    subst hq
    refine ⟨[], m, rfl, by simp, by simp, List.chain'_singleton lb,
      fun x _ => rfl, by simp, ?_, fun x hx => hx, F, lb, inv, hfc⟩
    intro x
    simp only [List.map_nil, List.not_mem_nil, or_false]
    constructor
    · intro hx
      by_contra hxF
      obtain ⟨e, he, -, -⟩ := inv.fcover x hx hxF
      cases he
    · exact inv.fmem x
  | succ fuel ih =>
    intro q m F lb inv hfc hfuel
    cases hpop : popMin q with
    | none =>
      have hq : q = [] := popMin_eq_none hpop
      subst hq
      refine ⟨[], m, ?_, by simp, by simp, List.chain'_singleton lb,
        fun x _ => rfl, by simp, ?_, fun x hx => hx, F, lb, inv, hfc⟩
      · show dijkstraLoop succs (fun _ => false) (fuel + 1) [] m = ([], m, none)
        unfold dijkstraLoop
        rfl
      · intro x
        simp only [List.map_nil, List.not_mem_nil, or_false]
        constructor
        · intro hx
          by_contra hxF
          obtain ⟨e, he, -, -⟩ := inv.fcover x hx hxF
          cases he
        · exact inv.fmem x
    | some p =>
      obtain ⟨⟨c, n⟩, q'⟩ := p
      have hlbc : lb ≤ c := inv.qlb _ (popMin_mem hpop)
      have hq'len : q'.length + 1 = q.length := by
        have := (popMin_perm hpop).length_eq
        rw [List.length_cons] at this
        omega
      by_cases hstale : dcost m n < c
      · -- stale pop: skip
        have inv' := DInv_pop_stale inv hpop hstale
        obtain ⟨tr, mf, hrun, hfresh, hnodup, hchain, hfroz, hitems, hkeys, hmono, hfinal⟩ :=
          ih q' m F c inv' hfc (by omega)
        refine ⟨tr, mf, ?_, hfresh, hnodup, chain_le_head hlbc hchain, hfroz, hitems,
          hkeys, hmono, hfinal⟩
        show dijkstraLoop succs (fun _ => false) (fuel + 1) q m = (tr, mf, none)
        unfold dijkstraLoop
        rw [hpop]
        simp only [if_false, Bool.false_eq_true]
        rw [if_pos hstale]
        exact hrun
      · -- non-stale pop: finalize and expand
        obtain ⟨hnF, hceq, hcn, -, jinv, jfc, jfroz, jmono, jfuel⟩ :=
          expand_package inv hfc hpop hstale (relax n c (succs n) q' m) rfl
        obtain ⟨tr, mf, hrun, hfresh, hnodup, hchain, hfroz, hitems, hkeys, hmono, hfinal⟩ :=
          ih (relax n c (succs n) q' m).1 (relax n c (succs n) q' m).2
            (insert n F) c jinv jfc (by omega)
        have hfreeze_n : dlookup mf n = dlookup m n := by
          rw [hfroz n (Finset.mem_insert_self n F)]
          exact jfroz n (Finset.mem_insert_self n F)
        refine ⟨⟨n, dparent m n, c⟩ :: tr, mf, ?_, ?_, ?_, ?_, ?_, ?_, ?_,
          fun x hx => hmono x (jmono x hx), hfinal⟩
        · show dijkstraLoop succs (fun _ => false) (fuel + 1) q m =
            (⟨n, dparent m n, c⟩ :: tr, mf, none)
          unfold dijkstraLoop
          rw [hpop]
          simp only [if_false, Bool.false_eq_true]
          rw [if_neg hstale]
          rw [hrun]
        · intro it hit
          rcases List.mem_cons.mp hit with rfl | hit
          · exact hnF
          · exact fun hF => hfresh it hit (Finset.mem_insert_of_mem hF)
        · rw [List.map_cons]
          refine List.Nodup.cons ?_ hnodup
          intro hmem
          obtain ⟨it, hit, hie⟩ := List.mem_map.mp hmem
          exact hfresh it hit (hie ▸ Finset.mem_insert_self n F)
        · rw [List.map_cons]
          rw [List.chain'_cons]
          exact ⟨hlbc, hchain⟩
        · intro x hx
          rw [hfroz x (Finset.mem_insert_of_mem hx)]
          exact jfroz x (Finset.mem_insert_of_mem hx)
        · intro it hit
          rcases List.mem_cons.mp hit with rfl | hit
          · show dlookup mf n = some (dparent m n, c)
            rw [hfreeze_n, dlookup_eq hcn, hceq]
          · exact hitems it hit
        · intro x
          rw [hkeys x]
          rw [List.map_cons]
          constructor
          · rintro (hx | hx)
            · rcases Finset.mem_insert.mp hx with rfl | hx
              · exact Or.inr (List.mem_cons_self _ _)
              · exact Or.inl hx
            · exact Or.inr (List.mem_cons_of_mem _ hx)
          · rintro (hx | hx)
            · exact Or.inl (Finset.mem_insert_of_mem hx)
            · rcases List.mem_cons.mp hx with rfl | hx
              · exact Or.inl (Finset.mem_insert_self _ _)
              · exact Or.inr hx

/-- A run with a stop predicate reports exactly the first record of the
never-stopping run whose node satisfies the predicate (and `none` when there
is no such record). -/
theorem dijkstraLoop_stop_run [Fintype N] {starts : List N} {succs : N → List (N × Nat)}
    (stop : N → Bool) :
    ∀ (fuel : Nat) (q : List (Nat × N)) (m : DMap N) (F : Finset N) (lb : Nat),
      DInv starts succs q m F lb → FClosed succs F m →
      q.length + ∑ x ∈ Finset.univ \ F, (succs x).length ≤ fuel →
      (∀ x ∈ F, stop x = false) →
      (dijkstraLoop succs stop fuel q m).2.2 =
        ((dijkstraLoop succs (fun _ => false) fuel q m).1.find?
          (fun it => stop it.node)).map (fun it => (it.node, it.total_cost)) := by
  intro fuel
  induction fuel with
  | zero => intro q m F lb inv hfc hfuel hstopF; rfl
  | succ fuel ih =>
    intro q m F lb inv hfc hfuel hstopF
    cases hpop : popMin q with
    | none =>
      show (dijkstraLoop succs stop (fuel + 1) q m).2.2 = _
      unfold dijkstraLoop
      rw [hpop]
      rfl
    | some p =>
      obtain ⟨⟨c, n⟩, q'⟩ := p
      have hq'len : q'.length + 1 = q.length := by
        have := (popMin_perm hpop).length_eq
        rw [List.length_cons] at this
        omega
      by_cases hstale : dcost m n < c
      · -- a stale pop's node is already finalized, so the stop test fails on it
        have hnF : n ∈ F := by
          by_contra hnF
          obtain ⟨hcn, hcc⟩ := inv.qmem _ (popMin_mem hpop)
          obtain ⟨e, he, he2, he3⟩ := inv.fcover n hcn hnF
          have := popMin_min hpop e he
          have hc1 : c ≤ e.1 := this
          have hcc' : dcost m n ≤ c := hcc
          omega
        have hstopn : stop n = false := hstopF n hnF
        have inv' := DInv_pop_stale inv hpop hstale
        have hih := ih q' m F c inv' hfc (by omega) hstopF
        unfold dijkstraLoop
        rw [hpop]
        simp only [hstopn, if_false, Bool.false_eq_true, if_pos hstale]
        exact hih
      · obtain ⟨hnF, hceq, hcn, hlbc, jinv, jfc, jfroz, -, jfuel⟩ :=
          expand_package inv hfc hpop hstale (relax n c (succs n) q' m) rfl
        cases hstopn : stop n with
        | true =>
          -- the stopping run returns here, and the exhaustive run's next
          -- record is exactly this node
          obtain ⟨tr, mf, hrun, -, -, -, -, -, -, -, -⟩ :=
            dijkstraLoop_run fuel (relax n c (succs n) q' m).1
              (relax n c (succs n) q' m).2 (insert n F) c jinv jfc (by omega)
          unfold dijkstraLoop
          rw [hpop]
          simp only [hstopn, if_true]
          rw [if_neg hstale]
          rw [hrun]
          simp [hstopn]
        | false =>
          have hstopF' : ∀ x ∈ insert n F, stop x = false := by
            intro x hx
            rcases Finset.mem_insert.mp hx with rfl | hx
            · exact hstopn
            · exact hstopF x hx
          have hih := ih (relax n c (succs n) q' m).1 (relax n c (succs n) q' m).2
            (insert n F) c jinv jfc (by omega) hstopF'
          unfold dijkstraLoop
          rw [hpop]
          simp only [hstopn, if_false, Bool.false_eq_true, if_neg hstale]
          rw [List.find?_cons_of_neg]
          · exact hih
          · simp [hstopn]

/-! ### The seeded initial state -/

/-- The seeding fold: all queued costs are 0, every key has cost 0, belongs
to the seeded list, and has exactly one queue entry. -/
theorem dijkstraSeed_fold {S : List N} :
    ∀ (l : List N) (q : List (Nat × N)) (m : DMap N),
      (∀ e ∈ q, e.1 = 0) →
      (∀ x : N, dcontains m x = true →
        dcost m x = 0 ∧ x ∈ S ∧
          q.filter (fun e => decide (e.2 = x)) = [(0, x)]) →
      (∀ e ∈ q, dcontains m e.2 = true) →
      (∀ x ∈ l, x ∈ S) →
      ∀ t : List (Nat × N) × DMap N,
        l.foldl (fun qm s => if dcontains qm.2 s then qm
          else (qm.1 ++ [(0, s)], qm.2 ++ [(s, (none, 0))])) (q, m) = t →
        (∀ e ∈ t.1, e.1 = 0) ∧
        (∀ x : N, dcontains t.2 x = true →
          dcost t.2 x = 0 ∧ x ∈ S ∧
            t.1.filter (fun e => decide (e.2 = x)) = [(0, x)]) ∧
        (∀ e ∈ t.1, dcontains t.2 e.2 = true) ∧
        (∀ x : N, dcontains t.2 x = true ↔ (dcontains m x = true ∨ x ∈ l)) ∧
        t.1.length ≤ q.length + l.length := by
  intro l
  induction l with
  | nil =>
    intro q m h1 h2 h3 hsub t ht
    cases ht
    exact ⟨h1, h2, h3, fun x => by simp, by simp⟩
  | cons s rest ih =>
    intro q m h1 h2 h3 hsub t ht
    by_cases hc : dcontains m s = true
    · rw [List.foldl_cons, if_pos hc] at ht
      obtain ⟨j1, j2, j3, j4, j5⟩ :=
        ih q m h1 h2 h3 (fun x hx => hsub x (List.mem_cons_of_mem _ hx)) t ht
      refine ⟨j1, j2, j3, ?_, by simp only [List.length_cons]; omega⟩
      intro x
      rw [j4 x]
      constructor
      · rintro (hx | hx)
        · exact Or.inl hx
        · exact Or.inr (List.mem_cons_of_mem _ hx)
      · rintro (hx | hx)
        · exact Or.inl hx
        · rcases List.mem_cons.mp hx with rfl | hx
          · exact Or.inl hc
          · exact Or.inr hx
    · have hcf : dcontains m s = false := by
        cases h : dcontains m s
        · rfl
        · exact absurd h hc
      rw [List.foldl_cons, if_neg hc] at ht
      have hqs : ∀ e ∈ q, e.2 ≠ s := by
        intro e he hes
        have := h3 e he
        rw [hes, hcf] at this
        cases this
      have k1 : ∀ e ∈ q ++ [(0, s)], e.1 = 0 := by
        intro e he
        rcases List.mem_append.mp he with he | he
        · exact h1 e he
        · rw [List.mem_singleton] at he
          rw [he]
      have k3 : ∀ e ∈ q ++ [(0, s)], dcontains (m ++ [(s, (none, 0))]) e.2 = true := by
        intro e he
        rcases List.mem_append.mp he with he | he
        · rw [dcontains_append]
          rw [h3 e he]
          simp
        · rw [List.mem_singleton] at he
          rw [he]
          exact dcontains_append_self _
      have k2 : ∀ x : N, dcontains (m ++ [(s, (none, 0))]) x = true →
          dcost (m ++ [(s, (none, 0))]) x = 0 ∧ x ∈ S ∧
            (q ++ [(0, s)]).filter (fun e => decide (e.2 = x)) = [(0, x)] := by
        intro x hx
        by_cases hxs : x = s
        · subst hxs
          refine ⟨dcost_append_new hcf, hsub x (List.mem_cons_self _ _), ?_⟩
          rw [List.filter_append]
          have hf0 : q.filter (fun e => decide (e.2 = x)) = [] := by
            rw [List.filter_eq_nil_iff]
            intro e he
            simp only [decide_eq_true_eq]
            exact hqs e he
          rw [hf0]
          simp
        · rw [dcontains_append] at hx
          rw [decide_eq_false hxs, Bool.or_false] at hx
          obtain ⟨j1, j2, j3⟩ := h2 x hx
          refine ⟨by rw [dcost_append_other hxs]; exact j1, j2, ?_⟩
          rw [List.filter_append, j3]
          have : List.filter (fun e => decide (e.2 = x)) [((0 : Nat), s)] = [] := by
            simp [Ne.symm hxs]
          rw [this]
          simp
      obtain ⟨j1, j2, j3, j4, j5⟩ := ih (q ++ [(0, s)]) (m ++ [(s, (none, 0))])
        k1 k2 k3 (fun x hx => hsub x (List.mem_cons_of_mem _ hx)) t ht
      refine ⟨j1, j2, j3, ?_, ?_⟩
      · intro x
        rw [j4 x]
        constructor
        · rintro (hx | hx)
          · rw [dcontains_append] at hx
            rcases Bool.or_eq_true_iff.mp hx with hx | hx
            · exact Or.inl hx
            · right
              have : x = s := of_decide_eq_true hx
              rw [this]
              exact List.mem_cons_self _ _
          · exact Or.inr (List.mem_cons_of_mem _ hx)
        · rintro (hx | hx)
          · left
            rw [dcontains_append, hx]
            simp
          · rcases List.mem_cons.mp hx with rfl | hx
            · left
              exact dcontains_append_self _
            · exact Or.inr hx
      · rw [List.length_append] at j5
        simp only [List.length_cons, List.length_nil, List.length_singleton] at j5 ⊢
        omega

/-- At a final state (empty queue, closed finalized set), every node
reachable from a key is itself a key. -/
theorem final_complete {starts : List N} {succs : N → List (N × Nat)}
    {mf : DMap N} {Ff : Finset N} {lbf : Nat}
    (inv : DInv starts succs [] mf Ff lbf) (hfc : FClosed succs Ff mf) :
    ∀ (d : Nat) (a x : N), dcontains mf a = true → ReachN (edgeFn succs) d a x →
      dcontains mf x = true := by
  have hkey : ∀ x : N, dcontains mf x = true → x ∈ Ff := by
    intro x hx
    by_contra hxF
    obtain ⟨e, he, -, -⟩ := inv.fcover x hx hxF
    cases he
  intro d a x ha hr
  induction hr with
  | refl => exact ha
  | tail hr hmem ih =>
    rename_i b y
    obtain ⟨sw, hsw, hswe⟩ := List.mem_map.mp hmem
    have := (hfc b (hkey b (ih ha)) sw hsw).1
    rw [hswe] at this
    exact this

/-- The assembled characterization of the seeded exhaustive run, together
with the stop-run correspondence. -/
theorem dijkstraMain_spec [Fintype N] (starts : List N) (succs : N → List (N × Nat)) :
    ∃ (tr : List (DijkstraReachableItem N)) (mf : DMap N),
      dijkstraMain starts succs (fun _ => false) = (tr, mf, none) ∧
      (tr.map DijkstraReachableItem.node).Nodup ∧
      List.Chain' (fun a b => a ≤ b) (tr.map DijkstraReachableItem.total_cost) ∧
      (∀ it ∈ tr, dlookup mf it.node = some (it.parent, it.total_cost)) ∧
      (∀ x : N, dcontains mf x = true ↔ x ∈ tr.map DijkstraReachableItem.node) ∧
      (∀ x : N, dcontains mf x = true ↔ ∃ s ∈ starts, Reaches (edgeFn succs) s x) ∧
      (∀ stop : N → Bool,
        (dijkstraMain starts succs stop).2.2 =
          (tr.find? (fun it => stop it.node)).map
            (fun it => (it.node, it.total_cost))) := by
  obtain ⟨s1, s2, s3, s4, s5⟩ := dijkstraSeed_fold (S := starts) starts [] []
    (fun e he => absurd he (List.not_mem_nil e))
    (fun x hx => by cases hx)
    (fun e he => absurd he (List.not_mem_nil e))
    (fun x hx => hx) (dijkstraSeed starts) rfl
  have hinv : DInv starts succs (dijkstraSeed starts).1 (dijkstraSeed starts).2 ∅ 0 := by
    refine ⟨?_, ?_, ?_, ?_, ?_, ?_, ?_, ?_⟩
    · intro e he
      refine ⟨s3 e he, ?_⟩
      obtain ⟨j1, -, -⟩ := s2 e.2 (s3 e he)
      rw [j1]
      omega
    · intro e he
      omega
    · intro x
      by_cases hx : dcontains (dijkstraSeed starts).2 x = true
      · obtain ⟨-, -, j3⟩ := s2 x hx
        rw [j3]
        simp
      · have : (dijkstraSeed starts).1.filter (fun e => decide (e.2 = x)) = [] := by
          rw [List.filter_eq_nil_iff]
          intro e he
          simp only [decide_eq_true_eq]
          intro hex
          rw [← hex] at hx
          exact hx (s3 e he)
        rw [this]
        simp
    · intro x hx
      exact absurd hx (Finset.not_mem_empty x)
    · intro x hx
      exact absurd hx (Finset.not_mem_empty x)
    · intro x hx
      exact absurd hx (Finset.not_mem_empty x)
    · intro x hx hxF
      obtain ⟨j1, -, j3⟩ := s2 x hx
      refine ⟨(0, x), ?_, rfl, by rw [j1]⟩
      have : (0, x) ∈ (dijkstraSeed starts).1.filter (fun e => decide (e.2 = x)) := by
        rw [j3]
        exact List.mem_singleton_self _
      exact (List.mem_filter.mp this).1
    · intro x hx
      obtain ⟨-, j2, -⟩ := s2 x hx
      exact ⟨x, j2, 0, ReachN.refl x⟩
  have hfc0 : FClosed succs (∅ : Finset N) (dijkstraSeed starts).2 := by
    intro x hx
    exact absurd hx (Finset.not_mem_empty x)
  have hstartkeys : ∀ s ∈ starts, dcontains (dijkstraSeed starts).2 s = true := by
    intro s hs
    rw [s4 s]
    exact Or.inr hs
  have hfuel : (dijkstraSeed starts).1.length +
      ∑ x ∈ Finset.univ \ (∅ : Finset N), (succs x).length ≤
      dijkstraFuel succs (dijkstraSeed starts).1.length := by
    unfold dijkstraFuel
    rw [Finset.sdiff_empty]
  obtain ⟨tr, mf, hrun, hfresh, hnodup, hchain, hfroz, hitems, hkeys, hmono, Ff, lbf,
    hfinv, hffc⟩ := dijkstraLoop_run (dijkstraFuel succs (dijkstraSeed starts).1.length)
    (dijkstraSeed starts).1 (dijkstraSeed starts).2 ∅ 0 hinv hfc0 hfuel
  have hkeysreach : ∀ x : N, dcontains mf x = true ↔
      ∃ s ∈ starts, Reaches (edgeFn succs) s x := by
    intro x
    constructor
    · intro hx
      exact hfinv.mreach x hx
    · rintro ⟨s, hs, d, hr⟩
      exact final_complete hfinv hffc d s x (hmono s (hstartkeys s hs)) hr
  refine ⟨tr, mf, hrun, hnodup, hchain.tail, hitems, ?_, hkeysreach, ?_⟩
  · intro x
    rw [hkeys x]
    simp
  · intro stop
    have hstop := dijkstraLoop_stop_run stop
      (dijkstraFuel succs (dijkstraSeed starts).1.length)
      (dijkstraSeed starts).1 (dijkstraSeed starts).2 ∅ 0 hinv hfc0 hfuel
      (fun x hx => absurd hx (Finset.not_mem_empty x))
    unfold dijkstraMain
    rw [hstop, hrun]

/-! ### From the exhaustive run to the public entry points -/

/-- The goal predicate `fun n => n == target` used when Dijkstra is pointed at
a single target node. -/
def stopEq (n : N) : N → Bool := fun x => decide (x = n)

theorem dlookup_cons_self {e : N × (Option N × Nat)} {l : DMap N} {x : N}
    (h : e.1 = x) : dlookup (e :: l) x = some e.2 := by
  unfold dlookup
  rw [List.find?_cons_of_pos]
  · rfl
  · simp [h]

theorem dlookup_cons_ne {e : N × (Option N × Nat)} {l : DMap N} {x : N}
    (h : e.1 ≠ x) : dlookup (e :: l) x = dlookup l x := by
  unfold dlookup
  rw [List.find?_cons_of_neg]
  simp [h]

/-- Filtering by a predicate that keeps every record of key `x` does not
change the lookup at `x`. -/
theorem dlookup_filter {m : DMap N} {p : N × (Option N × Nat) → Bool} {x : N}
    (hp : ∀ v, p (x, v) = true) : dlookup (m.filter p) x = dlookup m x := by
  induction m with
  | nil => rfl
  | cons e rest ih =>
    by_cases hex : e.1 = x
    · have hpe : p e = true := by
        have he : e = (x, e.2) := by rw [← hex]
        rw [he]
        exact hp e.2
      rw [List.filter_cons_of_pos hpe, dlookup_cons_self hex, dlookup_cons_self hex]
    · by_cases hpe : p e = true
      · rw [List.filter_cons_of_pos hpe, dlookup_cons_ne hex, dlookup_cons_ne hex]
        exact ih
      · rw [List.filter_cons_of_neg (by simpa using hpe), dlookup_cons_ne hex]
        exact ih

/-- In a trace with duplicate-free node column, the first item carrying a
given member's node is that member itself. -/
theorem find?_stopEq {tr : List (DijkstraReachableItem N)} {it : DijkstraReachableItem N}
    (hnd : (tr.map DijkstraReachableItem.node).Nodup) (hit : it ∈ tr) :
    tr.find? (fun j => stopEq it.node j.node) = some it := by
  induction tr with
  | nil => cases hit
  | cons j rest ih =>
    rw [List.map_cons, List.nodup_cons] at hnd
    rcases List.mem_cons.mp hit with rfl | hit'
    · rw [List.find?_cons_of_pos]
      simp [stopEq]
    · by_cases hj : j.node = it.node
      · exfalso
        have hmem : it.node ∈ rest.map DijkstraReachableItem.node :=
          List.mem_map_of_mem _ hit'
        rw [← hj] at hmem
        exact hnd.1 hmem
      · rw [List.find?_cons_of_neg]
        · exact ih hnd.2 hit'
        · simp [stopEq, hj]

/-- `dijkstra` answers exactly when the core run stops. -/
theorem dijkstra_isSome [Fintype N] (starts : List N) (succs : N → List (N × Nat))
    (succp : N → Bool) :
    (dijkstra starts succs succp).isSome = ((dijkstraMain starts succs succp).2.2).isSome := by
  unfold dijkstra
  cases h : (dijkstraMain starts succs succp).2.2 with
  | none => rfl
  | some nc => cases nc; rfl

/-- C4: `dijkstra_reach` yields each node reachable from the start set
exactly once, in non-decreasing `total_cost` order, and each yielded item's
`total_cost` is the cost `dijkstra` reports when pointed at that node from
the same start set. -/
theorem dijkstra_reach_correct [Fintype N] (starts : List N)
    (succs : N → List (N × Nat)) :
    (((dijkstra_reach starts succs).map DijkstraReachableItem.node).Nodup) ∧
    (∀ x : N, x ∈ (dijkstra_reach starts succs).map DijkstraReachableItem.node ↔
      ∃ s ∈ starts, Reaches (edgeFn succs) s x) ∧
    (List.Chain' (fun a b => a ≤ b)
      ((dijkstra_reach starts succs).map DijkstraReachableItem.total_cost)) ∧
    (∀ it ∈ dijkstra_reach starts succs,
      ∃ p : List N, dijkstra starts succs (stopEq it.node) =
        some (p, it.total_cost)) := by
  obtain ⟨tr, mf, hrun, hnodup, hchain, hitems, hkeysiff, hkeysreach, hstopcorr⟩ :=
    dijkstraMain_spec starts succs
  have htr : dijkstra_reach starts succs = tr := by
    unfold dijkstra_reach
    rw [hrun]
  rw [htr]
  refine ⟨hnodup, ?_, hchain, ?_⟩
  · intro x
    rw [← hkeysiff x, hkeysreach x]
  · intro it hit
    have h22 : (dijkstraMain starts succs (stopEq it.node)).2.2 =
        some (it.node, it.total_cost) := by
      rw [hstopcorr (stopEq it.node), find?_stopEq hnodup hit]
      rfl
    refine ⟨build_path (dijkstraMain starts succs (stopEq it.node)).2.1 it.node, ?_⟩
    unfold dijkstra
    rw [h22]

/-- C2 counterexample: with the single node `0` as both start and target and
no edges, `dijkstra` answers `Some` at cost `0`, yet `dijkstra_all` records
no cost at all for the target (starts are excluded from its map), so the
claimed cost equality has nothing to be equal to. -/
theorem dijkstra_all_counterexample :
    (dijkstra (N := Fin 1) [0] (fun _ => []) (stopEq 0)).isSome = true ∧
    dlookup (dijkstra_all (N := Fin 1) [0] (fun _ => [])) 0 = none := by
  constructor
  · rfl
  · rfl

/-- C2 (amended: the cost-equality conjunct holds for non-start targets;
a start node is its own zero-cost answer for `dijkstra` but is excluded from
`dijkstra_all`'s map by construction): `dijkstra` answers iff the target is
reachable from the start set; for a non-start target the answered cost is
exactly the cost `dijkstra_all` records for it; and `dijkstra_all` records
every reachable non-start node. -/
theorem dijkstra_all_agree [Fintype N] (starts : List N)
    (succs : N → List (N × Nat)) (target : N) :
    ((dijkstra starts succs (stopEq target)).isSome = true ↔
      ∃ s ∈ starts, Reaches (edgeFn succs) s target) ∧
    (target ∉ starts →
      ∀ (p : List N) (c : Nat), dijkstra starts succs (stopEq target) = some (p, c) →
        ∃ par : Option N, dlookup (dijkstra_all starts succs) target = some (par, c)) ∧
    (∀ x : N, (∃ s ∈ starts, Reaches (edgeFn succs) s x) → x ∉ starts →
      dcontains (dijkstra_all starts succs) x = true) := by
  obtain ⟨tr, mf, hrun, hnodup, hchain, hitems, hkeysiff, hkeysreach, hstopcorr⟩ :=
    dijkstraMain_spec starts succs
  have hmf : (dijkstraMain starts succs (fun _ => false)).2.1 = mf := by
    rw [hrun]
  have hall : dijkstra_all starts succs =
      mf.filter (fun e => decide (e.1 ∉ starts)) := by
    unfold dijkstra_all
    rw [hmf]
  have h22 := hstopcorr (stopEq target)
  refine ⟨?_, ?_, ?_⟩
  · rw [dijkstra_isSome, h22]
    cases hfind : List.find? (fun it => stopEq target it.node) tr with
    | none =>
      simp only [Option.map_none', Option.isSome_none]
      constructor
      · intro hfalse
        cases hfalse
      · intro hreach
        rw [← hkeysreach target, hkeysiff target] at hreach
        obtain ⟨j, hj, hjt⟩ := List.mem_map.mp hreach
        have hjs : (fun it : DijkstraReachableItem N => stopEq target it.node) j = true := by
          show decide (j.node = target) = true
          exact decide_eq_true hjt
        have hsome : (List.find? (fun it => stopEq target it.node) tr).isSome = true :=
          List.find?_isSome.mpr ⟨j, hj, hjs⟩
        rw [hfind] at hsome
        cases hsome
    | some j =>
      simp only [Option.map_some', Option.isSome_some]
      have hjmem : j ∈ tr := List.mem_of_find?_eq_some hfind
      have hjs := List.find?_some hfind
      have hjs' : decide (j.node = target) = true := hjs
      have hjt : j.node = target := of_decide_eq_true hjs'
      constructor
      · intro hx
        rw [← hkeysreach target, ← hjt, hkeysiff j.node]
        exact List.mem_map_of_mem _ hjmem
      · intro hx
        trivial
  · intro htarget p c hd
    unfold dijkstra at hd
    cases hfind : (dijkstraMain starts succs (stopEq target)).2.2 with
    | none =>
      rw [hfind] at hd
      cases hd
    | some nc =>
      obtain ⟨n, c'⟩ := nc
      rw [hfind] at hd
      simp only [Option.some.injEq, Prod.mk.injEq] at hd
      rw [h22] at hfind
      obtain ⟨j, hjf, hje⟩ := Option.map_eq_some'.mp hfind
      have hjmem : j ∈ tr := List.mem_of_find?_eq_some hjf
      have hjs := List.find?_some hjf
      have hjs' : decide (j.node = target) = true := hjs
      have hjt : j.node = target := of_decide_eq_true hjs'
      have hje' : j.node = n ∧ j.total_cost = c' := by
        have hh : (j.node, j.total_cost) = (n, c') := hje
        simp only [Prod.mk.injEq] at hh
        exact hh
      have hjrec := hitems j hjmem
      refine ⟨j.parent, ?_⟩
      rw [hall, dlookup_filter (fun v => decide_eq_true htarget), ← hjt, hjrec]
      have hc : c = j.total_cost := by
        rw [hje'.2]
        exact hd.2.symm
      rw [hc]
  · intro x hreach hx
    rw [← hkeysreach x] at hreach
    rw [hall]
    unfold dcontains
    rw [dlookup_filter (fun v => decide_eq_true hx)]
    unfold dcontains at hreach
    exact hreach

/-! ### The heuristic engine (A* / IDA*), modelled from the spec

The source files of the heuristic engines are not among the sources (only
an example that exercises them is), so both are modelled from the
specification, §4.4: A* runs the same queue discipline as Dijkstra but
orders entries by `f = g + h(node)`, re-opening a node whenever a strictly
cheaper `g` arrives (the spec's documented requirement for merely-admissible
heuristics); IDA* runs a depth-first search of the search tree bounded by an
`f`-threshold, starting at `h(start)`, pruning any branch whose `f` exceeds
the threshold and taking the minimum exceeding `f` as the next threshold.
The IDA* search keeps only the current path (the spec's O(depth) memory) and
prunes successors already on it: with non-negative costs a minimal-cost goal
walk can be taken duplicate-free, so that pruning preserves optimality while
making the bounded search a finite tree.  Costs are the non-negative
integers. -/

/-- Weighted reachability: `WReach succs a b g` says a walk of total cost
`g` runs from `a` to `b` along the weighted successor edges. -/
inductive WReach (succs : N → List (N × Nat)) : N → N → Nat → Prop
  | refl (a : N) : WReach succs a a 0
  | tail {a b c : N} {g w : Nat} :
      WReach succs a b g → (c, w) ∈ succs b → WReach succs a c (g + w)

/-- Head-oriented weighted reachability (same relation, built from the
front). -/
inductive HReach (succs : N → List (N × Nat)) : N → N → Nat → Prop
  | refl (a : N) : HReach succs a a 0
  | head {a b c : N} {w r : Nat} :
      (b, w) ∈ succs a → HReach succs b c r → HReach succs a c (w + r)

/-- Head-oriented walk that also records the nodes after the start. -/
inductive HPath (succs : N → List (N × Nat)) : N → N → Nat → List N → Prop
  | refl (a : N) : HPath succs a a 0 []
  | head {a b c : N} {w r : Nat} {ys : List N} :
      (b, w) ∈ succs a → HPath succs b c r ys → HPath succs a c (w + r) (b :: ys)

/-- `g` is the cost of some walk from `n` to a node accepted by the goal
predicate. -/
def GoalCostFrom (succs : N → List (N × Nat)) (goalp : N → Bool) (n : N)
    (g : Nat) : Prop :=
  ∃ gl : N, goalp gl = true ∧ WReach succs n gl g

/-- An admissible heuristic never overestimates the cost of any goal walk. -/
def Admissible (succs : N → List (N × Nat)) (goalp : N → Bool)
    (h : N → Nat) : Prop :=
  ∀ (n : N) (g : Nat), GoalCostFrom succs goalp n g → h n ≤ g

/-- The total outgoing weight of one node. -/
def outW (succs : N → List (N × Nat)) (n : N) : Nat :=
  ((succs n).map Prod.snd).sum

/-- The total weight of the whole graph. -/
def totW [Fintype N] (succs : N → List (N × Nat)) : Nat :=
  ∑ x : N, outW succs x

/-- The largest heuristic value. -/
def hMax [Fintype N] (h : N → Nat) : Nat := Finset.univ.sup h

/-- Modelled from the spec: relaxation of the popped node's successors in
A*.  `(g + h(successor), successor at cost g)` is pushed exactly when the
new cost improves or introduces the successor's best known cost, and the map
records the new `(parent, cost)` — a strictly cheaper candidate re-opens the
node. -/
def arelax (h : N → Nat) (parentNode : N) (c : Nat) :
    List (N × Nat) → List (Nat × (Nat × N)) → DMap N →
    List (Nat × (Nat × N)) × DMap N
  | [], q, m => (q, m)
  | (s, w) :: rest, q, m =>
    if dcontains m s then
      if c + w < dcost m s then
        arelax h parentNode c rest (q ++ [(c + w + h s, (c + w, s))])
          (dupdate m s (some parentNode, c + w))
      else arelax h parentNode c rest q m
    else arelax h parentNode c rest (q ++ [(c + w + h s, (c + w, s))])
      (m ++ [(s, (some parentNode, c + w))])

/-- Modelled from the spec: the A* loop.  Entries are `(f, (g, node))`,
popped by least `f` (ties by insertion sequence); a popped goal stops the
search with the reconstructed path; a pop whose `g` is worse than the best
known cost is stale and skipped; otherwise the node is expanded. -/
def astarLoop (succs : N → List (N × Nat)) (h : N → Nat) (goalp : N → Bool) :
    Nat → List (Nat × (Nat × N)) → DMap N → Option (List N × Nat)
  | 0, _, _ => none
  | fuel + 1, q, m =>
    match popMin q with
    | none => none
    | some ((_, (g, n)), q') =>
      if goalp n then some (build_path m n, g)
      else if dcost m n < g then astarLoop succs h goalp fuel q' m
      else
        let qm := arelax h n g (succs n) q' m
        astarLoop succs h goalp fuel qm.1 qm.2

/-- Fuel that dominates every A* run from the seeded state. -/
def astarFuel [Fintype N] (succs : N → List (N × Nat)) : Nat :=
  2 * Fintype.card N * (totW succs + 1) + 2

/-- Modelled from the spec: `astar(start, successors_with_cost, heuristic,
success)`. -/
def astar [Fintype N] (start : N) (succs : N → List (N × Nat)) (h : N → Nat)
    (goalp : N → Bool) : Option (List N × Nat) :=
  astarLoop succs h goalp (astarFuel succs)
    [(h start, (0, start))] [(start, (none, 0))]

/-- The minimum of two optional thresholds. -/
def minO : Option Nat → Option Nat → Option Nat
  | none, o => o
  | some a, none => some a
  | some a, some b => some (min a b)

/-- Combine a branch's outcome with the accumulated outcome of the later
branches: the first find wins, cut-offs are kept at their minimum. -/
def dfsCombine (branch acc : Sum (List N × Nat) (Option Nat)) :
    Sum (List N × Nat) (Option Nat) :=
  match branch, acc with
  | Sum.inl r, _ => Sum.inl r
  | Sum.inr _, Sum.inl r => Sum.inl r
  | Sum.inr o1, Sum.inr o2 => Sum.inr (minO o1 o2)

/-- Modelled from the spec: one bounded depth-first probe of IDA*.  At a
node whose `f = g + h(node)` exceeds the threshold the branch is cut and
reports `f`; a goal within the threshold is returned with its path and cost;
otherwise the successors not already on the current path are probed in order
and the least reported cut-off is propagated. -/
def idaDfs (succs : N → List (N × Nat)) (h : N → Nat) (goalp : N → Bool) :
    Nat → List N → N → Nat → Nat → Sum (List N × Nat) (Option Nat)
  | 0, _, _, _, _ => Sum.inr none
  | fuel + 1, path, n, g, t =>
    if t < g + h n then Sum.inr (some (g + h n))
    else if goalp n then Sum.inl ((n :: path).reverse, g)
    else
      (succs n).foldr
        (fun sw acc =>
          if decide (sw.1 ∈ n :: path) then acc
          else dfsCombine (idaDfs succs h goalp fuel (n :: path) sw.1 (g + sw.2) t) acc)
        (Sum.inr none)

/-- Modelled from the spec: the threshold iteration of IDA*. -/
def idastarAux [Fintype N] (succs : N → List (N × Nat)) (h : N → Nat)
    (goalp : N → Bool) (start : N) : Nat → Nat → Option (List N × Nat)
  | 0, _ => none
  | fuel + 1, t =>
    match idaDfs succs h goalp (Fintype.card N + 1) [] start 0 t with
    | Sum.inl pc => some pc
    | Sum.inr none => none
    | Sum.inr (some f) => idastarAux succs h goalp start fuel f

/-- Modelled from the spec: `idastar(start, successors_with_cost, heuristic,
success)`; the first threshold is `h(start)`. -/
def idastar [Fintype N] (start : N) (succs : N → List (N × Nat)) (h : N → Nat)
    (goalp : N → Bool) : Option (List N × Nat) :=
  idastarAux succs h goalp start (totW succs + hMax h + 2) (h start)

/-! ### Walks: conversions and bounds -/

theorem WReach_cons {succs : N → List (N × Nat)} {a b c : N} {w r : Nat}
    (he : (b, w) ∈ succs a) (hr : WReach succs b c r) :
    WReach succs a c (w + r) := by
  induction hr with
  | refl =>
    have := WReach.tail (WReach.refl a) he
    simpa using this
  | tail hr hm ih =>
    rename_i x y g w'
    have := WReach.tail ih hm
    have harith : w + g + w' = w + (g + w') := by omega
    rw [← harith]
    exact this

theorem HReach_toW {succs : N → List (N × Nat)} {a b : N} {g : Nat}
    (hr : HReach succs a b g) : WReach succs a b g := by
  induction hr with
  | refl => exact WReach.refl _
  | head he hr ih => exact WReach_cons he ih

theorem HReach_snoc {succs : N → List (N × Nat)} {a b c : N} {g w : Nat}
    (hr : HReach succs a b g) (he : (c, w) ∈ succs b) :
    HReach succs a c (g + w) := by
  induction hr with
  | refl =>
    have := HReach.head he (HReach.refl c)
    simpa using this
  | head he' hr ih =>
    rename_i x y w' r
    have := HReach.head he' (ih he)
    have harith : w' + r + w = w' + (r + w) := by omega
    rw [harith]
    exact this

theorem WReach_toH {succs : N → List (N × Nat)} {a b : N} {g : Nat}
    (hr : WReach succs a b g) : HReach succs a b g := by
  induction hr with
  | refl => exact HReach.refl _
  | tail hr hm ih => exact HReach_snoc ih hm

theorem HPath_toH {succs : N → List (N × Nat)} {a b : N} {g : Nat}
    {ys : List N} (hp : HPath succs a b g ys) : HReach succs a b g := by
  induction hp with
  | refl => exact HReach.refl _
  | head he hp ih => exact HReach.head he ih

theorem HReach_toPath {succs : N → List (N × Nat)} {a b : N} {g : Nat}
    (hr : HReach succs a b g) : ∃ ys : List N, HPath succs a b g ys := by
  induction hr with
  | refl => exact ⟨[], HPath.refl _⟩
  | head he hr ih =>
    obtain ⟨ys, hp⟩ := ih
    exact ⟨_ :: ys, HPath.head he hp⟩

/-- A walk visiting `x` has a cheaper tail walk from `x` whose node list is
a suffix. -/
theorem HPath_cut {succs : N → List (N × Nat)} {b c x : N} {r : Nat}
    {ys : List N} (hp : HPath succs b c r ys) (hx : x ∈ b :: ys) :
    ∃ (r' : Nat) (ys' : List N), r' ≤ r ∧ HPath succs x c r' ys' ∧
      (x :: ys') <:+ (b :: ys) := by
  induction hp with
  | refl =>
    rw [List.mem_singleton] at hx
    subst hx
    exact ⟨0, [], le_refl 0, HPath.refl _, List.suffix_refl _⟩
  | head he hp ih =>
    rename_i a y cc w r ys'
    rcases List.mem_cons.mp hx with rfl | hx'
    · exact ⟨w + r, y :: ys', le_refl _, HPath.head he hp, List.suffix_refl _⟩
    · obtain ⟨r', ys'', hle, hp', hsuf⟩ := ih hx'
      exact ⟨r', ys'', by omega, hp', hsuf.trans (List.suffix_cons _ _)⟩

/-- Every walk shrinks to a duplicate-free walk of no greater cost. -/
theorem HPath_simplify {succs : N → List (N × Nat)} {a c : N} {r : Nat}
    {ys : List N} (hp : HPath succs a c r ys) :
    ∃ (r' : Nat) (ys' : List N), r' ≤ r ∧ HPath succs a c r' ys' ∧
      (a :: ys').Nodup := by
  induction hp with
  | refl => exact ⟨0, [], le_refl 0, HPath.refl _, List.nodup_singleton _⟩
  | head he hp ih =>
    rename_i n b cc w r' ys'
    obtain ⟨r₁, ys₁, hle, hp₁, hnd⟩ := ih
    by_cases hn : n ∈ b :: ys₁
    · obtain ⟨r₂, ys₂, hle₂, hp₂, hsuf⟩ := HPath_cut hp₁ hn
      refine ⟨r₂, ys₂, by omega, hp₂, ?_⟩
      exact hnd.sublist hsuf.sublist
    · exact ⟨w + r₁, b :: ys₁, by omega, HPath.head he hp₁,
        List.nodup_cons.mpr ⟨hn, hnd⟩⟩

/-- The outgoing weights of distinct nodes sum to at most the graph total. -/
theorem nodup_outW_bound [Fintype N] {succs : N → List (N × Nat)}
    {l : List N} (hnd : l.Nodup) : (l.map (outW succs)).sum ≤ totW succs := by
  classical
  have h1 : (l.map (outW succs)).sum = ∑ x ∈ l.toFinset, outW succs x := by
    rw [List.sum_toFinset _ hnd]
  rw [h1]
  unfold totW
  exact Finset.sum_le_sum_of_subset (Finset.subset_univ _)

/-- The cost of a duplicate-free walk is at most the graph's total weight. -/
theorem HPath_cost_bound [Fintype N] {succs : N → List (N × Nat)} {a c : N}
    {r : Nat} {ys : List N} (hp : HPath succs a c r ys)
    (hnd : (a :: ys).Nodup) : r ≤ totW succs := by
  have key : ∀ (b d : N) (g : Nat) (zs : List N), HPath succs b d g zs →
      (b :: zs).Nodup → g + outW succs d ≤ ((b :: zs).map (outW succs)).sum := by
    intro b d g zs hp
    induction hp with
    | refl a =>
      intro hnd
      simp
    | head he hp ih =>
      rename_i n y dd w r' ys'
      intro hnd
      have hih := ih (List.nodup_cons.mp hnd).2
      have hw : w ≤ outW succs n := by
        unfold outW
        exact List.single_le_sum (fun x hx => Nat.zero_le x) w
          (List.mem_map.mpr ⟨(y, w), he, rfl⟩)
      have hsum : ((n :: y :: ys').map (outW succs)).sum =
          outW succs n + ((y :: ys').map (outW succs)).sum := by
        simp
      rw [hsum]
      omega
  have h1 := key a c r ys hp hnd
  have h2 : ((a :: ys).map (outW succs)).sum ≤ totW succs :=
    nodup_outW_bound hnd
  omega

/-! ### The A* invariant apparatus -/

/-- One step of an accumulated-cost path. -/
def DomStep (succs : N → List (N × Nat)) (a b : N × Nat) : Prop :=
  ∃ w, (b.1, w) ∈ succs a.1 ∧ b.2 = a.2 + w

/-- A duplicate-free accumulated-cost path from the start to `x` each of
whose nodes carries a best-known cost no larger than its accumulated cost.
It witnesses that every recorded cost stays below the graph's total
weight. -/
def DomPath (succs : N → List (N × Nat)) (m : DMap N) (start x : N)
    (ap : List (N × Nat)) : Prop :=
  ap.head? = some (start, 0) ∧
  (ap.map Prod.fst).Nodup ∧
  (∀ pr ∈ ap, dcontains m pr.1 = true ∧ dcost m pr.1 ≤ pr.2) ∧
  List.Chain' (DomStep succs) ap ∧
  ∃ gx : Nat, ap.getLast? = some (x, gx)

theorem chain_toHPath {succs : N → List (N × Nat)} :
    ∀ (ap : List (N × Nat)) (a : N) (ga : Nat),
      List.Chain' (DomStep succs) ((a, ga) :: ap) →
      ∃ (r : Nat) (x : N) (gx : Nat), ((a, ga) :: ap).getLast? = some (x, gx) ∧
        HPath succs a x r (ap.map Prod.fst) ∧ gx = ga + r := by
  intro ap
  induction ap with
  | nil =>
    intro a ga hch
    exact ⟨0, a, ga, rfl, HPath.refl a, by omega⟩
  | cons b rest ih =>
    intro a ga hch
    obtain ⟨b1, b2⟩ := b
    obtain ⟨hab, hch'⟩ := List.chain'_cons.mp hch
    obtain ⟨w, hw, hb2⟩ := hab
    obtain ⟨r, x, gx, hlast, hp, hgx⟩ := ih b1 b2 hch'
    refine ⟨w + r, x, gx, ?_, HPath.head hw hp, by omega⟩
    rw [List.getLast?_cons_cons]
    exact hlast

/-- Every node holding a dominated path has best-known cost at most the
graph's total weight. -/
theorem DomPath_bound [Fintype N] {succs : N → List (N × Nat)} {m : DMap N}
    {start x : N} {ap : List (N × Nat)}
    (hd : DomPath succs m start x ap) : dcost m x ≤ totW succs := by
  obtain ⟨hhead, hnd, hdom, hch, gx, hlast⟩ := hd
  cases ap with
  | nil => cases hhead
  | cons a0 tail =>
    have ha0 : a0 = (start, 0) := by
      rw [List.head?_cons] at hhead
      exact Option.some.inj hhead
    subst ha0
    obtain ⟨r, x', gx', hlast', hp, hgx'⟩ := chain_toHPath tail start 0 hch
    rw [hlast] at hlast'
    have hpair : (x, gx) = (x', gx') := Option.some.inj hlast'
    have hx : x = x' := congrArg Prod.fst hpair
    have hgx2 : gx = gx' := congrArg Prod.snd hpair
    subst hx
    subst hgx2
    have hnd' : (start :: tail.map Prod.fst).Nodup := by
      rw [List.map_cons] at hnd
      exact hnd
    have hbound := HPath_cost_bound hp hnd'
    have hmem : (x, gx) ∈ (start, 0) :: tail := List.mem_of_mem_getLast? hlast
    have hle : dcost m x ≤ gx := (hdom _ hmem).2
    omega

/-- A dominated path cuts at any of its nodes. -/
theorem DomPath_cut {succs : N → List (N × Nat)} {m : DMap N}
    {start x s : N} {gs : Nat} {ap : List (N × Nat)}
    (hd : DomPath succs m start x ap) (hmem : (s, gs) ∈ ap) :
    ∃ ap', DomPath succs m start s ap' ∧ (∀ pr ∈ ap', pr ∈ ap) ∧
      ap'.getLast? = some (s, gs) := by
  obtain ⟨hhead, hnd, hdom, hch, gx, hlast⟩ := hd
  obtain ⟨l₁, l₂, hsplit⟩ := List.append_of_mem hmem
  subst hsplit
  have hsub : (l₁ ++ [(s, gs)]).Sublist (l₁ ++ (s, gs) :: l₂) :=
    List.Sublist.append_left (by simp) l₁
  refine ⟨l₁ ++ [(s, gs)], ⟨?_, ?_, ?_, ?_, gs, List.getLast?_concat _⟩,
    fun pr hpr => hsub.mem hpr, List.getLast?_concat _⟩
  · cases l₁ with
    | nil =>
      rw [List.nil_append] at hhead ⊢
      rw [List.head?_cons] at hhead ⊢
      exact hhead
    | cons e l₁' =>
      rw [List.cons_append] at hhead ⊢
      rw [List.head?_cons] at hhead ⊢
      exact hhead
  · exact hnd.sublist (hsub.map Prod.fst)
  · exact fun pr hpr => hdom pr (hsub.mem hpr)
  · rw [List.append_cons] at hch
    exact (List.chain'_append.mp hch).1

/-- The potential of a cost map: recorded nodes contribute their cost,
unrecorded nodes the cap. -/
def potSum [Fintype N] (succs : N → List (N × Nat)) (m : DMap N) : Nat :=
  ∑ x : N, (if dcontains m x then dcost m x else totW succs + 1)

theorem potSum_update [Fintype N] {succs : N → List (N × Nat)} {m : DMap N}
    {s : N} {p : Option N} {c' : Nat} (hc : dcontains m s = true) :
    potSum succs (dupdate m s (p, c')) + dcost m s = potSum succs m + c' := by
  unfold potSum
  rw [← Finset.sum_erase_add Finset.univ _ (Finset.mem_univ s),
    ← Finset.sum_erase_add Finset.univ
      (fun x => if dcontains m x then dcost m x else totW succs + 1)
      (Finset.mem_univ s)]
  have hcongr : ∀ x ∈ Finset.univ.erase s,
      (if dcontains (dupdate m s (p, c')) x then dcost (dupdate m s (p, c')) x
        else totW succs + 1) =
      (if dcontains m x then dcost m x else totW succs + 1) := by
    intro x hx
    have hxs : x ≠ s := Finset.ne_of_mem_erase hx
    rw [dcontains_update, dcost_update_other hxs]
  rw [Finset.sum_congr rfl hcongr]
  have hs₁ : dcontains (dupdate m s (p, c')) s = true := by
    rw [dcontains_update]
    exact hc
  rw [if_pos hs₁, if_pos hc, dcost_update_self hc]
  omega

theorem potSum_append [Fintype N] {succs : N → List (N × Nat)} {m : DMap N}
    {s : N} {p : Option N} {c' : Nat} (hc : dcontains m s = false) :
    potSum succs (m ++ [(s, (p, c'))]) + (totW succs + 1) =
      potSum succs m + c' := by
  unfold potSum
  rw [← Finset.sum_erase_add Finset.univ _ (Finset.mem_univ s),
    ← Finset.sum_erase_add Finset.univ
      (fun x => if dcontains m x then dcost m x else totW succs + 1)
      (Finset.mem_univ s)]
  have hcongr : ∀ x ∈ Finset.univ.erase s,
      (if dcontains (m ++ [(s, (p, c'))]) x then dcost (m ++ [(s, (p, c'))]) x
        else totW succs + 1) =
      (if dcontains m x then dcost m x else totW succs + 1) := by
    intro x hx
    have hxs : x ≠ s := Finset.ne_of_mem_erase hx
    rw [dcontains_append, dcost_append_other hxs, decide_eq_false hxs,
      Bool.or_false]
  rw [Finset.sum_congr rfl hcongr]
  rw [if_pos (dcontains_append_self _), if_neg (by rw [hc]; exact fun hcc => by cases hcc),
    dcost_append_new hc]
  omega

/-- Dominated paths survive any pointwise improvement of the map. -/
theorem DomPath_mono {succs : N → List (N × Nat)} {m m' : DMap N}
    {start x : N} {ap : List (N × Nat)}
    (hmono : ∀ y : N, dcontains m y = true →
      dcontains m' y = true ∧ dcost m' y ≤ dcost m y)
    (hd : DomPath succs m start x ap) : DomPath succs m' start x ap := by
  obtain ⟨h1, h2, h3, h4, h5⟩ := hd
  refine ⟨h1, h2, fun pr hpr => ?_, h4, h5⟩
  obtain ⟨ha, hb⟩ := h3 pr hpr
  obtain ⟨hc, hdd⟩ := hmono pr.1 ha
  exact ⟨hc, le_trans hdd hb⟩

/-- A dominated path extends along an edge to a node outside it. -/
theorem DomPath_extend {succs : N → List (N × Nat)} {m' : DMap N}
    {start n s : N} {w gx : Nat} {ap : List (N × Nat)}
    (hd : DomPath succs m' start n ap) (hgx : ap.getLast? = some (n, gx))
    (hedge : (s, w) ∈ succs n) (hs : s ∉ ap.map Prod.fst)
    (hcont : dcontains m' s = true) (hcost : dcost m' s ≤ gx + w) :
    DomPath succs m' start s (ap ++ [(s, gx + w)]) := by
  obtain ⟨h1, h2, h3, h4, h5⟩ := hd
  refine ⟨?_, ?_, ?_, ?_, gx + w, List.getLast?_concat _⟩
  · cases ap with
    | nil => cases h1
    | cons e tail =>
      rw [List.head?_cons] at h1
      rw [List.cons_append, List.head?_cons]
      exact h1
  · rw [List.map_append]
    rw [List.nodup_append]
    refine ⟨h2, List.nodup_singleton _, ?_⟩
    intro y hy hy'
    rw [List.map_singleton, List.mem_singleton] at hy'
    subst hy'
    exact hs hy
  · intro pr hpr
    rcases List.mem_append.mp hpr with hpr | hpr
    · exact h3 pr hpr
    · rw [List.mem_singleton] at hpr
      subst hpr
      exact ⟨hcont, hcost⟩
  · rw [List.chain'_append]
    refine ⟨h4, List.chain'_singleton _, ?_⟩
    intro a ha b hb
    rw [hgx] at ha
    rw [List.head?_cons] at hb
    rw [Option.mem_def] at ha hb
    have ha' : a = (n, gx) := (Option.some.inj ha).symm
    have hb' : b = (s, gx + w) := (Option.some.inj hb).symm
    subst ha'
    subst hb'
    exact ⟨w, hedge, rfl⟩

/-- What one round of A* relaxation establishes: old entries survive, every
entry of the output queue is well-formed, recorded costs only improve, the
processed successors are recorded within `c + w`, every recorded node is
either untouched or has an exact entry in the output queue, recorded costs
remain walk costs dominated by duplicate-free paths, the expanded node's
record is untouched, and the potential-plus-queue measure does not grow. -/
theorem arelax_spec [Fintype N] {start n : N} {succs : N → List (N × Nat)}
    {h : N → Nat} {c : Nat} :
    ∀ (l : List (N × Nat)) (q : List (Nat × (Nat × N))) (m : DMap N),
      (∀ sw ∈ l, sw ∈ succs n) →
      dcontains m n = true → dcost m n = c →
      WReach succs start n c →
      (∀ e ∈ q, dcontains m e.2.2 = true ∧ dcost m e.2.2 ≤ e.2.1 ∧
        e.1 = e.2.1 + h e.2.2 ∧ WReach succs start e.2.2 e.2.1) →
      (∀ x : N, dcontains m x = true → WReach succs start x (dcost m x)) →
      (∀ x : N, dcontains m x = true → ∃ ap, DomPath succs m start x ap) →
      ∀ t : List (Nat × (Nat × N)) × DMap N, arelax h n c l q m = t →
      (∀ e ∈ q, e ∈ t.1) ∧
      (∀ e ∈ t.1, dcontains t.2 e.2.2 = true ∧ dcost t.2 e.2.2 ≤ e.2.1 ∧
        e.1 = e.2.1 + h e.2.2 ∧ WReach succs start e.2.2 e.2.1) ∧
      (∀ x : N, dcontains m x = true →
        dcontains t.2 x = true ∧ dcost t.2 x ≤ dcost m x) ∧
      (∀ sw ∈ l, dcontains t.2 sw.1 = true ∧ dcost t.2 sw.1 ≤ c + sw.2) ∧
      (∀ x : N, dcontains t.2 x = true →
        (dcontains m x = true ∧ dcost t.2 x = dcost m x) ∨
        (∃ e ∈ t.1, e.2.2 = x ∧ e.2.1 = dcost t.2 x ∧
          e.1 = dcost t.2 x + h x)) ∧
      (∀ x : N, dcontains t.2 x = true → WReach succs start x (dcost t.2 x)) ∧
      (∀ x : N, dcontains t.2 x = true → ∃ ap, DomPath succs t.2 start x ap) ∧
      dlookup t.2 n = dlookup m n ∧
      2 * potSum succs t.2 + t.1.length ≤ 2 * potSum succs m + q.length := by
  intro l
  induction l with
  | nil =>
    intro q m hsub hcn hdn hwn hq hmr hgd t ht
    have ht' : t = (q, m) := ht.symm
    subst ht'
    exact ⟨fun e he => he, hq, fun x hx => ⟨hx, le_refl _⟩,
      fun sw hsw => absurd hsw (List.not_mem_nil sw),
      fun x hx => Or.inl ⟨hx, rfl⟩, hmr, hgd, rfl, le_refl _⟩
  | cons sw rest ih =>
    intro q m hsub hcn hdn hwn hq hmr hgd t ht
    obtain ⟨s, w⟩ := sw
    unfold arelax at ht
    have hedge : (s, w) ∈ succs n := hsub (s, w) (List.mem_cons_self _ _)
    have hrest : ∀ x ∈ rest, x ∈ succs n :=
      fun x hx => hsub x (List.mem_cons_of_mem _ hx)
    by_cases hc : dcontains m s = true
    · rw [if_pos hc] at ht
      by_cases himp : c + w < dcost m s
      · rw [if_pos himp] at ht
        have hns : n ≠ s := by
          intro hns
          rw [← hns, hdn] at himp
          omega
        set m₁ := dupdate m s (some n, c + w) with hm₁
        set q₁ := q ++ [(c + w + h s, (c + w, s))] with hq₁
        have hcont₁ : ∀ x : N, dcontains m₁ x = dcontains m x :=
          fun x => dcontains_update
        have hcost₁s : dcost m₁ s = c + w := dcost_update_self hc
        have hcost₁ : ∀ x : N, x ≠ s → dcost m₁ x = dcost m x :=
          fun x hx => dcost_update_other hx
        have hmono₁ : ∀ y : N, dcontains m y = true →
            dcontains m₁ y = true ∧ dcost m₁ y ≤ dcost m y := by
          intro y hy
          refine ⟨(hcont₁ y).trans hy, ?_⟩
          by_cases hys : y = s
          · subst hys
            rw [hcost₁s]
            omega
          · rw [hcost₁ y hys]
        have hws : WReach succs start s (c + w) := WReach.tail hwn hedge
        have hq₁mem : ∀ e ∈ q₁, dcontains m₁ e.2.2 = true ∧
            dcost m₁ e.2.2 ≤ e.2.1 ∧ e.1 = e.2.1 + h e.2.2 ∧
            WReach succs start e.2.2 e.2.1 := by
          intro e he
          rcases List.mem_append.mp he with he | he
          · obtain ⟨h1, h2, h3, h4⟩ := hq e he
            exact ⟨(hcont₁ _).trans h1, le_trans (hmono₁ _ h1).2 h2, h3, h4⟩
          · rw [List.mem_singleton] at he
            subst he
            exact ⟨(hcont₁ s).trans hc, by rw [hcost₁s], rfl, hws⟩
        have hmr₁ : ∀ x : N, dcontains m₁ x = true →
            WReach succs start x (dcost m₁ x) := by
          intro x hx
          by_cases hxs : x = s
          · subst hxs
            rw [hcost₁s]
            exact hws
          · rw [hcost₁ x hxs]
            exact hmr x ((hcont₁ x).symm.trans hx)
        have hgd₁ : ∀ x : N, dcontains m₁ x = true →
            ∃ ap, DomPath succs m₁ start x ap := by
          intro x hx
          obtain ⟨ap, hap⟩ := hgd x ((hcont₁ x).symm.trans hx)
          exact ⟨ap, DomPath_mono hmono₁ hap⟩
        have hcn₁ : dcontains m₁ n = true := (hcont₁ n).trans hcn
        have hdn₁ : dcost m₁ n = c := by rw [hcost₁ n hns, hdn]
        obtain ⟨j1, j2, j3, j4, j5, j6, j7, j8, j9⟩ :=
          ih q₁ m₁ hrest hcn₁ hdn₁ hwn hq₁mem hmr₁ hgd₁ t ht
        have hstep : 2 * potSum succs m₁ + q₁.length ≤
            2 * potSum succs m + q.length := by
          have hps : potSum succs m₁ + dcost m s = potSum succs m + (c + w) :=
            potSum_update hc
          have hlen : q₁.length = q.length + 1 := by
            rw [hq₁]
            simp
          omega
        refine ⟨?_, j2, ?_, ?_, ?_, j6, j7, ?_, by omega⟩
        · intro e he
          exact j1 e (List.mem_append.mpr (Or.inl he))
        · intro x hx
          obtain ⟨k1, k2⟩ := j3 x ((hcont₁ x).trans hx)
          exact ⟨k1, le_trans k2 (hmono₁ x hx).2⟩
        · intro sw' hsw'
          rcases List.mem_cons.mp hsw' with hsw' | hsw'
          · subst hsw'
            obtain ⟨k1, k2⟩ := j3 s ((hcont₁ s).trans hc)
            rw [hcost₁s] at k2
            exact ⟨k1, k2⟩
          · exact j4 sw' hsw'
        · intro x hx
          rcases j5 x hx with ⟨k1, k2⟩ | hr
          · by_cases hxs : x = s
            · right
              refine ⟨(c + w + h s, (c + w, s)),
                j1 _ (List.mem_append.mpr (Or.inr (List.mem_singleton_self _))),
                hxs.symm, ?_, ?_⟩
              · rw [k2, hxs, hcost₁s]
              · rw [k2, hxs, hcost₁s]
            · left
              rw [k2, hcost₁ x hxs]
              exact ⟨(hcont₁ x).symm.trans k1, rfl⟩
          · exact Or.inr hr
        · rw [j8]
          exact dlookup_update_other hns
      · rw [if_neg himp] at ht
        obtain ⟨j1, j2, j3, j4, j5, j6, j7, j8, j9⟩ :=
          ih q m hrest hcn hdn hwn hq hmr hgd t ht
        refine ⟨j1, j2, j3, ?_, j5, j6, j7, j8, j9⟩
        intro sw' hsw'
        rcases List.mem_cons.mp hsw' with hsw' | hsw'
        · subst hsw'
          obtain ⟨k1, k2⟩ := j3 s hc
          refine ⟨k1, ?_⟩
          show dcost t.2 s ≤ c + w
          omega
        · exact j4 sw' hsw'
    · have hcf : dcontains m s = false := by
        cases hcb : dcontains m s
        · rfl
        · exact absurd hcb hc
      rw [if_neg hc] at ht
      have hns : n ≠ s := by
        intro hns
        rw [← hns] at hcf
        rw [hcn] at hcf
        cases hcf
      set m₁ := m ++ [(s, (some n, c + w))] with hm₁
      set q₁ := q ++ [(c + w + h s, (c + w, s))] with hq₁
      have hcont₁s : dcontains m₁ s = true := dcontains_append_self _
      have hcont₁ : ∀ x : N, dcontains m x = true → dcontains m₁ x = true := by
        intro x hx
        rw [hm₁, dcontains_append, hx]
        simp
      have hcost₁s : dcost m₁ s = c + w := dcost_append_new hcf
      have hcost₁ : ∀ x : N, x ≠ s → dcost m₁ x = dcost m x :=
        fun x hx => dcost_append_other hx
      have hback₁ : ∀ x : N, dcontains m₁ x = true → x ≠ s →
          dcontains m x = true := by
        intro x hx hxs
        rw [hm₁, dcontains_append, decide_eq_false hxs, Bool.or_false] at hx
        exact hx
      have hmono₁ : ∀ y : N, dcontains m y = true →
          dcontains m₁ y = true ∧ dcost m₁ y ≤ dcost m y := by
        intro y hy
        refine ⟨hcont₁ y hy, ?_⟩
        have hys : y ≠ s := by
          intro hys
          rw [hys, hcf] at hy
          cases hy
        rw [hcost₁ y hys]
      have hws : WReach succs start s (c + w) := WReach.tail hwn hedge
      have hq₁mem : ∀ e ∈ q₁, dcontains m₁ e.2.2 = true ∧
          dcost m₁ e.2.2 ≤ e.2.1 ∧ e.1 = e.2.1 + h e.2.2 ∧
          WReach succs start e.2.2 e.2.1 := by
        intro e he
        rcases List.mem_append.mp he with he | he
        · obtain ⟨h1, h2, h3, h4⟩ := hq e he
          exact ⟨hcont₁ _ h1, le_trans (hmono₁ _ h1).2 h2, h3, h4⟩
        · rw [List.mem_singleton] at he
          subst he
          exact ⟨hcont₁s, by rw [hcost₁s], rfl, hws⟩
      have hmr₁ : ∀ x : N, dcontains m₁ x = true →
          WReach succs start x (dcost m₁ x) := by
        intro x hx
        by_cases hxs : x = s
        · subst hxs
          rw [hcost₁s]
          exact hws
        · rw [hcost₁ x hxs]
          exact hmr x (hback₁ x hx hxs)
      have hsdom : ∃ ap, DomPath succs m₁ start s ap := by
        obtain ⟨ap, hap⟩ := hgd n hcn
        have hap₁ : DomPath succs m₁ start n ap := DomPath_mono hmono₁ hap
        obtain ⟨gx, hgx⟩ := hap₁.2.2.2.2
        have hsnot : s ∉ ap.map Prod.fst := by
          intro hsmem
          obtain ⟨pr, hpr, hpr2⟩ := List.mem_map.mp hsmem
          have := (hap.2.2.1 pr hpr).1
          rw [hpr2, hcf] at this
          cases this
        have hcb : dcost m₁ s ≤ gx + w := by
          have hnd : dcost m n ≤ gx := by
            have hmem := List.mem_of_mem_getLast? hgx
            exact (hap.2.2.1 _ hmem).2
          rw [hcost₁s, ← hdn]
          omega
        exact ⟨ap ++ [(s, gx + w)],
          DomPath_extend hap₁ hgx hedge hsnot hcont₁s hcb⟩
      have hgd₁ : ∀ x : N, dcontains m₁ x = true →
          ∃ ap, DomPath succs m₁ start x ap := by
        intro x hx
        by_cases hxs : x = s
        · subst hxs
          exact hsdom
        · obtain ⟨ap, hap⟩ := hgd x (hback₁ x hx hxs)
          exact ⟨ap, DomPath_mono hmono₁ hap⟩
      have hcn₁ : dcontains m₁ n = true := hcont₁ n hcn
      have hdn₁ : dcost m₁ n = c := by rw [hcost₁ n hns, hdn]
      obtain ⟨j1, j2, j3, j4, j5, j6, j7, j8, j9⟩ :=
        ih q₁ m₁ hrest hcn₁ hdn₁ hwn hq₁mem hmr₁ hgd₁ t ht
      have hcwbound : c + w ≤ totW succs := by
        obtain ⟨ap, hap⟩ := hsdom
        have := DomPath_bound hap
        rw [hcost₁s] at this
        exact this
      have hstep : 2 * potSum succs m₁ + q₁.length ≤
          2 * potSum succs m + q.length := by
        have hps : potSum succs m₁ + (totW succs + 1) = potSum succs m + (c + w) :=
          potSum_append hcf
        have hlen : q₁.length = q.length + 1 := by
          rw [hq₁]
          simp
        omega
      refine ⟨?_, j2, ?_, ?_, ?_, j6, j7, ?_, by omega⟩
      · intro e he
        exact j1 e (List.mem_append.mpr (Or.inl he))
      · intro x hx
        obtain ⟨k1, k2⟩ := j3 x (hcont₁ x hx)
        exact ⟨k1, le_trans k2 (hmono₁ x hx).2⟩
      · intro sw' hsw'
        rcases List.mem_cons.mp hsw' with hsw' | hsw'
        · subst hsw'
          obtain ⟨k1, k2⟩ := j3 s hcont₁s
          rw [hcost₁s] at k2
          exact ⟨k1, k2⟩
        · exact j4 sw' hsw'
      · intro x hx
        rcases j5 x hx with ⟨k1, k2⟩ | hr
        · by_cases hxs : x = s
          · right
            refine ⟨(c + w + h s, (c + w, s)),
              j1 _ (List.mem_append.mpr (Or.inr (List.mem_singleton_self _))),
              hxs.symm, ?_, ?_⟩
            · rw [k2, hxs, hcost₁s]
            · rw [k2, hxs, hcost₁s]
          · left
            rw [k2, hcost₁ x hxs]
            exact ⟨hback₁ x k1 hxs, rfl⟩
        · exact Or.inr hr
      · rw [j8, hm₁]
        exact dlookup_append_other hns _

/-- The A* loop invariant, with the ghost set `Cl` of closed (expanded and
not since re-opened) nodes. -/
structure AInv (start : N) (succs : N → List (N × Nat)) (h : N → Nat)
    (goalp : N → Bool) (q : List (Nat × (Nat × N))) (m : DMap N)
    (Cl : Finset N) : Prop where
  qmem : ∀ e ∈ q, dcontains m e.2.2 = true ∧ dcost m e.2.2 ≤ e.2.1 ∧
    e.1 = e.2.1 + h e.2.2 ∧ WReach succs start e.2.2 e.2.1
  mreachc : ∀ x : N, dcontains m x = true → WReach succs start x (dcost m x)
  startm : dcontains m start = true ∧ dcost m start = 0
  clmem : ∀ x ∈ Cl, dcontains m x = true
  clrelax : ∀ x ∈ Cl, ∀ sw ∈ succs x, dcontains m sw.1 = true ∧
    dcost m sw.1 ≤ dcost m x + sw.2
  clgoal : ∀ x ∈ Cl, goalp x = false
  opencover : ∀ x : N, dcontains m x = true → x ∉ Cl →
    ∃ e ∈ q, e.2.2 = x ∧ e.2.1 = dcost m x ∧ e.1 = dcost m x + h x
  gdom : ∀ x : N, dcontains m x = true → ∃ ap, DomPath succs m start x ap

/-- The static cover: at any invariant state, every goal walk from a
recorded node is overcut by some queue entry whose `f` stays below the
walk's bound. -/
theorem acover {start : N} {succs : N → List (N × Nat)} {h : N → Nat}
    {goalp : N → Bool} {q : List (Nat × (Nat × N))} {m : DMap N}
    {Cl : Finset N} (inv : AInv start succs h goalp q m Cl)
    (hadm : Admissible succs goalp h) :
    ∀ (r : Nat) (y gl : N), HReach succs y gl r → goalp gl = true →
      ∀ gy : Nat, dcontains m y = true → dcost m y ≤ gy →
      ∃ e ∈ q, e.1 ≤ gy + r := by
  intro r y gl hr
  induction hr with
  | refl =>
    intro hgl gy hcy hdy
    rename_i y'
    have hyCl : y' ∉ Cl := by
      intro hy
      rw [inv.clgoal y' hy] at hgl
      cases hgl
    obtain ⟨e, he, he2, he3, he4⟩ := inv.opencover y' hcy hyCl
    have hh : h y' = 0 :=
      Nat.le_zero.mp (hadm y' 0 ⟨y', hgl, WReach.refl y'⟩)
    refine ⟨e, he, ?_⟩
    rw [he4, hh]
    omega
  | head he hr ih =>
    rename_i a b c' w r'
    intro hgl gy hca hda
    by_cases haCl : a ∈ Cl
    · obtain ⟨hcb, hdb⟩ := inv.clrelax a haCl (b, w) he
      have hcb' : dcontains m b = true := hcb
      have hdb' : dcost m b ≤ dcost m a + w := hdb
      obtain ⟨e, he', hle⟩ := ih hgl (gy + w) hcb' (by omega)
      refine ⟨e, he', by omega⟩
    · obtain ⟨e, he', he2, he3, he4⟩ := inv.opencover a hca haCl
      have hha : h a ≤ w + r' :=
        hadm a (w + r') ⟨c', hgl, HReach_toW (HReach.head he hr)⟩
      refine ⟨e, he', ?_⟩
      rw [he4]
      omega

/-- Exhaustion: an invariant state with an empty queue certifies that no
goal is reachable. -/
theorem aexhaust {start : N} {succs : N → List (N × Nat)} {h : N → Nat}
    {goalp : N → Bool} {m : DMap N} {Cl : Finset N}
    (inv : AInv start succs h goalp [] m Cl) :
    ∀ g : Nat, ¬GoalCostFrom succs goalp start g := by
  have hAllCl : ∀ x : N, dcontains m x = true → x ∈ Cl := by
    intro x hx
    by_contra hxCl
    obtain ⟨e, he, -⟩ := inv.opencover x hx hxCl
    cases he
  have hclosed : ∀ (g : Nat) (b : N), WReach succs start b g →
      dcontains m b = true := by
    intro g b hw
    induction hw with
    | refl => exact inv.startm.1
    | tail hw hm ih =>
      rename_i b' c' g' w
      exact (inv.clrelax b' (hAllCl b' ih) _ hm).1
  rintro g ⟨gl, hgl, hw⟩
  have hgc := hAllCl gl (hclosed g gl hw)
  rw [inv.clgoal gl hgc] at hgl
  cases hgl

/-- A stale pop preserves the invariant. -/
theorem astar_stale {start : N} {succs : N → List (N × Nat)} {h : N → Nat}
    {goalp : N → Bool} {q q' : List (Nat × (Nat × N))} {m : DMap N}
    {Cl : Finset N} {f g : Nat} {n : N}
    (inv : AInv start succs h goalp q m Cl)
    (hpop : popMin q = some ((f, (g, n)), q'))
    (hstale : dcost m n < g) : AInv start succs h goalp q' m Cl := by
  refine ⟨fun e he => inv.qmem e (popMin_rest_subset hpop e he), inv.mreachc,
    inv.startm, inv.clmem, inv.clrelax, inv.clgoal, ?_, inv.gdom⟩
  intro x hx hxCl
  obtain ⟨e, he, he2, he3, he4⟩ := inv.opencover x hx hxCl
  refine ⟨e, popMin_mem_rest hpop he ?_, he2, he3, he4⟩
  intro hee
  rw [hee] at he2 he3
  have hxn : n = x := he2
  rw [hxn] at hstale
  have hgx : g = dcost m x := he3
  omega

/-- Expanding a non-stale, non-goal pop preserves the invariant at the
re-filtered closed set and strictly shrinks the measure. -/
theorem astar_expand [Fintype N] {start : N} {succs : N → List (N × Nat)}
    {h : N → Nat} {goalp : N → Bool} {q q' : List (Nat × (Nat × N))}
    {m : DMap N} {Cl : Finset N} {f g : Nat} {n : N}
    (inv : AInv start succs h goalp q m Cl)
    (hpop : popMin q = some ((f, (g, n)), q'))
    (hgoal : goalp n = false)
    (hstale : ¬ dcost m n < g) :
    ∀ t : List (Nat × (Nat × N)) × DMap N, arelax h n g (succs n) q' m = t →
      AInv start succs h goalp t.1 t.2
        ((insert n Cl).filter (fun x => dcost t.2 x = dcost m x)) ∧
      2 * potSum succs t.2 + t.1.length < 2 * potSum succs m + q.length := by
  intro t ht
  obtain ⟨hcn, hgn, hfn, hwn⟩ := inv.qmem _ (popMin_mem hpop)
  have hcn' : dcontains m n = true := hcn
  have hdn : dcost m n = g := by
    have hle : dcost m n ≤ g := hgn
    omega
  have hwn' : WReach succs start n g := hwn
  have hq' : ∀ e ∈ q', dcontains m e.2.2 = true ∧ dcost m e.2.2 ≤ e.2.1 ∧
      e.1 = e.2.1 + h e.2.2 ∧ WReach succs start e.2.2 e.2.1 :=
    fun e he => inv.qmem e (popMin_rest_subset hpop e he)
  obtain ⟨j1, j2, j3, j4, j5, j6, j7, j8, j9⟩ :=
    arelax_spec (succs n) q' m (fun sw hsw => hsw) hcn' hdn hwn' hq'
      inv.mreachc inv.gdom t ht
  have hdn' : dcost t.2 n = dcost m n := by
    unfold dcost
    rw [j8]
  have hlen : q.length = q'.length + 1 := by
    have := (popMin_perm hpop).length_eq
    simp only [List.length_cons] at this
    omega
  constructor
  · refine ⟨j2, j6, ?_, ?_, ?_, ?_, ?_, j7⟩
    · obtain ⟨hs1, hs2⟩ := inv.startm
      obtain ⟨k1, k2⟩ := j3 start hs1
      rw [hs2] at k2
      exact ⟨k1, Nat.le_zero.mp k2⟩
    · intro x hx
      rw [Finset.mem_filter] at hx
      rcases Finset.mem_insert.mp hx.1 with rfl | hxCl
      · exact (j3 x hcn').1
      · exact (j3 x (inv.clmem x hxCl)).1
    · intro x hx sw hsw
      rw [Finset.mem_filter] at hx
      obtain ⟨hx1, hx2⟩ := hx
      rcases Finset.mem_insert.mp hx1 with rfl | hxCl
      · obtain ⟨k1, k2⟩ := j4 sw hsw
        refine ⟨k1, ?_⟩
        rw [hx2, hdn]
        exact k2
      · obtain ⟨k1, k2⟩ := inv.clrelax x hxCl sw hsw
        obtain ⟨k3, k4⟩ := j3 sw.1 k1
        refine ⟨k3, ?_⟩
        rw [hx2]
        omega
    · intro x hx
      rw [Finset.mem_filter] at hx
      rcases Finset.mem_insert.mp hx.1 with rfl | hxCl
      · exact hgoal
      · exact inv.clgoal x hxCl
    · intro x hx hxCl
      rcases j5 x hx with ⟨k1, k2⟩ | hr
      · have hxnotin : x ∉ insert n Cl := by
          intro hxin
          exact hxCl (Finset.mem_filter.mpr ⟨hxin, k2⟩)
        have hxn : x ≠ n := by
          intro hxn
          exact hxnotin (hxn ▸ Finset.mem_insert_self n Cl)
        have hxCl' : x ∉ Cl :=
          fun hc => hxnotin (Finset.mem_insert_of_mem hc)
        obtain ⟨e, he, he2, he3, he4⟩ := inv.opencover x k1 hxCl'
        have hene : e ≠ (f, (g, n)) := by
          intro hee
          rw [hee] at he2
          exact hxn he2.symm
        refine ⟨e, j1 e (popMin_mem_rest hpop he hene), he2, ?_, ?_⟩
        · rw [k2]
          exact he3
        · rw [k2]
          exact he4
      · exact hr
  · omega

/-- The A* loop, run from any invariant state with enough fuel: `none`
certifies that no goal is reachable, and any answer's cost is the least
cost of all goal walks from the start. -/
theorem astarLoop_run [Fintype N] {start : N} {succs : N → List (N × Nat)}
    {h : N → Nat} {goalp : N → Bool} (hadm : Admissible succs goalp h) :
    ∀ (fuel : Nat) (q : List (Nat × (Nat × N))) (m : DMap N) (Cl : Finset N),
      AInv start succs h goalp q m Cl →
      2 * potSum succs m + q.length < fuel →
      (astarLoop succs h goalp fuel q m = none →
        ∀ g : Nat, ¬GoalCostFrom succs goalp start g) ∧
      (∀ (p : List N) (c : Nat),
        astarLoop succs h goalp fuel q m = some (p, c) →
        GoalCostFrom succs goalp start c ∧
        ∀ g : Nat, GoalCostFrom succs goalp start g → c ≤ g) := by
  intro fuel
  induction fuel with
  | zero =>
    intro q m Cl inv hfuel
    omega
  | succ fuel ih =>
    intro q m Cl inv hfuel
    cases hpop : popMin q with
    | none =>
      have hq : q = [] := popMin_eq_none hpop
      subst hq
      have hres : astarLoop succs h goalp (fuel + 1) [] m = none := by
        unfold astarLoop
        rw [hpop]
      rw [hres]
      constructor
      · intro hres2 g
        exact aexhaust inv g
      · intro p c hc
        cases hc
    | some er =>
      obtain ⟨e, q'⟩ := er
      obtain ⟨f, gn⟩ := e
      obtain ⟨g, n⟩ := gn
      by_cases hgoal : goalp n = true
      · have hres : astarLoop succs h goalp (fuel + 1) q m =
            some (build_path m n, g) := by
          unfold astarLoop
          rw [hpop]
          simp only [hgoal, reduceIte]
        rw [hres]
        constructor
        · intro hres2
          cases hres2
        · intro p c hc
          have hcg : c = g := by
            have := Option.some.inj hc
            exact (congrArg Prod.snd this).symm
          rw [hcg]
          obtain ⟨hcn, hgn, hfn, hwn⟩ := inv.qmem _ (popMin_mem hpop)
          have hwn' : WReach succs start n g := hwn
          constructor
          · exact ⟨n, hgoal, hwn'⟩
          · rintro g' ⟨gl, hgl, hw⟩
            obtain ⟨e', he', hle⟩ := acover inv hadm g' start gl
              (WReach_toH hw) hgl 0 inv.startm.1 (le_of_eq inv.startm.2)
            have hmin : f ≤ e'.1 := popMin_min hpop e' he'
            have hfg : f = g + h n := hfn
            omega
      · have hgoal' : goalp n = false := by
          cases hgb : goalp n
          · rfl
          · exact absurd hgb hgoal
        by_cases hstale : dcost m n < g
        · have hres : astarLoop succs h goalp (fuel + 1) q m =
              astarLoop succs h goalp fuel q' m := by
            conv_lhs => unfold astarLoop
            rw [hpop]
            simp only [hgoal', Bool.false_eq_true, reduceIte, if_pos hstale]
          rw [hres]
          have hlen : q.length = q'.length + 1 := by
            have := (popMin_perm hpop).length_eq
            simp only [List.length_cons] at this
            omega
          exact ih q' m Cl (astar_stale inv hpop hstale) (by omega)
        · have hres : astarLoop succs h goalp (fuel + 1) q m =
              astarLoop succs h goalp fuel (arelax h n g (succs n) q' m).1
                (arelax h n g (succs n) q' m).2 := by
            conv_lhs => unfold astarLoop
            rw [hpop]
            simp only [hgoal', Bool.false_eq_true, reduceIte, if_neg hstale]
          rw [hres]
          obtain ⟨inv', hmeas⟩ :=
            astar_expand inv hpop hgoal' hstale (arelax h n g (succs n) q' m) rfl
          exact ih _ _ _ inv' (by omega)

/-- What `astar` certifies from the seeded state. -/
theorem astar_spec [Fintype N] (start : N) (succs : N → List (N × Nat))
    (h : N → Nat) (goalp : N → Bool) (hadm : Admissible succs goalp h) :
    (astar start succs h goalp = none →
      ∀ g : Nat, ¬GoalCostFrom succs goalp start g) ∧
    (∀ (p : List N) (c : Nat), astar start succs h goalp = some (p, c) →
      GoalCostFrom succs goalp start c ∧
      ∀ g : Nat, GoalCostFrom succs goalp start g → c ≤ g) := by
  have hc0 : dcontains [(start, ((none : Option N), 0))] start = true := by
    unfold dcontains dlookup
    rw [List.find?_cons_of_pos _ (by simp)]
    rfl
  have hd0 : dcost [(start, ((none : Option N), 0))] start = 0 := by
    unfold dcost dlookup
    rw [List.find?_cons_of_pos _ (by simp)]
    rfl
  have honly : ∀ x : N, dcontains [(start, ((none : Option N), 0))] x = true →
      x = start := by
    intro x hx
    by_contra hxs
    unfold dcontains dlookup at hx
    rw [List.find?_cons_of_neg _ (by simp [Ne.symm hxs])] at hx
    cases hx
  have inv : AInv start succs h goalp [(h start, (0, start))]
      [(start, ((none : Option N), 0))] ∅ := by
    refine ⟨?_, ?_, ⟨hc0, hd0⟩, ?_, ?_, ?_, ?_, ?_⟩
    · intro e he
      rw [List.mem_singleton] at he
      subst he
      refine ⟨hc0, by rw [hd0], by rw [Nat.zero_add], WReach.refl start⟩
    · intro x hx
      have hxs := honly x hx
      subst hxs
      rw [hd0]
      exact WReach.refl x
    · intro x hx
      exact absurd hx (Finset.not_mem_empty x)
    · intro x hx
      exact absurd hx (Finset.not_mem_empty x)
    · intro x hx
      exact absurd hx (Finset.not_mem_empty x)
    · intro x hx hxCl
      have hxs := honly x hx
      subst hxs
      refine ⟨(h x, (0, x)), List.mem_singleton_self _, rfl, by rw [hd0], ?_⟩
      rw [hd0, Nat.zero_add]
    · intro x hx
      have hxs := honly x hx
      subst hxs
      refine ⟨[(x, 0)], ?_, ?_, ?_, ?_, 0, rfl⟩
      · rfl
      · exact List.nodup_singleton _
      · intro pr hpr
        rw [List.mem_singleton] at hpr
        subst hpr
        exact ⟨hc0, by rw [hd0]⟩
      · exact List.chain'_singleton _
  have hpot : potSum succs [(start, ((none : Option N), 0))] ≤
      Fintype.card N * (totW succs + 1) := by
    unfold potSum
    calc ∑ x : N, (if dcontains [(start, ((none : Option N), 0))] x then
          dcost [(start, ((none : Option N), 0))] x else totW succs + 1)
        ≤ ∑ _x : N, (totW succs + 1) := by
          refine Finset.sum_le_sum ?_
          intro x hx
          by_cases hcx : dcontains [(start, ((none : Option N), 0))] x = true
          · rw [if_pos hcx]
            have hxs := honly x hcx
            subst hxs
            rw [hd0]
            omega
          · rw [if_neg hcx]
      _ = Fintype.card N * (totW succs + 1) := by
          rw [Finset.sum_const, Finset.card_univ, smul_eq_mul]
  unfold astar
  refine astarLoop_run hadm (astarFuel succs) _ _ ∅ inv ?_
  unfold astarFuel
  simp only [List.length_singleton]
  have hmul : 2 * Fintype.card N * (totW succs + 1) =
      2 * (Fintype.card N * (totW succs + 1)) := by ring
  omega

/-! ### The bounded depth-first probe of IDA* -/

/-- Every cut-off the probe fold reports exceeds the threshold, provided
each branch's cut-offs do. -/
theorem dfsFold_exceed_gt {pred : N × Nat → Bool}
    {rec : N × Nat → Sum (List N × Nat) (Option Nat)} {t : Nat} :
    ∀ l : List (N × Nat),
      (∀ sw ∈ l, pred sw = false → ∀ f', rec sw = Sum.inr (some f') → t < f') →
      ∀ f', l.foldr (fun sw acc => if pred sw then acc else dfsCombine (rec sw) acc)
        (Sum.inr none) = Sum.inr (some f') → t < f' := by
  intro l
  induction l with
  | nil =>
    intro hl f' hres
    simp at hres
  | cons sw rest ih =>
    intro hl f' hres
    have hl' : ∀ sw' ∈ rest, pred sw' = false → ∀ f', rec sw' = Sum.inr (some f') →
        t < f' := fun sw' hsw' => hl sw' (List.mem_cons_of_mem _ hsw')
    rw [List.foldr_cons] at hres
    by_cases hp : pred sw = true
    · rw [if_pos hp] at hres
      exact ih hl' f' hres
    · have hp' : pred sw = false := by
        cases hpb : pred sw
        · rfl
        · exact absurd hpb hp
      rw [if_neg hp] at hres
      cases hrec : rec sw with
      | inl r =>
        rw [hrec] at hres
        unfold dfsCombine at hres
        cases hres
      | inr o1 =>
        rw [hrec] at hres
        cases hacc : rest.foldr
            (fun sw acc => if pred sw then acc else dfsCombine (rec sw) acc)
            (Sum.inr none) with
        | inl r =>
          rw [hacc] at hres
          unfold dfsCombine at hres
          cases hres
        | inr o2 =>
          rw [hacc] at hres
          unfold dfsCombine at hres
          have hmin : minO o1 o2 = some f' := by
            injection hres
          cases o1 with
          | none =>
            cases o2 with
            | none => cases hmin
            | some b =>
              have hb : b = f' := by
                unfold minO at hmin
                injection hmin
              rw [← hb] at *
              exact ih hl' b hacc
          | some a =>
            cases o2 with
            | none =>
              have ha : a = f' := by
                unfold minO at hmin
                injection hmin
              rw [← ha]
              exact hl sw (List.mem_cons_self _ _) hp' a hrec
            | some b =>
              have hab : min a b = f' := by
                unfold minO at hmin
                injection hmin
              have h1 : t < a := hl sw (List.mem_cons_self _ _) hp' a hrec
              have h2 : t < b := ih hl' b hacc
              omega

/-- Every cut-off the probe fold reports stays below the global bound,
provided each branch's cut-offs do. -/
theorem dfsFold_exceed_le {pred : N × Nat → Bool}
    {rec : N × Nat → Sum (List N × Nat) (Option Nat)} {B : Nat} :
    ∀ l : List (N × Nat),
      (∀ sw ∈ l, pred sw = false → ∀ f', rec sw = Sum.inr (some f') → f' ≤ B) →
      ∀ f', l.foldr (fun sw acc => if pred sw then acc else dfsCombine (rec sw) acc)
        (Sum.inr none) = Sum.inr (some f') → f' ≤ B := by
  intro l
  induction l with
  | nil =>
    intro hl f' hres
    simp at hres
  | cons sw rest ih =>
    intro hl f' hres
    have hl' : ∀ sw' ∈ rest, pred sw' = false → ∀ f', rec sw' = Sum.inr (some f') →
        f' ≤ B := fun sw' hsw' => hl sw' (List.mem_cons_of_mem _ hsw')
    rw [List.foldr_cons] at hres
    by_cases hp : pred sw = true
    · rw [if_pos hp] at hres
      exact ih hl' f' hres
    · have hp' : pred sw = false := by
        cases hpb : pred sw
        · rfl
        · exact absurd hpb hp
      rw [if_neg hp] at hres
      cases hrec : rec sw with
      | inl r =>
        rw [hrec] at hres
        unfold dfsCombine at hres
        cases hres
      | inr o1 =>
        rw [hrec] at hres
        cases hacc : rest.foldr
            (fun sw acc => if pred sw then acc else dfsCombine (rec sw) acc)
            (Sum.inr none) with
        | inl r =>
          rw [hacc] at hres
          unfold dfsCombine at hres
          cases hres
        | inr o2 =>
          rw [hacc] at hres
          unfold dfsCombine at hres
          have hmin : minO o1 o2 = some f' := by
            injection hres
          cases o1 with
          | none =>
            cases o2 with
            | none => cases hmin
            | some b =>
              have hb : b = f' := by
                unfold minO at hmin
                injection hmin
              rw [← hb] at *
              exact ih hl' b hacc
          | some a =>
            cases o2 with
            | none =>
              have ha : a = f' := by
                unfold minO at hmin
                injection hmin
              rw [← ha]
              exact hl sw (List.mem_cons_self _ _) hp' a hrec
            | some b =>
              have hab : min a b = f' := by
                unfold minO at hmin
                injection hmin
              have h1 : a ≤ B := hl sw (List.mem_cons_self _ _) hp' a hrec
              omega

/-- Every find the probe fold reports comes from some branch. -/
theorem dfsFold_found {pred : N × Nat → Bool}
    {rec : N × Nat → Sum (List N × Nat) (Option Nat)}
    {P : List N × Nat → Prop} :
    ∀ l : List (N × Nat),
      (∀ sw ∈ l, pred sw = false → ∀ pc, rec sw = Sum.inl pc → P pc) →
      ∀ pc, l.foldr (fun sw acc => if pred sw then acc else dfsCombine (rec sw) acc)
        (Sum.inr none) = Sum.inl pc → P pc := by
  intro l
  induction l with
  | nil =>
    intro hl pc hres
    simp at hres
  | cons sw rest ih =>
    intro hl pc hres
    have hl' : ∀ sw' ∈ rest, pred sw' = false → ∀ pc, rec sw' = Sum.inl pc →
        P pc := fun sw' hsw' => hl sw' (List.mem_cons_of_mem _ hsw')
    rw [List.foldr_cons] at hres
    by_cases hp : pred sw = true
    · rw [if_pos hp] at hres
      exact ih hl' pc hres
    · have hp' : pred sw = false := by
        cases hpb : pred sw
        · rfl
        · exact absurd hpb hp
      rw [if_neg hp] at hres
      cases hrec : rec sw with
      | inl r =>
        rw [hrec] at hres
        unfold dfsCombine at hres
        have hr : r = pc := by
          injection hres
        rw [← hr]
        exact hl sw (List.mem_cons_self _ _) hp' r hrec
      | inr o1 =>
        rw [hrec] at hres
        cases hacc : rest.foldr
            (fun sw acc => if pred sw then acc else dfsCombine (rec sw) acc)
            (Sum.inr none) with
        | inl r =>
          rw [hacc] at hres
          unfold dfsCombine at hres
          have hr : r = pc := by
            injection hres
          rw [← hr]
          exact ih hl' r hacc
        | inr o2 =>
          rw [hacc] at hres
          unfold dfsCombine at hres
          cases hres

/-- If some unpruned branch finds a goal or cuts off below the bound, so
does the whole fold. -/
theorem dfsFold_progress {pred : N × Nat → Bool}
    {rec : N × Nat → Sum (List N × Nat) (Option Nat)} {B : Nat} :
    ∀ (l : List (N × Nat)) (sw₀ : N × Nat), sw₀ ∈ l → pred sw₀ = false →
      ((∃ pc, rec sw₀ = Sum.inl pc) ∨
       (∃ f', rec sw₀ = Sum.inr (some f') ∧ f' ≤ B)) →
      (∃ pc, l.foldr (fun sw acc => if pred sw then acc else dfsCombine (rec sw) acc)
        (Sum.inr none) = Sum.inl pc) ∨
      (∃ f'', l.foldr (fun sw acc => if pred sw then acc else dfsCombine (rec sw) acc)
        (Sum.inr none) = Sum.inr (some f'') ∧ f'' ≤ B) := by
  intro l
  induction l with
  | nil =>
    intro sw₀ hmem
    exact absurd hmem (List.not_mem_nil sw₀)
  | cons sw rest ih =>
    intro sw₀ hmem hpred hbr
    rw [List.foldr_cons]
    rcases List.mem_cons.mp hmem with rfl | hmem'
    · rw [if_neg (by rw [hpred]; exact fun hc => by cases hc)]
      rcases hbr with ⟨pc, hpc⟩ | ⟨f', hf', hle⟩
      · rw [hpc]
        exact Or.inl ⟨pc, rfl⟩
      · rw [hf']
        cases hacc : rest.foldr
            (fun sw acc => if pred sw then acc else dfsCombine (rec sw) acc)
            (Sum.inr none) with
        | inl r =>
          exact Or.inl ⟨r, rfl⟩
        | inr o2 =>
          cases o2 with
          | none => exact Or.inr ⟨f', rfl, hle⟩
          | some b =>
            refine Or.inr ⟨min f' b, rfl, ?_⟩
            omega
    · by_cases hp : pred sw = true
      · rw [if_pos hp]
        exact ih sw₀ hmem' hpred hbr
      · rw [if_neg hp]
        rcases ih sw₀ hmem' hpred hbr with ⟨pc, hpc⟩ | ⟨f'', hf'', hle⟩
        · rw [hpc]
          cases hrec : rec sw with
          | inl r => exact Or.inl ⟨r, rfl⟩
          | inr o1 => exact Or.inl ⟨pc, rfl⟩
        · rw [hf'']
          cases hrec : rec sw with
          | inl r => exact Or.inl ⟨r, rfl⟩
          | inr o1 =>
            cases o1 with
            | none => exact Or.inr ⟨f'', rfl, hle⟩
            | some a =>
              refine Or.inr ⟨min a f'', rfl, ?_⟩
              omega

/-- A goal walk from `n` whose nodes after `n` all keep `f = g + h` within
the bound `B`. -/
inductive SGoal (succs : N → List (N × Nat)) (goalp : N → Bool) (h : N → Nat)
    (B : Nat) : N → Nat → List N → Prop
  | nil {n : N} {g : Nat} : goalp n = true → SGoal succs goalp h B n g []
  | cons {n y : N} {g w : Nat} {ys : List N} : (y, w) ∈ succs n →
      g + w + h y ≤ B → SGoal succs goalp h B y (g + w) ys →
      SGoal succs goalp h B n g (y :: ys)

/-- Every cut-off the probe reports exceeds the threshold. -/
theorem idaDfs_exceed_gt {succs : N → List (N × Nat)} {h : N → Nat}
    {goalp : N → Bool} :
    ∀ (fuel : Nat) (path : List N) (n : N) (g t f' : Nat),
      idaDfs succs h goalp fuel path n g t = Sum.inr (some f') → t < f' := by
  intro fuel
  induction fuel with
  | zero =>
    intro path n g t f' hres
    simp [idaDfs] at hres
  | succ fuel ih =>
    intro path n g t f' hres
    unfold idaDfs at hres
    by_cases h1 : t < g + h n
    · rw [if_pos h1] at hres
      have h2 : some (g + h n) = some f' := by injection hres
      have h3 := Option.some.inj h2
      omega
    · rw [if_neg h1] at hres
      by_cases h2 : goalp n = true
      · rw [if_pos h2] at hres
        cases hres
      · rw [if_neg h2] at hres
        exact dfsFold_exceed_gt (succs n)
          (fun sw hsw hpred f'' hrec => ih (n :: path) sw.1 (g + sw.2) t f'' hrec)
          f' hres

/-- Every found result is the cost of a goal walk and stays within the
threshold. -/
theorem idaDfs_found {succs : N → List (N × Nat)} {h : N → Nat}
    {goalp : N → Bool} {start : N} :
    ∀ (fuel : Nat) (path : List N) (n : N) (g t : Nat),
      WReach succs start n g →
      ∀ (p : List N) (c : Nat),
        idaDfs succs h goalp fuel path n g t = Sum.inl (p, c) →
        (∃ gl, goalp gl = true ∧ WReach succs start gl c) ∧ c ≤ t := by
  intro fuel
  induction fuel with
  | zero =>
    intro path n g t hw p c hres
    simp [idaDfs] at hres
  | succ fuel ih =>
    intro path n g t hw p c hres
    unfold idaDfs at hres
    by_cases h1 : t < g + h n
    · rw [if_pos h1] at hres
      cases hres
    · rw [if_neg h1] at hres
      by_cases h2 : goalp n = true
      · rw [if_pos h2] at hres
        have h3 := Sum.inl.inj hres
        have hc : g = c := congrArg Prod.snd h3
        subst hc
        exact ⟨⟨n, h2, hw⟩, by omega⟩
      · rw [if_neg h2] at hres
        have hP := dfsFold_found (P := fun pc =>
            (∃ gl, goalp gl = true ∧ WReach succs start gl pc.2) ∧ pc.2 ≤ t)
          (succs n)
          (fun sw hsw hpred pc hrec =>
            ih (n :: path) sw.1 (g + sw.2) t (WReach.tail hw hsw) pc.1 pc.2
              (by exact hrec))
          (p, c) hres
        exact hP

/-- Every cut-off the probe reports stays below the graph's total weight
plus the largest heuristic value, provided the accumulated cost is covered
by the current path's outgoing weights. -/
theorem idaDfs_exceed_le [Fintype N] {succs : N → List (N × Nat)}
    {h : N → Nat} {goalp : N → Bool} :
    ∀ (fuel : Nat) (path : List N) (n : N) (g t : Nat),
      (n :: path).Nodup →
      g ≤ (path.map (outW succs)).sum →
      ∀ f', idaDfs succs h goalp fuel path n g t = Sum.inr (some f') →
        f' ≤ totW succs + hMax h := by
  intro fuel
  induction fuel with
  | zero =>
    intro path n g t hnd hg f' hres
    simp [idaDfs] at hres
  | succ fuel ih =>
    intro path n g t hnd hg f' hres
    unfold idaDfs at hres
    by_cases h1 : t < g + h n
    · rw [if_pos h1] at hres
      have h2 : some (g + h n) = some f' := by injection hres
      have h3 := Option.some.inj h2
      have hb1 : (path.map (outW succs)).sum ≤ totW succs :=
        nodup_outW_bound (List.nodup_cons.mp hnd).2
      have hb2 : h n ≤ hMax h := Finset.le_sup (Finset.mem_univ n)
      omega
    · rw [if_neg h1] at hres
      by_cases h2 : goalp n = true
      · rw [if_pos h2] at hres
        cases hres
      · rw [if_neg h2] at hres
        refine dfsFold_exceed_le (succs n) ?_ f' hres
        intro sw hsw hpred f'' hrec
        have hnotin : sw.1 ∉ n :: path := of_decide_eq_false hpred
        have hnd' : (sw.1 :: n :: path).Nodup :=
          List.nodup_cons.mpr ⟨hnotin, hnd⟩
        have hwle : sw.2 ≤ outW succs n := by
          unfold outW
          exact List.single_le_sum (fun x hx => Nat.zero_le x) sw.2
            (List.mem_map.mpr ⟨sw, hsw, rfl⟩)
        have hg' : g + sw.2 ≤ ((n :: path).map (outW succs)).sum := by
          rw [List.map_cons, List.sum_cons]
          omega
        exact ih (n :: path) sw.1 (g + sw.2) t hnd' hg' f'' hrec

/-- Along a within-bound goal walk disjoint from the current path, the
probe either finds a goal or cuts off within the bound. -/
theorem idaDfs_progress {succs : N → List (N × Nat)} {h : N → Nat}
    {goalp : N → Bool} {B : Nat} :
    ∀ (ys : List N) (fuel : Nat) (path : List N) (n : N) (g t : Nat),
      ys.length < fuel →
      (∀ y ∈ ys, ¬ y ∈ n :: path) →
      ys.Nodup →
      SGoal succs goalp h B n g ys →
      g + h n ≤ B →
      (∃ pc, idaDfs succs h goalp fuel path n g t = Sum.inl pc) ∨
      (∃ f', idaDfs succs h goalp fuel path n g t = Sum.inr (some f') ∧
        f' ≤ B) := by
  intro ys
  induction ys with
  | nil =>
    intro fuel path n g t hfuel hdisj hnd hsg hB
    cases fuel with
    | zero => omega
    | succ fuel =>
      by_cases h1 : t < g + h n
      · refine Or.inr ⟨g + h n, ?_, hB⟩
        unfold idaDfs
        rw [if_pos h1]
      · have hgoal : goalp n = true := by
          cases hsg with
          | nil hg => exact hg
        refine Or.inl ⟨((n :: path).reverse, g), ?_⟩
        unfold idaDfs
        rw [if_neg h1, if_pos hgoal]
  | cons y ys' ih =>
    intro fuel path n g t hfuel hdisj hnd hsg hB
    cases fuel with
    | zero => omega
    | succ fuel =>
      by_cases h1 : t < g + h n
      · refine Or.inr ⟨g + h n, ?_, hB⟩
        unfold idaDfs
        rw [if_pos h1]
      · by_cases h2 : goalp n = true
        · refine Or.inl ⟨((n :: path).reverse, g), ?_⟩
          unfold idaDfs
          rw [if_neg h1, if_pos h2]
        · cases hsg with
          | cons hedge hbound hsg' =>
            rename_i w
            have hred : idaDfs succs h goalp (fuel + 1) path n g t =
                (succs n).foldr
                  (fun sw acc => if decide (sw.1 ∈ n :: path) then acc
                    else dfsCombine
                      (idaDfs succs h goalp fuel (n :: path) sw.1 (g + sw.2) t)
                      acc)
                  (Sum.inr none) := by
              conv_lhs => unfold idaDfs
              rw [if_neg h1, if_neg h2]
            rw [hred]
            have hpred : decide ((y, w).1 ∈ n :: path) = false :=
              decide_eq_false (hdisj y (List.mem_cons_self _ _))
            have hbr := ih fuel (n :: path) y (g + w) t
              (by simp only [List.length_cons] at hfuel; omega)
              (by
                intro z hz
                intro hzin
                rcases List.mem_cons.mp hzin with rfl | hzin'
                · exact (List.nodup_cons.mp hnd).1 hz
                · exact hdisj z (List.mem_cons_of_mem _ hz) hzin')
              (List.nodup_cons.mp hnd).2 hsg' hbound
            exact dfsFold_progress (succs n) (y, w) hedge hpred hbr

/-- A goal walk within the bound gives an `SGoal` under an admissible
heuristic. -/
theorem SGoal_of_HPath {succs : N → List (N × Nat)} {h : N → Nat}
    {goalp : N → Bool} {B : Nat} (hadm : Admissible succs goalp h) :
    ∀ (ys : List N) (n gl : N) (r : Nat), HPath succs n gl r ys →
      goalp gl = true → ∀ g : Nat, g + r ≤ B →
      SGoal succs goalp h B n g ys := by
  intro ys n gl r hp
  induction hp with
  | refl =>
    intro hgl g hle
    exact SGoal.nil hgl
  | head he hp ih =>
    rename_i a b c w r' ys'
    intro hgl g hle
    refine SGoal.cons he ?_ (ih hgl (g + w) (by omega))
    have hha : h b ≤ r' :=
      hadm b r' ⟨c, hgl, HReach_toW (HPath_toH hp)⟩
    omega

/-- A nonempty set of goal costs has a least element. -/
theorem exists_least_goalCost {succs : N → List (N × Nat)} {goalp : N → Bool}
    {start : N} (hne : ∃ g : Nat, GoalCostFrom succs goalp start g) :
    ∃ Cs : Nat, GoalCostFrom succs goalp start Cs ∧
      ∀ g : Nat, GoalCostFrom succs goalp start g → Cs ≤ g := by
  obtain ⟨g₀, hg₀⟩ := hne
  obtain ⟨Cs, hCs, hmin⟩ := wellFounded_lt.has_min
    {g : Nat | GoalCostFrom succs goalp start g} ⟨g₀, hg₀⟩
  exact ⟨Cs, hCs, fun g hg => not_lt.mp (hmin g hg)⟩

/-- The least goal cost is met by a duplicate-free within-bound goal walk,
and stays below the graph's total weight. -/
theorem optimal_simple [Fintype N] {succs : N → List (N × Nat)} {h : N → Nat}
    {goalp : N → Bool} {start : N} (hadm : Admissible succs goalp h)
    {Cs : Nat} (hmem : GoalCostFrom succs goalp start Cs)
    (hlow : ∀ g : Nat, GoalCostFrom succs goalp start g → Cs ≤ g) :
    ∃ (gl : N) (ys : List N), goalp gl = true ∧ (start :: ys).Nodup ∧
      SGoal succs goalp h Cs start 0 ys ∧ Cs ≤ totW succs := by
  obtain ⟨gl, hgl, hw⟩ := hmem
  obtain ⟨ys₀, hp₀⟩ := HReach_toPath (WReach_toH hw)
  obtain ⟨r₁, ys₁, hle, hp₁, hnd⟩ := HPath_simplify hp₀
  have hr₁ : GoalCostFrom succs goalp start r₁ :=
    ⟨gl, hgl, HReach_toW (HPath_toH hp₁)⟩
  have hr₁Cs : r₁ = Cs := le_antisymm hle (hlow r₁ hr₁)
  subst hr₁Cs
  refine ⟨gl, ys₁, hgl, hnd, ?_, HPath_cost_bound hp₁ hnd⟩
  exact SGoal_of_HPath hadm ys₁ start gl r₁ hp₁ hgl 0 (by omega)

/-- With a reachable goal, every threshold iteration at or below the least
goal cost answers exactly that cost. -/
theorem idastarAux_goal [Fintype N] {start : N} {succs : N → List (N × Nat)}
    {h : N → Nat} {goalp : N → Bool} (hadm : Admissible succs goalp h)
    {Cs : Nat} (hmem : GoalCostFrom succs goalp start Cs)
    (hlow : ∀ g : Nat, GoalCostFrom succs goalp start g → Cs ≤ g) :
    ∀ (fuel t : Nat), t ≤ Cs → totW succs + hMax h + 1 - t < fuel →
      ∃ p : List N, idastarAux succs h goalp start fuel t = some (p, Cs) := by
  obtain ⟨gl, ys, hgl, hnd, hsg, hCsW⟩ := optimal_simple hadm hmem hlow
  have hroot : (0 : Nat) + h start ≤ Cs := by
    have := hadm start Cs hmem
    omega
  intro fuel
  induction fuel with
  | zero =>
    intro t ht hfuel
    have hW : t ≤ totW succs := le_trans ht hCsW
    omega
  | succ fuel ih =>
    intro t ht hfuel
    have hlen : ys.length < Fintype.card N + 1 := by
      have hcard := List.Nodup.length_le_card hnd
      simp only [List.length_cons] at hcard
      omega
    have hdisj : ∀ y ∈ ys, ¬ y ∈ start :: ([] : List N) := by
      intro y hy hyin
      rcases List.mem_cons.mp hyin with rfl | hyin'
      · exact (List.nodup_cons.mp hnd).1 hy
      · cases hyin'
    have hbr := idaDfs_progress (B := Cs) ys (Fintype.card N + 1) [] start 0 t
      hlen hdisj (List.nodup_cons.mp hnd).2 hsg hroot
    rcases hbr with ⟨pc, hpc⟩ | ⟨f', hf', hfle⟩
    · obtain ⟨p, c⟩ := pc
      obtain ⟨⟨gl', hgl', hw'⟩, hct⟩ :=
        idaDfs_found (Fintype.card N + 1) [] start 0 t
          (WReach.refl start) p c hpc
      have hcCs : c = Cs := le_antisymm (le_trans hct ht) (hlow c ⟨gl', hgl', hw'⟩)
      refine ⟨p, ?_⟩
      conv_lhs => unfold idastarAux
      rw [hpc, hcCs]
    · have hgt : t < f' := idaDfs_exceed_gt (Fintype.card N + 1) [] start 0 t f' hf'
      obtain ⟨p, hp⟩ := ih f' hfle (by omega)
      refine ⟨p, ?_⟩
      conv_lhs => unfold idastarAux
      rw [hf']
      exact hp

/-- With no reachable goal, every threshold iteration reports failure. -/
theorem idastarAux_nogoal [Fintype N] {start : N} {succs : N → List (N × Nat)}
    {h : N → Nat} {goalp : N → Bool}
    (hno : ∀ g : Nat, ¬GoalCostFrom succs goalp start g) :
    ∀ (fuel t : Nat), t ≤ totW succs + hMax h →
      totW succs + hMax h - t < fuel →
      idastarAux succs h goalp start fuel t = none := by
  intro fuel
  induction fuel with
  | zero =>
    intro t ht hfuel
    omega
  | succ fuel ih =>
    intro t ht hfuel
    cases hres : idaDfs succs h goalp (Fintype.card N + 1) [] start 0 t with
    | inl pc =>
      obtain ⟨p, c⟩ := pc
      have hfound := idaDfs_found (Fintype.card N + 1) [] start 0 t
        (WReach.refl start) p c hres
      exact absurd hfound.1 (hno c)
    | inr o =>
      cases o with
      | none =>
        conv_lhs => unfold idastarAux
        rw [hres]
      | some f' =>
        have hgt := idaDfs_exceed_gt (Fintype.card N + 1) [] start 0 t f' hres
        have hle := idaDfs_exceed_le (Fintype.card N + 1) [] start 0 t
          (List.nodup_singleton start) (by simp) f' hres
        conv_lhs => unfold idastarAux
        rw [hres]
        exact ih f' hle (by omega)

/-- What `idastar` certifies from its first threshold. -/
theorem idastar_spec [Fintype N] (start : N) (succs : N → List (N × Nat))
    (h : N → Nat) (goalp : N → Bool) (hadm : Admissible succs goalp h) :
    (idastar start succs h goalp = none →
      ∀ g : Nat, ¬GoalCostFrom succs goalp start g) ∧
    (∀ (p : List N) (c : Nat), idastar start succs h goalp = some (p, c) →
      GoalCostFrom succs goalp start c ∧
      ∀ g : Nat, GoalCostFrom succs goalp start g → c ≤ g) := by
  by_cases hreach : ∃ g : Nat, GoalCostFrom succs goalp start g
  · obtain ⟨Cs, hmem, hlow⟩ := exists_least_goalCost hreach
    have hts : h start ≤ Cs := hadm start Cs hmem
    obtain ⟨p₀, hp₀⟩ := idastarAux_goal hadm hmem hlow
      (totW succs + hMax h + 2) (h start) hts (by omega)
    have hida : idastar start succs h goalp = some (p₀, Cs) := by
      unfold idastar
      exact hp₀
    constructor
    · intro hnone
      rw [hida] at hnone
      cases hnone
    · intro p c hc
      rw [hida] at hc
      have hpc := Option.some.inj hc
      have hcCs : Cs = c := congrArg Prod.snd hpc
      rw [← hcCs]
      exact ⟨hmem, hlow⟩
  · have hno : ∀ g : Nat, ¬GoalCostFrom succs goalp start g :=
      fun g hg => hreach ⟨g, hg⟩
    have hts : h start ≤ totW succs + hMax h := by
      have hsup : h start ≤ hMax h := Finset.le_sup (Finset.mem_univ start)
      omega
    have hida : idastar start succs h goalp = none := by
      unfold idastar
      exact idastarAux_nogoal hno (totW succs + hMax h + 2) (h start) hts (by omega)
    constructor
    · intro hnone
      exact hno
    · intro p c hc
      rw [hida] at hc
      cases hc

/-- C3: under an admissible heuristic, `astar` and `idastar` either both
answer `None` (no goal reachable) or both answer `Some` with the same total
cost — the least cost over all goal walks — and that cost is at least
`h(start)`. -/
theorem astar_idastar_agree [Fintype N] (start : N)
    (succs : N → List (N × Nat)) (h : N → Nat) (goalp : N → Bool)
    (hadm : Admissible succs goalp h) :
    ((astar start succs h goalp).isSome =
      (idastar start succs h goalp).isSome) ∧
    (∀ (p₁ : List N) (c₁ : Nat) (p₂ : List N) (c₂ : Nat),
      astar start succs h goalp = some (p₁, c₁) →
      idastar start succs h goalp = some (p₂, c₂) → c₁ = c₂) ∧
    (∀ (p : List N) (c : Nat), astar start succs h goalp = some (p, c) →
      h start ≤ c) := by
  obtain ⟨ha1, ha2⟩ := astar_spec start succs h goalp hadm
  obtain ⟨hi1, hi2⟩ := idastar_spec start succs h goalp hadm
  refine ⟨?_, ?_, ?_⟩
  · cases hca : astar start succs h goalp with
    | none =>
      cases hci : idastar start succs h goalp with
      | none => rfl
      | some pc =>
        obtain ⟨p, c⟩ := pc
        exact absurd (hi2 p c hci).1 (ha1 hca c)
    | some pc =>
      cases hci : idastar start succs h goalp with
      | none =>
        obtain ⟨p, c⟩ := pc
        exact absurd (ha2 p c hca).1 (hi1 hci c)
      | some pc' => rfl
  · intro p₁ c₁ p₂ c₂ hca hci
    obtain ⟨hm₁, hl₁⟩ := ha2 p₁ c₁ hca
    obtain ⟨hm₂, hl₂⟩ := hi2 p₂ c₂ hci
    exact le_antisymm (hl₁ c₂ hm₂) (hl₂ c₁ hm₁)
  · intro p c hca
    exact hadm start c (ha2 p c hca).1

/-- C3 witness: the one-edge graph `0 →3 1` with the zero heuristic (which
is admissible) and goal `1`: both engines answer, with the same cost. -/
theorem astar_idastar_agree_witness :
    ((astar (N := Fin 2) 0 (fun n => if n = 0 then [((1 : Fin 2), 3)] else [])
        (fun _ => 0) (fun n => decide (n = 1))).isSome =
      (idastar (N := Fin 2) 0 (fun n => if n = 0 then [((1 : Fin 2), 3)] else [])
        (fun _ => 0) (fun n => decide (n = 1))).isSome) ∧
    astar (N := Fin 2) 0 (fun n => if n = 0 then [((1 : Fin 2), 3)] else [])
      (fun _ => 0) (fun n => decide (n = 1)) = some ([0, 1], 3) ∧
    idastar (N := Fin 2) 0 (fun n => if n = 0 then [((1 : Fin 2), 3)] else [])
      (fun _ => 0) (fun n => decide (n = 1)) = some ([0, 1], 3) :=
  ⟨(astar_idastar_agree 0
      (fun n => if n = 0 then [((1 : Fin 2), 3)] else [])
      (fun _ => 0) (fun n => decide (n = 1))
      (fun n g hg => Nat.zero_le g)).1,
    by decide, by decide⟩

end Pathfinding
